import Mathlib

/-!
# Verification of `gadgetconfig` (package usb/usbgadget/gadgetconfig)

Shallow embedding of the step primitive, the step sequences, the descriptor
model and the compiler `Gadget.CreateSteps` / `Gadget.RemoveSteps`, of the
keyboard reports and `Device.TypeText` of the package `hidgadget`, and of
`Device.Rdwr` of the package `i2c`.

Conventions of the embedding.

* A Go `string` is a sequence of bytes. It is embedded as a Lean `String` whose
  characters stand for the bytes (all literals of the source are ASCII).
* A Go slice that is built locally and then returned is embedded as a `List`;
  `append` is `++`, and the in-place loop of `Steps.PrependPath` over a slice
  that has no other owner is `List.map`. Where the sharing of a slice matters,
  the slice is a reference into a memory of backing arrays (`Heap`, `Mem.Undo`,
  `Mem.Reverse`, `Mem.PrependPath`).
* Calls of the operating system (files, device writes, `ioctl`) are parameters:
  functions on a state that give the state they leave and the error, if any.
* `path/filepath.Join` and `path/filepath.Clean` are the Unix versions of the Go
  standard library (separator `/`, no volume names): `Clean` walks the
  `/`-separated elements of the path, drops empty and `.` elements, lets a
  `..` element remove the element before it (or keeps it when the path is not
  rooted and nothing can be removed, or drops it at the root), and `Join`
  cleans the elements from the first non-empty one on, joined with `/`.
* Go `int` is embedded as `Int`.
-/

namespace GadgetConfig

/-! ## `path/filepath` on Unix -/

/-- The `/`-separated elements of a path, empty elements included
(`strings.Split(path, "/")`). -/
def splitSep : List Char → List (List Char)
  | [] => [[]]
  | c :: cs =>
    if c = '/' then [] :: splitSep cs
    else (c :: (splitSep cs).headD []) :: (splitSep cs).tail

/-- One iteration of the loop of `filepath.Clean`, on the element `e`. The
output buffer is kept as the list `st` of the elements written so far, last
one first. The source's test `out.w > dotdot` (something can be removed) is
`st` having a last element that is not `..`. -/
def cleanElem (rooted : Bool) (st : List (List Char)) (e : List Char) : List (List Char) :=
  if e = [] then st                       -- empty path element
  else if e = ['.'] then st               -- . element
  else if e = ['.', '.'] then             -- .. element
    match st with
    | [] => if rooted then [] else [e]    -- at the root: dropped; else appended
    | t :: rest => if t = ['.', '.'] then e :: st else rest
  else e :: st                            -- real path element

/-- The elements that `filepath.Clean` keeps, in order. -/
def cleanElems (rooted : Bool) (es : List (List Char)) : List (List Char) :=
  (es.foldl (cleanElem rooted) []).reverse

/-- The elements joined with `/`. -/
def joinSep : List (List Char) → List Char
  | [] => []
  | [e] => e
  | e :: es => e ++ '/' :: joinSep es

/-- The text of the output buffer of `filepath.Clean`: the leading `/` of a
rooted path, then the kept elements separated by `/`; an empty output is
turned into `.`. -/
def renderPath (rooted : Bool) (es : List (List Char)) : List Char :=
  if rooted then '/' :: joinSep es
  else if es = [] then ['.'] else joinSep es

/-- Is the path rooted (does it begin with the separator)? -/
def isRooted : List Char → Bool
  | c :: _ => c = '/'
  | [] => false

/-- The function `filepath.Clean` on the characters of a path. -/
def cleanChars (p : List Char) : List Char :=
  if p = [] then ['.']
  else renderPath (isRooted p) (cleanElems (isRooted p) (splitSep p))

/-- The function `filepath.Join` of two elements, on characters: the elements
from the first non-empty one on are joined with `/` and cleaned; when both
are empty the result is empty. -/
def joinChars (a b : List Char) : List Char :=
  if a ≠ [] then cleanChars (a ++ '/' :: b)
  else if b ≠ [] then cleanChars b
  else []

/-- The function `filepath.Clean`. -/
def Clean (p : String) : String := ⟨cleanChars p.data⟩

/-- The function `filepath.Join(a, b)`. -/
def Join (a b : String) : String := ⟨joinChars a.data b.data⟩

/-! ## `fmt` and `strconv` -/

/-- The function `strconv.Itoa`. -/
def Itoa (n : Int) : String :=
  if n < 0 then ⟨'-' :: Nat.toDigits 10 n.natAbs⟩ else ⟨Nat.toDigits 10 n.natAbs⟩

/-- The value of `fmt.Sprintf("0x%04x", n)`: the digits are padded with zeros
to the width 4, which a sign takes part of. -/
def sprintfHex04 (n : Int) : String :=
  let digits := Nat.toDigits 16 n.natAbs
  let prec := if n < 0 then 3 else 4
  let padded := List.replicate (prec - digits.length) '0' ++ digits
  ⟨'0' :: 'x' :: ((if n < 0 then ['-'] else []) ++ padded)⟩

/-- The value of the format `"%s"` between double quotes, as in
`fmt.Sprintf("\"%s\"", v)`. -/
def sprintfQuoted (v : String) : String := "\"" ++ v ++ "\""

/-- The conversion `[]byte(s)` of a string: its bytes. -/
def stringBytes (s : String) : List Nat := s.data.map Char.toNat

/-! ## `encoding/base64` -/

/-- The alphabet of `base64.StdEncoding`. -/
def encodeStd : List Char :=
  "ABCDEFGHIJKLMNOPQRSTUVWXYZabcdefghijklmnopqrstuvwxyz0123456789+/".data

/-- The character of the six low bits of `v`: `enc.encode[v & 0x3F]`. -/
def encodeChar (v : Nat) : Char := encodeStd.getD (v % 64) 'A'

/-- The method `Encoding.Encode` of `base64.StdEncoding` (with padding `=`), on a list of
bytes. Three bytes form `val = b0<<16 | b1<<8 | b2`, written as four characters for
`val>>18`, `val>>12`, `val>>6` and `val`; one or two remaining bytes are written as two or
three characters and padded. For bytes the shifts and the bitwise or are the products and
the sums used here. -/
def base64Encode : List Nat → List Char
  | b0 :: b1 :: b2 :: rest =>
    let val := b0 * 65536 + b1 * 256 + b2
    encodeChar (val / 262144) :: encodeChar (val / 4096) :: encodeChar (val / 64) ::
      encodeChar val :: base64Encode rest
  | [b0, b1] =>
    let val := b0 * 65536 + b1 * 256
    [encodeChar (val / 262144), encodeChar (val / 4096), encodeChar (val / 64), '=']
  | [b0] =>
    let val := b0 * 65536
    [encodeChar (val / 262144), encodeChar (val / 4096), '=', '=']
  | [] => []

/-- The method `base64.StdEncoding.EncodeToString`. -/
def EncodeToString (src : List Nat) : String := ⟨base64Encode src⟩

/-! ## step.go -/

/-- The type `Action`. -/
inductive Action where
  | Noop
  | Comment
  | Mkdir
  | MkdirCreateOnly
  | Rmdir
  | Write
  | WriteBinary
  | Remove
  | Symlink
  deriving DecidableEq, Repr

/-- The type `Step`. -/
structure Step where
  Action : Action
  Arg0 : String
  Arg1 : String
  deriving DecidableEq, Repr

/-- The method `Step.PrependPath`. -/
def Step.PrependPath (s : Step) (path : String) : Step :=
  match s.Action with
  | .Noop | .Comment => s
  | .Symlink => { s with Arg0 := Join path s.Arg0, Arg1 := Join path s.Arg1 }
  | _ => { s with Arg0 := Join path s.Arg0 }

/-- The method `Step.Undo`. -/
def Step.Undo (s : Step) : Step :=
  match s.Action with
  | .Mkdir => ⟨.Rmdir, s.Arg0, ""⟩
  | .Symlink => ⟨.Remove, s.Arg1, ""⟩
  | _ => ⟨.Noop, "", ""⟩

/-- The type `Steps`. -/
abbrev Steps := List Step

/-- The method `Steps.Append`. -/
def Steps.Append (ss : Steps) (s : Step) : Steps := ss ++ [s]

/-- The method `Steps.Extend`. -/
def Steps.Extend (ss more : Steps) : Steps := ss ++ more

/-- The method `Steps.Clone`. -/
def Steps.Clone (steps : Steps) : Steps := steps

/-- The method `Steps.Reverse`. -/
def Steps.Reverse (steps : Steps) : Steps := (Steps.Clone steps).reverse

/-- The method `Steps.Undo`. -/
def Steps.Undo (steps : Steps) : Steps := (Steps.Clone steps).map Step.Undo

/-- The method `Steps.PrependPath`. -/
def Steps.PrependPath (steps : Steps) (path : String) : Steps :=
  steps.map (fun s => s.PrependPath path)

/-- The method `Step.ShellArgs`. -/
def Step.ShellArgs (s : Step) : List String :=
  match s.Action with
  | .Noop => []
  | .Comment => ["#", s.Arg0]
  | .Mkdir | .MkdirCreateOnly => ["mkdir", "-p", s.Arg0]
  | .Rmdir => ["rmdir", s.Arg0]
  | .Write => ["echo", sprintfQuoted s.Arg1, "|", "tee", s.Arg0]
  | .WriteBinary =>
    let encoded := EncodeToString (stringBytes s.Arg1)
    ["echo", sprintfQuoted encoded, "|", "base64", "-d", "|", "tee", s.Arg0]
  | .Remove => ["rm", "-f", s.Arg0]
  | .Symlink => ["ln", "-s", s.Arg0, s.Arg1]

/-- The calls that `Step.Run` makes to the packages `os` and `ioutil`, on a state `σ` of the
file system: each gives the state it leaves and the error it returns, if any. The calls are
`os.MkdirAll(path, perm)`, `os.Remove(name)`, `ioutil.WriteFile(name, data, perm)` and
`os.Symlink(oldname, newname)`. -/
structure FileOps (σ ε : Type) where
  MkdirAll : String → Nat → σ → σ × Option ε
  Remove : String → σ → σ × Option ε
  WriteFile : String → List Nat → Nat → σ → σ × Option ε
  Symlink : String → String → σ → σ × Option ε

/-- The method `Step.Run`. -/
def Step.Run {σ ε : Type} (fs : FileOps σ ε) (s : Step) (w : σ) : σ × Option ε :=
  match s.Action with
  | .Mkdir | .MkdirCreateOnly => fs.MkdirAll s.Arg0 0o775 w
  | .Rmdir => fs.Remove s.Arg0 w
  | .Write | .WriteBinary =>
    if s.Arg1 ≠ "" then fs.WriteFile s.Arg0 (stringBytes s.Arg1) 0o664 w
    else (w, none)
  | .Remove => fs.Remove s.Arg0 w
  | .Symlink => fs.Symlink s.Arg0 s.Arg1 w
  | _ => (w, none)

/-- The error of `Steps.Run`, `fmt.Errorf("step %d %+v: error %w", i, s, err)`: the index
and the step that failed, and the error it wraps. -/
structure RunError (ε : Type) where
  index : Nat
  step : Step
  err : ε
  deriving DecidableEq, Repr

/-- The loop of `Steps.Run` from the index `i` on. The execution of one step is the
parameter `stepRun`: on a state of the file system it gives the state it leaves and the
error it returns, if any. -/
def Steps.runFrom {σ ε : Type} (stepRun : Step → σ → σ × Option ε) :
    Nat → Steps → σ → σ × Option (RunError ε)
  | _, [], w => (w, none)
  | i, s :: rest, w =>
    match stepRun s w with
    | (w1, some err) => (w1, some ⟨i, s, err⟩)
    | (w1, none) => Steps.runFrom stepRun (i + 1) rest w1

/-- The method `Steps.Run`, over the execution `stepRun` of one step. -/
def Steps.Run {σ ε : Type} (stepRun : Step → σ → σ × Option ε) (steps : Steps) (w : σ) :
    σ × Option (RunError ε) :=
  Steps.runFrom stepRun 0 steps w

/-- The type `ShellSteps`. -/
abbrev ShellSteps := List (List String)

/-- The method `Steps.ShellArgs`. -/
def Steps.ShellArgs (steps : Steps) : ShellSteps := steps.map Step.ShellArgs

/-- The function `strings.Join(args, " ")`. -/
def joinSpace : List String → String
  | [] => ""
  | [a] => a
  | a :: rest => a ++ " " ++ joinSpace rest

/-- The lines that `ShellSteps.Dump` prints, one for each argument list that is not empty
(each is written by `fmt.Fprintln`, which ends it with a newline). -/
def ShellSteps.dumpLines (shs : ShellSteps) : List String :=
  (shs.filter (fun args => args.length ≠ 0)).map joinSpace

/-- The method `ShellSteps.Dump`: the text written to `w`. -/
def ShellSteps.Dump (shs : ShellSteps) : String :=
  String.join ((ShellSteps.dumpLines shs).map (fun l => l ++ "\n"))

/-! ## step.go: the sequences in memory -/

/-- A value of the type `Steps`, a slice: the backing array it points into, the index of its
first element in that array, and its length. -/
structure StepsRef where
  arr : Nat
  off : Nat
  len : Nat
  deriving DecidableEq, Repr

/-- The memory: the backing arrays of the slices of steps. -/
abbrev Heap := List (List Step)

/-- The backing array of a slice. -/
def Heap.array (h : Heap) (r : StepsRef) : List Step := h.getD r.arr []

/-- The elements of a slice, as a sequence of steps. -/
def Heap.steps (h : Heap) (r : StepsRef) : Steps := ((h.array r).drop r.off).take r.len

/-- A slice lies within its backing array. -/
def Heap.Valid (h : Heap) (r : StepsRef) : Prop := r.off + r.len ≤ (h.array r).length

instance (h : Heap) (r : StepsRef) : Decidable (h.Valid r) := by
  unfold Heap.Valid; infer_instance

/-- The loop `for i := range steps { steps[i] = f(steps[i]) }` on the backing array `a` of a
slice that begins at `off`: the `n` iterations from the index `i` on. -/
def updateFrom (f : Step → Step) (off : Nat) : Nat → Nat → List Step → List Step
  | _, 0, a => a
  | i, n + 1, a =>
    match a[off + i]? with
    | some s => updateFrom f off (i + 1) n (a.set (off + i) (f s))
    | none => updateFrom f off (i + 1) n a

/-- The function `slices.Reverse`, on the backing array `a` of a slice of length `len` that
begins at `off`: the elements of the slice are reversed in place. -/
def reverseIn (off len : Nat) (a : List Step) : List Step :=
  a.take off ++ ((a.drop off).take len).reverse ++ a.drop (off + len)

/-- The method `Steps.Clone`, in memory: `slices.Clone` allocates a new backing array with
the elements of the slice. -/
def Mem.Clone (h : Heap) (steps : StepsRef) : Heap × StepsRef :=
  (h ++ [h.steps steps], ⟨h.length, 0, steps.len⟩)

/-- The method `Steps.Reverse`, in memory. -/
def Mem.Reverse (h : Heap) (steps : StepsRef) : Heap × StepsRef :=
  let (h1, rev) := Mem.Clone h steps
  (h1.set rev.arr (reverseIn rev.off rev.len (h1.array rev)), rev)

/-- The method `Steps.Undo`, in memory. -/
def Mem.Undo (h : Heap) (steps : StepsRef) : Heap × StepsRef :=
  let (h1, undo) := Mem.Clone h steps
  (h1.set undo.arr (updateFrom Step.Undo undo.off 0 undo.len (h1.array undo)), undo)

/-- The method `Steps.PrependPath`, in memory: the loop writes to the elements of the
receiver, which is returned. -/
def Mem.PrependPath (h : Heap) (steps : StepsRef) (path : String) : Heap × StepsRef :=
  (h.set steps.arr
    (updateFrom (fun s => s.PrependPath path) steps.off 0 steps.len (h.array steps)), steps)

/-! ## functions.go -/

/-- The function `boolToIntStr`. -/
def boolToIntStr (b : Bool) : String := if b then "1" else "0"

/-- The type `MassStorageLun`. -/
structure MassStorageLun where
  Name : String
  File : String
  Removable : Bool
  Cdrom : Bool
  deriving DecidableEq, Repr

/-- The closed set of implementations of the interface `Function`:
`AcmFunction`, `EemFunction`, `NcmFunction`, `HidFunction` (its `Descriptor`
is a list of bytes) and `MassStorageFunction`. -/
inductive Function where
  | Acm (Name : String)
  | Eem (Name DevAddr HostAddr : String)
  | Ncm (Name DevAddr HostAddr : String)
  | Hid (Name : String) (Protocol Subclass ReportLength : Int) (Descriptor : List Nat)
  | MassStorage (Name : String) (Luns : List MassStorageLun)
  deriving DecidableEq, Repr

/-- The conversion `string(b)` of a byte slice. -/
def bytesToString (b : List Nat) : String := ⟨b.map (fun x => Char.ofNat (x % 256))⟩

/-- The method `GadgetFunctionName`. -/
def Function.GadgetFunctionName : Function → String
  | .Acm n => "acm." ++ n
  | .Eem n _ _ => "eem." ++ n
  | .Ncm n _ _ => "ncm." ++ n
  | .Hid n _ _ _ _ => "hid." ++ n
  | .MassStorage n _ => "mass_storage." ++ n

/-- The method `MassStorageLun.lunCreate`. -/
def MassStorageLun.lunCreate (lun : MassStorageLun) : Steps :=
  [ ⟨.Write, "file", lun.File⟩,
    ⟨.Write, "removable", boolToIntStr lun.Removable⟩,
    ⟨.Write, "cdrom", boolToIntStr lun.Cdrom⟩ ]

/-- The body of the loop of `MassStorageFunction.GadgetFunctionCreate`: the
steps of one logical unit, prefixed with `lun.<name>`. -/
def lunSteps (lun : MassStorageLun) : Steps :=
  let lunPath := "lun." ++ lun.Name
  let lsteps : Steps := [⟨.MkdirCreateOnly, "", ""⟩]
  let lsteps := Steps.Extend lsteps lun.lunCreate
  Steps.PrependPath lsteps lunPath

/-- The method `GadgetFunctionCreate`. -/
def Function.GadgetFunctionCreate : Function → Steps
  | .Acm _ => []
  | .Eem _ d h => [⟨.Write, "dev_addr", d⟩, ⟨.Write, "host_addr", h⟩]
  | .Ncm _ d h => [⟨.Write, "dev_addr", d⟩, ⟨.Write, "host_addr", h⟩]
  | .Hid _ p s r d =>
    [ ⟨.Write, "protocol", Itoa p⟩,
      ⟨.Write, "subclass", Itoa s⟩,
      ⟨.Write, "report_length", Itoa r⟩,
      ⟨.WriteBinary, "report_desc", bytesToString d⟩ ]
  | .MassStorage _ luns => luns.foldl (fun steps lun => Steps.Extend steps (lunSteps lun)) []

/-! ## gadget.go -/

/-- The constant `GadgetConfigBasePath`. -/
def GadgetConfigBasePath : String := "/sys/kernel/config/usb_gadget"

/-- The constant `StrEnglish`. -/
def StrEnglish : String := "0x409"

/-- The type `Config`. -/
structure Config where
  Name : String
  Configuration : String
  Functions : List Function
  deriving DecidableEq, Repr

/-- The type `Gadget`. -/
structure Gadget where
  Name : String
  GadgetPath : String
  IdVendor : Int
  IdProduct : Int
  SerialNumber : String
  Manufacturer : String
  Product : String
  UDC : String
  Configs : List Config
  deriving DecidableEq, Repr

/-- The method `Gadget.gadgetPath`. -/
def Gadget.gadgetPath (g : Gadget) : String :=
  if g.GadgetPath ≠ "" then g.GadgetPath else Join GadgetConfigBasePath g.Name

/-- The body of the inner loop of `Gadget.CreateSteps`: the steps appended
for the function `fn` of the configuration named `cName`. -/
def functionSteps (cName : String) (fn : Function) : Steps :=
  let configPath := "configs/" ++ cName
  let name := fn.GadgetFunctionName
  let fnPath := "functions/" ++ name
  let fnSteps : Steps :=
    [ ⟨.Comment, "config `" ++ cName ++ "`, function `" ++ name ++ "`", ""⟩,
      ⟨.Mkdir, "", ""⟩ ]
  let fnSteps := Steps.Extend fnSteps fn.GadgetFunctionCreate
  let fnSteps := Steps.PrependPath fnSteps fnPath
  Steps.Append fnSteps ⟨.Symlink, fnPath, configPath ++ "/" ++ name⟩

/-- The body of the outer loop of `Gadget.CreateSteps`: the steps appended
for the configuration `c`. -/
def configSteps (c : Config) : Steps :=
  let configPath := "configs/" ++ c.Name
  let cs : Steps :=
    [ ⟨.Comment, "config `" ++ c.Name ++ "`", ""⟩,
      ⟨.Mkdir, "", ""⟩,
      ⟨.Mkdir, "strings/" ++ StrEnglish, ""⟩,
      ⟨.Write, "strings/" ++ StrEnglish ++ "/configuration", c.Configuration⟩ ]
  let cs := Steps.PrependPath cs configPath
  c.Functions.foldl (fun steps fn => Steps.Extend steps (functionSteps c.Name fn)) cs

/-- The steps of `Gadget.CreateSteps` before the final `PrependPath`, with
paths relative to the gadget's root. -/
def Gadget.relSteps (g : Gadget) : Steps :=
  let steps : Steps :=
    [ ⟨.Mkdir, "", ""⟩,
      ⟨.Write, "idVendor", sprintfHex04 g.IdVendor⟩,
      ⟨.Write, "idProduct", sprintfHex04 g.IdProduct⟩,
      ⟨.Mkdir, "strings/" ++ StrEnglish, ""⟩,
      ⟨.Write, "strings/" ++ StrEnglish ++ "/serialnumber", g.SerialNumber⟩,
      ⟨.Write, "strings/" ++ StrEnglish ++ "/manufacturer", g.Manufacturer⟩,
      ⟨.Write, "strings/" ++ StrEnglish ++ "/product", g.Product⟩ ]
  let steps := g.Configs.foldl (fun steps c => Steps.Extend steps (configSteps c)) steps
  if g.UDC ≠ "" then Steps.Append steps ⟨.Write, "UDC", g.UDC⟩ else steps

/-- The method `Gadget.CreateSteps`. -/
def Gadget.CreateSteps (g : Gadget) : Steps :=
  Steps.PrependPath g.relSteps g.gadgetPath

/-- The method `Gadget.RemoveSteps`. -/
def Gadget.RemoveSteps (g : Gadget) : Steps :=
  Steps.Reverse (Steps.Undo g.CreateSteps)

/-- The method `Gadget.ShellCreate`. -/
def Gadget.ShellCreate (g : Gadget) : ShellSteps := Steps.ShellArgs g.CreateSteps

/-- The method `Gadget.ShellRemove`. -/
def Gadget.ShellRemove (g : Gadget) : ShellSteps := Steps.ShellArgs g.RemoveSteps

/-! ## hidgadget.go -/

/-- The type `Key`, a `uint16`: the modifier bits in the high byte, the key code in the low
byte. -/
abbrev Key := Nat

/-- The constant `Modifier_LeftShift`. -/
def Modifier_LeftShift : Nat := 0x02

/-- The constant `Key_LeftShift`. -/
def Key_LeftShift : Key := Modifier_LeftShift <<< 8

/-- The constants `Key_A` to `Key_Z`. -/
def Key_A : Key := 0x0004
def Key_B : Key := 0x0005
def Key_C : Key := 0x0006
def Key_D : Key := 0x0007
def Key_E : Key := 0x0008
def Key_F : Key := 0x0009
def Key_G : Key := 0x000A
def Key_H : Key := 0x000B
def Key_I : Key := 0x000C
def Key_J : Key := 0x000D
def Key_K : Key := 0x000E
def Key_L : Key := 0x000F
def Key_M : Key := 0x0010
def Key_N : Key := 0x0011
def Key_O : Key := 0x0012
def Key_P : Key := 0x0013
def Key_Q : Key := 0x0014
def Key_R : Key := 0x0015
def Key_S : Key := 0x0016
def Key_T : Key := 0x0017
def Key_U : Key := 0x0018
def Key_V : Key := 0x0019
def Key_W : Key := 0x001A
def Key_X : Key := 0x001B
def Key_Y : Key := 0x001C
def Key_Z : Key := 0x001D

/-- The constants `Key_1` to `Key_0`. -/
def Key_1 : Key := 0x001E
def Key_2 : Key := 0x001F
def Key_3 : Key := 0x0020
def Key_4 : Key := 0x0021
def Key_5 : Key := 0x0022
def Key_6 : Key := 0x0023
def Key_7 : Key := 0x0024
def Key_8 : Key := 0x0025
def Key_9 : Key := 0x0026
def Key_0 : Key := 0x0027

/-- The constants of the other keys that the US keymap uses. -/
def Key_Enter : Key := 0x0028
def Key_Backspace : Key := 0x002A
def Key_Tab : Key := 0x002B
def Key_Space : Key := 0x002C
def Key_Minus : Key := 0x002D
def Key_Equal : Key := 0x002E
def Key_LeftBracket : Key := 0x002F
def Key_RightBracket : Key := 0x0030
def Key_Backslash : Key := 0x0031
def Key_Semicolon : Key := 0x0033
def Key_Apostrophe : Key := 0x0034
def Key_Grave : Key := 0x0035
def Key_Comma : Key := 0x0036
def Key_Period : Key := 0x0037
def Key_Slash : Key := 0x0038
def Key_Return : Key := 0x009E

/-- The type `Keymap`, a `map[byte]Key`, as the list of its entries; the `nil` map is the
value `none` of `Option Keymap`. -/
abbrev Keymap := List (Nat × Key)

/-- The lookup `keymap[c]` with its `ok` flag: `none` when the byte has no entry. -/
def Keymap.get (keymap : Keymap) (c : Nat) : Option Key := List.lookup c keymap

/-- The variable `USQwertyKeyboard`; the bytes of the characters are written as numbers where
the character is a control, a quote, a backslash, a backtick or a brace. -/
def USQwertyKeyboard : Keymap :=
  [ ('a'.toNat, Key_A), ('b'.toNat, Key_B), ('c'.toNat, Key_C), ('d'.toNat, Key_D),
    ('e'.toNat, Key_E), ('f'.toNat, Key_F), ('g'.toNat, Key_G), ('h'.toNat, Key_H),
    ('i'.toNat, Key_I), ('j'.toNat, Key_J), ('k'.toNat, Key_K), ('l'.toNat, Key_L),
    ('m'.toNat, Key_M), ('n'.toNat, Key_N), ('o'.toNat, Key_O), ('p'.toNat, Key_P),
    ('q'.toNat, Key_Q), ('r'.toNat, Key_R), ('s'.toNat, Key_S), ('t'.toNat, Key_T),
    ('u'.toNat, Key_U), ('v'.toNat, Key_V), ('w'.toNat, Key_W), ('x'.toNat, Key_X),
    ('y'.toNat, Key_Y), ('z'.toNat, Key_Z),
    ('A'.toNat, Key_LeftShift ||| Key_A), ('B'.toNat, Key_LeftShift ||| Key_B),
    ('C'.toNat, Key_LeftShift ||| Key_C), ('D'.toNat, Key_LeftShift ||| Key_D),
    ('E'.toNat, Key_LeftShift ||| Key_E), ('F'.toNat, Key_LeftShift ||| Key_F),
    ('G'.toNat, Key_LeftShift ||| Key_G), ('H'.toNat, Key_LeftShift ||| Key_H),
    ('I'.toNat, Key_LeftShift ||| Key_I), ('J'.toNat, Key_LeftShift ||| Key_J),
    ('K'.toNat, Key_LeftShift ||| Key_K), ('L'.toNat, Key_LeftShift ||| Key_L),
    ('M'.toNat, Key_LeftShift ||| Key_M), ('N'.toNat, Key_LeftShift ||| Key_N),
    ('O'.toNat, Key_LeftShift ||| Key_O), ('P'.toNat, Key_LeftShift ||| Key_P),
    ('Q'.toNat, Key_LeftShift ||| Key_Q), ('R'.toNat, Key_LeftShift ||| Key_R),
    ('S'.toNat, Key_LeftShift ||| Key_S), ('T'.toNat, Key_LeftShift ||| Key_T),
    ('U'.toNat, Key_LeftShift ||| Key_U), ('V'.toNat, Key_LeftShift ||| Key_V),
    ('W'.toNat, Key_LeftShift ||| Key_W), ('X'.toNat, Key_LeftShift ||| Key_X),
    ('Y'.toNat, Key_LeftShift ||| Key_Y), ('Z'.toNat, Key_LeftShift ||| Key_Z),
    (96, Key_Grave),                             -- backtick
    ('1'.toNat, Key_1), ('2'.toNat, Key_2), ('3'.toNat, Key_3), ('4'.toNat, Key_4),
    ('5'.toNat, Key_5), ('6'.toNat, Key_6), ('7'.toNat, Key_7), ('8'.toNat, Key_8),
    ('9'.toNat, Key_9), ('0'.toNat, Key_0), ('-'.toNat, Key_Minus), ('='.toNat, Key_Equal),
    ('['.toNat, Key_LeftBracket), (']'.toNat, Key_RightBracket),
    (92, Key_Backslash),                         -- backslash
    (';'.toNat, Key_Semicolon),
    (39, Key_Apostrophe),                        -- single quote
    (10, Key_Enter),                             -- line feed
    (','.toNat, Key_Comma), ('.'.toNat, Key_Period), ('/'.toNat, Key_Slash),
    ('~'.toNat, Key_LeftShift ||| Key_Grave), ('!'.toNat, Key_LeftShift ||| Key_1),
    ('@'.toNat, Key_LeftShift ||| Key_2), ('#'.toNat, Key_LeftShift ||| Key_3),
    ('$'.toNat, Key_LeftShift ||| Key_4), ('%'.toNat, Key_LeftShift ||| Key_5),
    ('^'.toNat, Key_LeftShift ||| Key_6), ('&'.toNat, Key_LeftShift ||| Key_7),
    ('*'.toNat, Key_LeftShift ||| Key_8), ('('.toNat, Key_LeftShift ||| Key_9),
    (')'.toNat, Key_LeftShift ||| Key_0), ('_'.toNat, Key_LeftShift ||| Key_Minus),
    ('+'.toNat, Key_LeftShift ||| Key_Equal),
    (123, Key_LeftShift ||| Key_LeftBracket),    -- opening brace
    (125, Key_LeftShift ||| Key_RightBracket),   -- closing brace
    ('|'.toNat, Key_LeftShift ||| Key_Backslash),
    (':'.toNat, Key_LeftShift ||| Key_Semicolon),
    (34, Key_LeftShift ||| Key_Apostrophe),      -- double quote
    ('<'.toNat, Key_LeftShift ||| Key_Comma), ('>'.toNat, Key_LeftShift ||| Key_Period),
    ('?'.toNat, Key_LeftShift ||| Key_Slash),
    (8, Key_Backspace),                          -- backspace
    (9, Key_Tab),                                -- tab
    (' '.toNat, Key_Space),
    (13, Key_Return) ]                           -- carriage return

/-- The method `Key.Modifier`. -/
def Key.Modifier (k : Key) : Nat :=
  let v := k &&& 0xff00
  if v ≠ 0 then v >>> 8 else 0

/-- The method `Key.Keycode`. -/
def Key.Keycode (k : Key) : Nat := k &&& 0xff

/-- The type `Report`; the array `Keycodes` has six bytes. -/
structure Report where
  Mod : Nat
  Keycodes : List Nat
  deriving DecidableEq, Repr

/-- The constant `ReportLen`. -/
def ReportLen : Nat := 8

/-- The zero value of `Report`. -/
def Report.zero : Report := ⟨0, List.replicate 6 0⟩

/-- The loop of `Report.SetKeys`, with the index `i` of the next key code. -/
def Report.setKeysFrom (i : Nat) (r : Report) : List Key → Report
  | [] => r
  | k :: ks =>
    if i = r.Keycodes.length then r
    else
      let r1 : Report := if Key.Modifier k ≠ 0 then { r with Mod := r.Mod ||| Key.Modifier k } else r
      if Key.Keycode k ≠ 0 then
        Report.setKeysFrom (i + 1) { r1 with Keycodes := r1.Keycodes.set i (Key.Keycode k) } ks
      else Report.setKeysFrom i r1 ks

/-- The method `Report.SetKeys`. -/
def Report.SetKeys (r : Report) (keys : List Key) : Report := Report.setKeysFrom 0 r keys

/-- The method `Report.Raw`: the modifier byte, a zero byte, the six key codes. -/
def Report.Raw (r : Report) : List Nat := r.Mod :: 0 :: r.Keycodes

/-- The type `Device`, seen from `TypeText`: the write `dev.f.Write` of the bytes of a report
on a state of the device file, which gives the state it leaves and the error it returns, if
any, and the pause `time.Sleep(dev.keyPressDuration)`. -/
structure Device (σ ε : Type) where
  Write : List Nat → σ → σ × Option ε
  Sleep : σ → σ

/-- The method `Device.SendReport`. -/
def Device.SendReport {σ ε : Type} (dev : Device σ ε) (r : Report) (w : σ) : σ × Option ε :=
  dev.Write r.Raw w

/-- The method `Device.HoldKeys`. -/
def Device.HoldKeys {σ ε : Type} (dev : Device σ ε) (keys : List Key) (w : σ) : σ × Option ε :=
  dev.SendReport (Report.zero.SetKeys keys) w

/-- The method `Device.ReleaseKeys`. -/
def Device.ReleaseKeys {σ ε : Type} (dev : Device σ ε) (w : σ) : σ × Option ε :=
  dev.Write (List.replicate ReportLen 0) w

/-- The method `Device.holdPause`. -/
def Device.holdPause {σ ε : Type} (dev : Device σ ε) (w : σ) : σ := dev.Sleep w

/-- The method `Device.PressKeys`. -/
def Device.PressKeys {σ ε : Type} (dev : Device σ ε) : List Key → σ → σ × Option ε
  | [], w => (w, none)
  | k :: ks, w =>
    if k = 0 then Device.PressKeys dev ks w
    else
      match dev.HoldKeys [k] w with
      | (w1, some err) => (w1, some err)
      | (w1, none) =>
        match dev.ReleaseKeys (dev.holdPause w1) with
        | (w2, some err) => (w2, some err)
        | (w2, none) => Device.PressKeys dev ks (dev.holdPause w2)

/-- The errors that `Device.TypeText` returns: the type `MissingKeymapError`, a byte, or the
error of the device. -/
inductive TypeTextError (ε : Type) where
  | MissingKeymapError (c : Nat)
  | device (err : ε)
  deriving DecidableEq, Repr

/-- The loop of `Device.TypeText` over the bytes of the text. -/
def Device.typeBytes {σ ε : Type} (dev : Device σ ε) (keymap : Keymap) :
    List Nat → σ → σ × Option (TypeTextError ε)
  | [], w => (w, none)
  | c :: cs, w =>
    match keymap.get c with
    | none => (w, some (.MissingKeymapError c))
    | some k =>
      if k = 0 then (w, some (.MissingKeymapError c))
      else
        match dev.PressKeys [k] w with
        | (w1, some err) => (w1, some (.device err))
        | (w1, none) => Device.typeBytes dev keymap cs w1

/-- The method `Device.TypeText`; a `nil` keymap stands for `USQwertyKeyboard`. -/
def Device.TypeText {σ ε : Type} (dev : Device σ ε) (text : String) (keymap : Option Keymap)
    (w : σ) : σ × Option (TypeTextError ε) :=
  let keymap := match keymap with
    | none => USQwertyKeyboard
    | some m => m
  Device.typeBytes dev keymap (stringBytes text) w

/-! ## i2c: uapi.go and device.go -/

/-- The constant `_I2C_RDWR`. -/
def I2C.I2C_RDWR : Nat := 0x0707

/-- The constant `_I2C_RDWR_IOCTL_MAX_MSGS`. -/
def I2C.I2C_RDWR_IOCTL_MAX_MSGS : Nat := 42

/-- The type `i2c_msg`. The pointer `bufPtr` is kept as the buffer it points to; `none` is
the zero pointer. -/
structure I2C.i2c_msg where
  addr : Nat
  flags : Nat
  len : Nat
  bufPtr : Option (List Nat)
  deriving DecidableEq, Repr

/-- The zero value of `i2c_msg`. -/
def I2C.i2c_msg.zero : I2C.i2c_msg := ⟨0, 0, 0, none⟩

/-- The type `i2c_rdwr_ioctl_data`. The pointer `msgsPtr` is kept as the messages it points
to when the request is submitted, from the first of `cmsgs` on. -/
structure I2C.i2c_rdwr_ioctl_data where
  msgsPtr : List I2C.i2c_msg
  nmsgs : Nat
  deriving DecidableEq, Repr

/-- The type `Msg`. -/
structure I2C.Msg where
  Addr : Nat
  Flags : Int
  Buf : List Nat
  deriving DecidableEq, Repr

/-- The method `Msg.toC`; the conversions to `uint16` are taken modulo `2^16`. -/
def I2C.Msg.toC (msg : I2C.Msg) : I2C.i2c_msg :=
  let out : I2C.i2c_msg :=
    { addr := msg.Addr,
      flags := (msg.Flags % 65536).toNat,
      len := msg.Buf.length % 65536,
      bufPtr := none }
  if out.len > 0 then { out with bufPtr := some msg.Buf } else out

/-- The run-time panic of an index expression `a[i]` out of range. -/
inductive I2C.Panic where
  | indexOutOfRange (index length : Nat)
  deriving DecidableEq, Repr

/-- The type `Device`, seen from `Rdwr`: the call `dev.ioctl(mode, arg)` with the request
that `arg` points to, on a state of the device, which gives the state it leaves and the
error it returns, if any. -/
structure I2C.Device (σ ε : Type) where
  ioctl : Nat → I2C.i2c_rdwr_ioctl_data → σ → σ × Option ε

/-- The loop `for i := range cmsgs { cmsgs[i] = msgs[i].toC() }` of `Device.Rdwr`; `cmsgs`
is not longer than `msgs`, so `msgs[i]` is in range. -/
def I2C.fillMsgs (msgs : List I2C.Msg) (cmsgs : List I2C.i2c_msg) : List I2C.i2c_msg :=
  (List.range cmsgs.length).foldl
    (fun c i =>
      match msgs[i]? with
      | some m => c.set i m.toC
      | none => c)
    cmsgs

/-- The method `Device.Rdwr`. The element access `cmsgs[0]` whose address goes into the
request is evaluated before the loop and before the call of `ioctl`; the deferred function
clears the pointers of the local request after the call. -/
def I2C.Device.Rdwr {σ ε : Type} (dev : I2C.Device σ ε) (msgs : List I2C.Msg) (w : σ) :
    Except I2C.Panic (σ × Option ε) :=
  let raw : List I2C.i2c_msg := List.replicate I2C.I2C_RDWR_IOCTL_MAX_MSGS I2C.i2c_msg.zero
  let cmsgs := raw.take (min msgs.length raw.length)
  if 0 < cmsgs.length then
    let nmsgs := cmsgs.length % 4294967296
    let cmsgs := I2C.fillMsgs msgs cmsgs
    .ok (dev.ioctl I2C.I2C_RDWR { msgsPtr := cmsgs, nmsgs := nmsgs } w)
  else .error (.indexOutOfRange 0 cmsgs.length)

/-! ## Notions used in the statements -/

/-- A real path element for `filepath.Clean`: not empty, neither `.` nor `..`. -/
def IsName (e : List Char) : Prop := e ≠ [] ∧ e ≠ ['.'] ∧ e ≠ ['.', '.']

instance (e : List Char) : Decidable (IsName e) := by unfold IsName; infer_instance

/-- The elements of the path `filepath.Clean p`. -/
def elemsOf (p : List Char) : List (List Char) := cleanElems (isRooted p) (splitSep p)

/-- A relative path: it does not begin with the separator. -/
def IsRel (p : String) : Prop := isRooted p.data = false

instance (p : String) : Decidable (IsRel p) := by unfold IsRel; infer_instance

/-- The path arguments of a step are relative: `Arg0` and `Arg1` of a `Symlink`, `Arg0` of
every other step but `Noop` and `Comment`, which carry no path. -/
def Step.RelPaths (s : Step) : Prop :=
  match s.Action with
  | .Noop | .Comment => True
  | .Symlink => IsRel s.Arg0 ∧ IsRel s.Arg1
  | _ => IsRel s.Arg0

instance (s : Step) : Decidable s.RelPaths := by
  unfold Step.RelPaths; split <;> infer_instance

/-- The last `/`-separated element of the path `p` is `c`. -/
def LastElemIs (c p : String) : Prop := (splitSep p.data).getLast? = some c.data

instance (c p : String) : Decidable (LastElemIs c p) := by unfold LastElemIs; infer_instance

/-- The file names that the write steps of `CreateSteps` use, the controller binding apart. -/
def writeNames : List String :=
  ["idVendor", "idProduct", "serialnumber", "manufacturer", "product", "configuration",
   "dev_addr", "host_addr", "protocol", "subclass", "report_length", "report_desc",
   "file", "removable", "cdrom"]

/-- A write step writes to a file whose name is one of `writeNames`. -/
def WritesKnownFile (s : Step) : Prop :=
  s.Action = .Write ∨ s.Action = .WriteBinary → ∃ c ∈ writeNames, LastElemIs c s.Arg0

/-- A relative path whose cleaned elements are real names (no `..` left in front). -/
def GoodPath (x : String) : Prop := isRooted x.data = false ∧ ∀ e ∈ elemsOf x.data, IsName e

instance (x : String) : Decidable (GoodPath x) := by unfold GoodPath; infer_instance

/-- The path `q` lies strictly beneath the path `p`: both are rooted or both are not, and the
elements of (the cleaned) `p` are a strict initial part of those of `q`. -/
def StrictlyBeneath (q p : String) : Prop :=
  isRooted q.data = isRooted p.data ∧ elemsOf p.data <+: elemsOf q.data ∧
    elemsOf p.data ≠ elemsOf q.data

instance (q p : String) : Decidable (StrictlyBeneath q p) := by
  unfold StrictlyBeneath; infer_instance

/-- The path that the undo of a step acts on: the directory of a `Mkdir`, the link path of a
`Symlink`; the undo of every other step is `Noop`. -/
def undoTarget (s : Step) : Option String :=
  match s.Action with
  | .Mkdir => some s.Arg0
  | .Symlink => some s.Arg1
  | _ => none

/-- The order that teardown needs between an earlier step `x` and a later step `y` of a
creation sequence: a directory made by `y` has nothing of `x` strictly beneath it. -/
def CreateOrdered (x y : Step) : Prop :=
  y.Action = .Mkdir → ∀ q, undoTarget x = some q → ¬ StrictlyBeneath q y.Arg0

/-- The same order on the elements of paths relative to a common root. -/
def CreateOrderedRel (x y : Step) : Prop :=
  y.Action = .Mkdir → ∀ q, undoTarget x = some q →
    ¬ (elemsOf y.Arg0.data <+: elemsOf q.data ∧ elemsOf y.Arg0.data ≠ elemsOf q.data)

/-- The order of a teardown sequence between an earlier step `u` and a later step `v`: when
`u` removes a directory, `v` removes nothing strictly beneath it. -/
def TeardownOrdered (u v : Step) : Prop :=
  ∀ p, u = ⟨.Rmdir, p, ""⟩ → v.Action = .Rmdir ∨ v.Action = .Remove →
    ¬ StrictlyBeneath v.Arg0 p

/-- The paths that the undo of `s` acts on are relative with real names only. -/
def GoodStep (s : Step) : Prop := ∀ q, undoTarget s = some q → GoodPath q

/-- A plain path element: a real name without separator. -/
def PlainName (s : String) : Prop := IsName s.data ∧ '/' ∉ s.data

instance (s : String) : Decidable (PlainName s) := by unfold PlainName; infer_instance

/-- The names of the gadget are plain: every configuration name is a plain path element and
no canonical function name contains a separator. -/
def Gadget.PlainNames (g : Gadget) : Prop :=
  ∀ c ∈ g.Configs, PlainName c.Name ∧ ∀ fn ∈ c.Functions, '/' ∉ fn.GadgetFunctionName.data

instance (g : Gadget) : Decidable g.PlainNames := by unfold Gadget.PlainNames; infer_instance

/-- The gadget is well named: its names are plain and no two configurations share a name. -/
def Gadget.WellNamed (g : Gadget) : Prop :=
  g.PlainNames ∧ (g.Configs.map Config.Name).Nodup

instance (g : Gadget) : Decidable g.WellNamed := by unfold Gadget.WellNamed; infer_instance

/-- The undo of `s` acts on a good path whose elements satisfy `D` when `s` is a `Mkdir`
and `L` when it is a `Symlink`. -/
def TargetIs (s : Step) (D L : List (List Char) → Prop) : Prop :=
  ∀ q, undoTarget s = some q → GoodPath q ∧
    ((s.Action = .Mkdir ∧ D (elemsOf q.data)) ∨ (s.Action = .Symlink ∧ L (elemsOf q.data)))

/-- The directories that the steps of a configuration named `c` make. -/
def ConfigDirs (c : String) (k : List (List Char)) : Prop :=
  k = ["configs".data, c.data] ∨ k = ["configs".data, c.data, "strings".data, "0x409".data] ∨
    ∃ f : Function, k = ["functions".data, f.GadgetFunctionName.data]

/-- The links that the steps of a configuration named `c` make. -/
def ConfigLinks (c : String) (k : List (List Char)) : Prop :=
  ∃ f : Function, k = ["configs".data, c.data, f.GadgetFunctionName.data]

/-- The first seven steps of `CreateSteps`, relative to the root. -/
def identitySteps (g : Gadget) : Steps :=
  [ ⟨.Mkdir, "", ""⟩,
    ⟨.Write, "idVendor", sprintfHex04 g.IdVendor⟩,
    ⟨.Write, "idProduct", sprintfHex04 g.IdProduct⟩,
    ⟨.Mkdir, "strings/" ++ StrEnglish, ""⟩,
    ⟨.Write, "strings/" ++ StrEnglish ++ "/serialnumber", g.SerialNumber⟩,
    ⟨.Write, "strings/" ++ StrEnglish ++ "/manufacturer", g.Manufacturer⟩,
    ⟨.Write, "strings/" ++ StrEnglish ++ "/product", g.Product⟩ ]

/-- The step that binds the controller, relative to the root, when a binding is set. -/
def bindingSteps (g : Gadget) : Steps :=
  if g.UDC ≠ "" then [⟨.Write, "UDC", g.UDC⟩] else []

/-! ## Sample gadgets -/

/-- The gadget `g1` with the given controller binding and configurations. -/
def exampleGadget (udc : String) (configs : List Config) : Gadget :=
  { Name := "g1", GadgetPath := "", IdVendor := 0x1d6b, IdProduct := 0x0104,
    SerialNumber := "0001", Manufacturer := "acme", Product := "demo", UDC := udc,
    Configs := configs }

/-- A bound gadget with one configuration and one ACM function. -/
def sampleGadget : Gadget :=
  exampleGadget "fe980000.usb" [⟨"c.1", "Example Config", [.Acm "usb0"]⟩]

/-- A gadget without controller binding, with one configuration and one ACM function. -/
def acmGadget : Gadget :=
  exampleGadget "" [⟨"c.1", "Example Config", [.Acm "usb0"]⟩]

/-- A bound gadget with two configurations, an ACM and a mass-storage function. -/
def multiGadget : Gadget :=
  exampleGadget "fe980000.usb"
    [ ⟨"c.1", "First", [.Acm "usb0"]⟩,
      ⟨"c.2", "Second", [.MassStorage "0" [⟨"0", "/srv/disk.img", true, false⟩]]⟩ ]

/-- A gadget without controller binding: a configuration named `UDC` with a mass-storage
function whose logical unit is named `/../UDC`. -/
def unboundGadget : Gadget :=
  exampleGadget ""
    [⟨"UDC", "Example Config", [.MassStorage "0" [⟨"/../UDC", "/srv/disk.img", true, false⟩]]⟩]

/-- A gadget with two configurations of the same name. -/
def twinGadget : Gadget :=
  exampleGadget "" [⟨"c.1", "First", []⟩, ⟨"c.1", "Second", []⟩]

/-- A gadget whose configuration is named `..`. -/
def parentGadget : Gadget :=
  exampleGadget "" [⟨"..", "Example Config", []⟩]

/-- A gadget with a configuration named `strings` and one with the empty name. -/
def emptyNameGadget : Gadget :=
  exampleGadget "" [⟨"strings", "First", []⟩, ⟨"", "Second", []⟩]

/-- A gadget with an ACM function whose name holds a separator. -/
def sepFunctionGadget : Gadget :=
  exampleGadget "" [⟨"c.1", "Example Config", [.Acm "a", .Acm "x/.."]⟩]

/-- A bound gadget whose configuration name resolves to the binding file. -/
def udcDirGadget : Gadget :=
  exampleGadget "fe980000.usb" [⟨"../UDC", "Example Config", []⟩]

/-! ## Further notions and samples -/

/-- The six bits that a character of the standard alphabet stands for. -/
def decodeChar (c : Char) : Option Nat :=
  if encodeStd.indexOf c < 64 then some (encodeStd.indexOf c) else none

/-- Standard base64 decoding with padding (RFC 4648), what `base64 -d` computes: four
characters give three bytes; a last group ending in `=` gives two bytes, one ending in `==`
gives one byte; any other text is rejected. -/
def base64Decode : List Char → Option (List Nat)
  | [] => some []
  | c0 :: c1 :: c2 :: c3 :: rest =>
    if rest = [] ∧ c3 = '=' then
      if c2 = '=' then
        match decodeChar c0, decodeChar c1 with
        | some v0, some v1 => some [(v0 * 4 + v1 / 16) % 256]
        | _, _ => none
      else
        match decodeChar c0, decodeChar c1, decodeChar c2 with
        | some v0, some v1, some v2 =>
          some [(v0 * 4 + v1 / 16) % 256, (v1 * 16 + v2 / 4) % 256]
        | _, _, _ => none
    else
      match decodeChar c0, decodeChar c1, decodeChar c2, decodeChar c3, base64Decode rest with
      | some v0, some v1, some v2, some v3, some tl =>
        some ((v0 * 4 + v1 / 16) % 256 :: (v1 * 16 + v2 / 4) % 256 :: (v2 * 64 + v3) % 256 :: tl)
      | _, _, _, _, _ => none
  | _ => none

/-- The function `DecodeString` of standard base64, on a string. -/
def DecodeString (s : String) : Option (List Nat) := base64Decode s.data

/-- The gadget of the end-to-end scenario: named `g1`, one configuration `c.1` with one HID
function `kbd`, bound to `fe980000.usb`; every other field has its zero value. -/
def scenarioGadget : Gadget :=
  { Name := "g1", GadgetPath := "", IdVendor := 0x1d6b, IdProduct := 0x0104,
    SerialNumber := "", Manufacturer := "", Product := "", UDC := "fe980000.usb",
    Configs := [⟨"c.1", "Example Config", [.Hid "kbd" 1 1 8 [0x05, 0x01]]⟩] }

/-- The four steps of the logical unit `u` of a mass-storage function. -/
def lunBlock (u : MassStorageLun) : Steps :=
  [ ⟨.MkdirCreateOnly, Join ("lun." ++ u.Name) "", ""⟩,
    ⟨.Write, Join ("lun." ++ u.Name) "file", u.File⟩,
    ⟨.Write, Join ("lun." ++ u.Name) "removable", boolToIntStr u.Removable⟩,
    ⟨.Write, Join ("lun." ++ u.Name) "cdrom", boolToIntStr u.Cdrom⟩ ]

/-- The step that attaches the function `fn` to the configuration named `cName`, with
paths relative to the root. -/
def attachStep (cName : String) (fn : Function) : Step :=
  ⟨.Symlink, "functions/" ++ fn.GadgetFunctionName,
    "configs/" ++ cName ++ "/" ++ fn.GadgetFunctionName⟩

/-- No `/`-separated element of `p` is `..`. -/
def NoDotDot (p : String) : Prop := ['.', '.'] ∉ splitSep p.data

instance (p : String) : Decidable (NoDotDot p) := by unfold NoDotDot; infer_instance

/-- The logical units of a function: those of a mass-storage function, none otherwise. -/
def Function.Luns : Function → List MassStorageLun
  | .MassStorage _ luns => luns
  | _ => []

/-- No name of the gadget climbs with a `..` element: no configuration name, no canonical
function name and no logical-unit directory `lun.<name>` has an element `..`. -/
def Gadget.NoDotDotNames (g : Gadget) : Prop :=
  ∀ c ∈ g.Configs, NoDotDot c.Name ∧
    ∀ fn ∈ c.Functions, NoDotDot fn.GadgetFunctionName ∧
      ∀ u ∈ fn.Luns, NoDotDot ("lun." ++ u.Name)

instance (g : Gadget) : Decidable g.NoDotDotNames := by
  unfold Gadget.NoDotDotNames; infer_instance

/-- The path `p` is the path `r` or lies beneath it: both are rooted or both are not, and the
elements of (the cleaned) `r` are an initial part of those of `p`. -/
def WithinRoot (p r : String) : Prop :=
  isRooted p.data = isRooted r.data ∧ elemsOf r.data <+: elemsOf p.data

instance (p r : String) : Decidable (WithinRoot p r) := by unfold WithinRoot; infer_instance

/-- The paths of a step relative to the root are good: a step other than a `Comment` is no
`Noop`, its `Arg0` is a relative path of real names, and so is `Arg1` of a `Symlink`. -/
def RelStepOK (s : Step) : Prop :=
  s.Action = .Comment ∨
    (s.Action ≠ .Noop ∧ GoodPath s.Arg0 ∧ (s.Action = .Symlink → GoodPath s.Arg1))

/-- The text of the path `p` is at or below the cleaned root `r`: it is `Clean r`, or it
begins with `Clean r` followed by a separator. -/
def BeginsWithRoot (p r : String) : Prop := p = Clean r ∨ (Clean r ++ "/").data <+: p.data

instance (p r : String) : Decidable (BeginsWithRoot p r) := by
  unfold BeginsWithRoot; infer_instance

/-- A gadget whose configuration name climbs out of the root with `..` elements. -/
def climbGadget : Gadget :=
  exampleGadget "" [⟨"../../x", "Example Config", []⟩]

/-- The path whose directory a step needs: the path of a `Write` or `WriteBinary`, the link
path of a `Symlink`. -/
def needsDir (s : Step) : Option String :=
  match s.Action with
  | .Write | .WriteBinary => some s.Arg0
  | .Symlink => some s.Arg1
  | _ => none

/-- The path `d` is the parent directory of the path `p`: both are rooted or both are not,
and the elements of (the cleaned) `d` are those of `p` without the last one. -/
def ParentDir (d p : String) : Prop :=
  isRooted d.data = isRooted p.data ∧ elemsOf p.data ≠ [] ∧
    (elemsOf p.data).dropLast = elemsOf d.data

instance (d p : String) : Decidable (ParentDir d p) := by unfold ParentDir; infer_instance

/-- No canonical function name of the gadget holds a separator. -/
def Gadget.FlatFunctionNames (g : Gadget) : Prop :=
  ∀ c ∈ g.Configs, ∀ fn ∈ c.Functions, '/' ∉ fn.GadgetFunctionName.data

instance (g : Gadget) : Decidable g.FlatFunctionNames := by
  unfold Gadget.FlatFunctionNames; infer_instance

/-- A gadget with an ACM function named `a/b`. -/
def nestedFunctionGadget : Gadget :=
  exampleGadget "" [⟨"c.1", "Example Config", [.Acm "a/b"]⟩]

/-- The loop of `Clean` reads the path `w`, after any output `st`, as the path `m` followed
by the one real element `f`. -/
def ChildOf (f w m : List Char) : Prop :=
  ∀ (r : Bool) (st : List (List Char)),
    (splitSep w).foldl (cleanElem r) st = f :: (splitSep m).foldl (cleanElem r) st

/-- The step `m` creates the directory that holds the path `p`. -/
def DirFor (m : Step) (p : String) : Prop :=
  (m.Action = .Mkdir ∨ m.Action = .MkdirCreateOnly) ∧ ∃ f, ChildOf f p.data m.Arg0.data

/-- Every step of the sequence that needs a directory comes after a step that creates it,
in the sequence or among the steps `pre` before it. -/
def SupportedFrom : Steps → Steps → Prop
  | _, [] => True
  | pre, s :: rest =>
    (∀ p, needsDir s = some p → ∃ m ∈ pre, DirFor m p) ∧ SupportedFrom (s :: pre) rest

/-- The state left by executing the steps one after the other, whatever they return. -/
def Steps.stateAfter {σ ε : Type} (stepRun : Step → σ → σ × Option ε) (steps : Steps) (w : σ) :
    σ :=
  steps.foldl (fun w s => (stepRun s w).1) w

/-- The error, if any, of the step of index `k`, executed in the state that executing the
steps before it leaves; `none` also when there is no such step. -/
def Steps.outcomeAt {σ ε : Type} (stepRun : Step → σ → σ × Option ε) (steps : Steps) (w : σ)
    (k : Nat) : Option ε :=
  (steps[k]?).bind (fun s => (stepRun s (Steps.stateAfter stepRun (steps.take k) w)).2)

/-- The execution `stepRun` of one step, recording in a log each step it is called on. -/
def traced {σ ε : Type} (stepRun : Step → σ → σ × Option ε) (s : Step) (lw : List Step × σ) :
    (List Step × σ) × Option ε :=
  ((lw.1 ++ [s], (stepRun s lw.2).1), (stepRun s lw.2).2)

/-- An execution that logs the step and fails with `busy` on every `Rmdir`. -/
def sampleStepRun (s : Step) (w : List Step) : List Step × Option String :=
  (w ++ [s], if s.Action = .Rmdir then some "busy" else none)

/-- A device that logs each report written to it and never fails. -/
def logDevice : Device (List (List Nat)) Unit :=
  ⟨fun b w => (w ++ [b], none), fun w => w⟩

/-- A call of the file system, as `Step.Run` makes it. -/
inductive FsCall where
  | mkdirAll (path : String) (perm : Nat)
  | remove (name : String)
  | writeFile (name : String) (data : List Nat) (perm : Nat)
  | symlink (oldname newname : String)
  deriving DecidableEq, Repr

/-- A file system that logs each call made to it and never fails. -/
def logOps : FileOps (List FsCall) Unit :=
  { MkdirAll := fun p m w => (w ++ [.mkdirAll p m], none),
    Remove := fun p w => (w ++ [.remove p], none),
    WriteFile := fun p d m w => (w ++ [.writeFile p d m], none),
    Symlink := fun a b w => (w ++ [.symlink a b], none) }

/-- The shortest initial part of the keys that holds `n` keys with a key code other than 0,
or all the keys when there are fewer. -/
def keysUpTo : Nat → List Key → List Key
  | 0, _ => []
  | _ + 1, [] => []
  | n + 1, k :: ks =>
    if Key.Keycode k ≠ 0 then k :: keysUpTo n ks else k :: keysUpTo (n + 1) ks

/-- The key codes other than 0 of the keys, in order. -/
def keycodesOf (keys : List Key) : List Nat :=
  (keys.map Key.Keycode).filter (fun c => c ≠ 0)

/-- The bitwise or of the modifiers of the keys, onto the modifier byte `m`. -/
def modifiersOf (m : Nat) (keys : List Key) : Nat :=
  (keys.map Key.Modifier).foldl (fun a b => a ||| b) m

/-- The list `l` followed by zeros up to the length `n`. -/
def padTo (n : Nat) (l : List Nat) : List Nat := l ++ List.replicate (n - l.length) 0

/-- The lowercase hexadecimal digits, in the order of their values. -/
def hexDigits : List Char := "0123456789abcdef".data

/-- The value of a text of hexadecimal digits. -/
def hexValue (ds : List Char) : Nat := ds.foldl (fun a c => 16 * a + hexDigits.indexOf c) 0

/-- A device that logs each request submitted to it and never fails. -/
def I2C.logDevice : I2C.Device (List (Nat × I2C.i2c_rdwr_ioctl_data)) Unit :=
  ⟨fun mode req w => (w ++ [(mode, req)], none)⟩

/-! ## The elements of a path -/

theorem splitSep_ne_nil (p : List Char) : splitSep p ≠ [] := by
  cases p with
  | nil => simp [splitSep]
  | cons c cs => by_cases h : c = '/' <;> simp [splitSep, h]

theorem splitSep_append_sep (a b : List Char) :
    splitSep (a ++ '/' :: b) = splitSep a ++ splitSep b := by
  induction a with
  | nil => simp [splitSep]
  | cons c cs ih =>
    by_cases h : c = '/'
    · simp [splitSep, h, ih]
    · have hne := splitSep_ne_nil cs
      obtain ⟨e, es, hes⟩ := List.exists_cons_of_ne_nil hne
      simp [splitSep, h, ih, hes]

theorem splitSep_noSep {e : List Char} (h : '/' ∉ e) : splitSep e = [e] := by
  induction e with
  | nil => rfl
  | cons c cs ih =>
    have hc : c ≠ '/' := fun hc => h (by simp [hc])
    have hcs : '/' ∉ cs := fun hcs => h (by simp [hcs])
    simp [splitSep, hc, ih hcs]

theorem noSep_of_mem_splitSep (p : List Char) : ∀ e ∈ splitSep p, '/' ∉ e := by
  induction p with
  | nil => simp [splitSep]
  | cons c cs ih =>
    have hne := splitSep_ne_nil cs
    obtain ⟨e0, es, hes⟩ := List.exists_cons_of_ne_nil hne
    rw [hes] at ih
    by_cases h : c = '/'
    · intro e he
      simp only [splitSep, h, if_true, hes, List.mem_cons] at he
      rcases he with rfl | he
      · simp
      · exact ih e (by simpa using he)
    · intro e he
      simp only [splitSep, h, if_false, hes, List.headD_cons, List.tail_cons, List.mem_cons] at he
      rcases he with rfl | he
      · have := ih e0 (by simp)
        simp only [List.mem_cons, not_or]
        exact ⟨fun hh => h hh.symm, this⟩
      · exact ih e (by simp [he])

theorem splitSep_joinSep (es : List (List Char)) (hne : es ≠ []) (h : ∀ e ∈ es, '/' ∉ e) :
    splitSep (joinSep es) = es := by
  induction es with
  | nil => exact absurd rfl hne
  | cons e es ih =>
    cases es with
    | nil => simpa [joinSep] using splitSep_noSep (h e (by simp))
    | cons e2 es2 =>
      rw [joinSep, splitSep_append_sep, splitSep_noSep (h e (by simp)),
        ih (by simp) (fun x hx => h x (by simp [hx]))]
      · rfl
      · simp

/-! ## The loop of `filepath.Clean` -/

theorem cleanElem_name {e : List Char} (h : IsName e) (r : Bool) (st : List (List Char)) :
    cleanElem r st e = e :: st := by
  obtain ⟨h1, h2, h3⟩ := h
  simp [cleanElem, h1, h2, h3]

theorem cleanElem_empty (r : Bool) (st : List (List Char)) : cleanElem r st [] = st := by
  simp [cleanElem]

theorem cleanElem_dot (r : Bool) (st : List (List Char)) : cleanElem r st ['.'] = st := by
  simp [cleanElem]

theorem foldl_cleanElem_names (r : Bool) (st : List (List Char)) (ns : List (List Char))
    (h : ∀ e ∈ ns, IsName e) : ns.foldl (cleanElem r) st = ns.reverse ++ st := by
  induction ns generalizing st with
  | nil => simp
  | cons n ns ih =>
    rw [List.foldl_cons, cleanElem_name (h n (by simp)), ih _ (fun e he => h e (by simp [he]))]
    simp

theorem mem_cleanElem {r : Bool} {st : List (List Char)} {c e : List Char}
    (he : e ∈ cleanElem r st c) : e ∈ st ∨ (e = c ∧ e ≠ [] ∧ e ≠ ['.']) := by
  by_cases h1 : c = []
  · subst h1; rw [cleanElem_empty] at he; exact Or.inl he
  by_cases h2 : c = ['.']
  · subst h2; rw [cleanElem_dot] at he; exact Or.inl he
  by_cases h3 : c = ['.', '.']
  · subst h3
    cases st with
    | nil =>
      cases r
      · have he : e = ['.', '.'] := by simpa [cleanElem] using he
        exact Or.inr ⟨he, by simp [he], by simp [he]⟩
      · simp [cleanElem] at he
    | cons t rest =>
      by_cases h4 : t = ['.', '.']
      · have he : e = ['.', '.'] ∨ e = t ∨ e ∈ rest := by simpa [cleanElem, h4] using he
        rcases he with he | he | he
        · exact Or.inr ⟨he, by simp [he], by simp [he]⟩
        · exact Or.inl (by simp [he])
        · exact Or.inl (by simp [he])
      · have he : e ∈ rest := by simpa [cleanElem, h4] using he
        exact Or.inl (by simp [he])
  · rw [cleanElem_name ⟨h1, h2, h3⟩] at he
    rcases List.mem_cons.1 he with rfl | he
    · exact Or.inr ⟨rfl, h1, h2⟩
    · exact Or.inl he

theorem mem_foldl_cleanElem {r : Bool} (es : List (List Char)) {st : List (List Char)}
    {e : List Char} (he : e ∈ es.foldl (cleanElem r) st) :
    e ∈ st ∨ (e ∈ es ∧ e ≠ [] ∧ e ≠ ['.']) := by
  induction es generalizing st with
  | nil => exact Or.inl he
  | cons c cs ih =>
    rw [List.foldl_cons] at he
    rcases ih he with h | ⟨h1, h2, h3⟩
    · rcases mem_cleanElem h with h | ⟨rfl, h2, h3⟩
      · exact Or.inl h
      · exact Or.inr ⟨by simp, h2, h3⟩
    · exact Or.inr ⟨by simp [h1], h2, h3⟩

theorem cleanElem_rooted_no_dotdot {st : List (List Char)} {c e : List Char}
    (hst : ∀ x ∈ st, x ≠ ['.', '.']) (he : e ∈ cleanElem true st c) : e ≠ ['.', '.'] := by
  by_cases h3 : c = ['.', '.']
  · subst h3
    cases st with
    | nil => simp [cleanElem] at he
    | cons t rest =>
      have ht := hst t (by simp)
      have he : e ∈ rest := by simpa [cleanElem, ht] using he
      exact hst e (by simp [he])
  · rcases mem_cleanElem he with h | ⟨h, _, _⟩
    · exact hst e h
    · rw [h]; exact h3

theorem foldl_rooted_no_dotdot (es : List (List Char)) {st : List (List Char)}
    (hst : ∀ x ∈ st, x ≠ ['.', '.']) :
    ∀ e ∈ es.foldl (cleanElem true) st, e ≠ ['.', '.'] := by
  induction es generalizing st with
  | nil => exact hst
  | cons c cs ih =>
    rw [List.foldl_cons]
    exact ih (fun x hx => cleanElem_rooted_no_dotdot hst hx)

/-- Cleaning a relative path on its own first and then after `st` is cleaning it after `st`. -/
theorem foldl_cleanElem_absorb (r : Bool) (st : List (List Char)) (es : List (List Char)) :
    (es.foldl (cleanElem false) []).reverse.foldl (cleanElem r) st = es.foldl (cleanElem r) st := by
  induction es using List.reverseRecOn with
  | nil => rfl
  | append_singleton es c ih =>
    rw [List.foldl_append, List.foldl_append, List.foldl_cons, List.foldl_nil, List.foldl_cons,
      List.foldl_nil, ← ih]
    generalize hN : es.foldl (cleanElem false) [] = N at *
    by_cases h1 : c = []
    · subst h1; simp [cleanElem_empty]
    by_cases h2 : c = ['.']
    · subst h2; simp [cleanElem_dot]
    by_cases h3 : c = ['.', '.']
    · subst h3
      cases N with
      | nil => simp [cleanElem]
      | cons t rest =>
        by_cases h4 : t = ['.', '.']
        · subst h4
          simp [cleanElem, List.foldl_append]
        · have ht : IsName t := by
            have hmem : t ∈ es.foldl (cleanElem false) [] := by rw [hN]; simp
            rcases mem_foldl_cleanElem es hmem with h | ⟨_, h5, h6⟩
            · simp at h
            · exact ⟨h5, h6, h4⟩
          have e1 : cleanElem false (t :: rest) ['.', '.'] = rest := by simp [cleanElem, h4]
          rw [e1, List.reverse_cons, List.foldl_append, List.foldl_cons, List.foldl_nil,
            cleanElem_name ht]
          simp [cleanElem, h4]
    · rw [cleanElem_name ⟨h1, h2, h3⟩, cleanElem_name ⟨h1, h2, h3⟩]
      simp [List.foldl_append, cleanElem_name ⟨h1, h2, h3⟩]

/-! ## The text of a cleaned path -/

theorem isRooted_append {a : List Char} (h : a ≠ []) (b : List Char) :
    isRooted (a ++ b) = isRooted a := by
  cases a with
  | nil => exact absurd rfl h
  | cons c cs => rfl

theorem joinSep_cons_ne_nil {e : List Char} (he : e ≠ []) (es : List (List Char)) :
    joinSep (e :: es) ≠ [] := by
  cases es with
  | nil => simpa [joinSep] using he
  | cons e2 es2 => simp [joinSep, he]

theorem renderPath_ne_nil (r : Bool) (es : List (List Char)) (h : ∀ e ∈ es, e ≠ []) :
    renderPath r es ≠ [] := by
  cases r
  · cases es with
    | nil => simp [renderPath]
    | cons e es =>
      simpa [renderPath] using joinSep_cons_ne_nil (h e (by simp)) es
  · simp [renderPath]

theorem isRooted_joinSep_cons {e : List Char} (he : e ≠ []) (hs : '/' ∉ e)
    (es : List (List Char)) : isRooted (joinSep (e :: es)) = false := by
  cases e with
  | nil => exact absurd rfl he
  | cons c cs =>
    have hc : c ≠ '/' := fun hc => hs (by simp [hc])
    cases es <;> simp [joinSep, isRooted, hc]

theorem isRooted_renderPath (r : Bool) (es : List (List Char))
    (h : ∀ e ∈ es, e ≠ [] ∧ '/' ∉ e) : isRooted (renderPath r es) = r := by
  cases r
  · cases es with
    | nil => simp [renderPath, isRooted]
    | cons e es =>
      simpa [renderPath] using isRooted_joinSep_cons (h e (by simp)).1 (h e (by simp)).2 es
  · simp [renderPath, isRooted]

/-- The loop of `Clean` reads a rendered path as it reads the elements it was rendered from. -/
theorem foldl_splitSep_renderPath (r q : Bool) (st : List (List Char)) (es : List (List Char))
    (h : ∀ e ∈ es, '/' ∉ e) :
    (splitSep (renderPath r es)).foldl (cleanElem q) st = es.foldl (cleanElem q) st := by
  cases r
  · cases es with
    | nil => simp [renderPath, splitSep, cleanElem_dot]
    | cons e es => simp [renderPath, splitSep_joinSep (e :: es) (by simp) h]
  · cases es with
    | nil => simp [renderPath, joinSep, splitSep, cleanElem_empty]
    | cons e es =>
      have : '/' :: joinSep (e :: es) = [] ++ '/' :: joinSep (e :: es) := rfl
      simp only [renderPath, if_true]
      rw [this, splitSep_append_sep, splitSep_joinSep (e :: es) (by simp) h]
      simp [splitSep, cleanElem_empty]

theorem elem_props_of_mem_cleanElems {r : Bool} {p : List Char} {e : List Char}
    (he : e ∈ cleanElems r (splitSep p)) : e ≠ [] ∧ '/' ∉ e ∧ e ≠ ['.'] := by
  rcases mem_foldl_cleanElem (splitSep p) (List.mem_reverse.1 he) with h | ⟨h1, h2, h3⟩
  · simp at h
  · exact ⟨h2, noSep_of_mem_splitSep p e h1, h3⟩

theorem cleanChars_ne_nil (p : List Char) : cleanChars p ≠ [] := by
  unfold cleanChars
  split_ifs with h
  · simp
  · exact renderPath_ne_nil _ _ (fun e he => (elem_props_of_mem_cleanElems he).1)

theorem isRooted_cleanChars (p : List Char) : isRooted (cleanChars p) = isRooted p := by
  unfold cleanChars
  split_ifs with h
  · subst h; rfl
  · exact isRooted_renderPath _ _
      (fun e he => ⟨(elem_props_of_mem_cleanElems he).1, (elem_props_of_mem_cleanElems he).2.1⟩)

/-- Cleaning twice changes nothing in the buffer. -/
theorem foldl_cleanElem_idem (r : Bool) (es : List (List Char)) :
    (es.foldl (cleanElem r) []).reverse.foldl (cleanElem r) [] = es.foldl (cleanElem r) [] := by
  cases r
  · exact foldl_cleanElem_absorb false [] es
  · rw [foldl_cleanElem_names]
    · simp
    · intro e he
      have he := List.mem_reverse.1 he
      rcases mem_foldl_cleanElem es he with h | ⟨_, h2, h3⟩
      · simp at h
      · exact ⟨h2, h3, foldl_rooted_no_dotdot es (by simp) e he⟩

/-- The loop of `Clean` continues after a cleaned path `p` as after `p`. -/
theorem foldl_splitSep_cleanChars {p : List Char} (hp : p ≠ []) (es : List (List Char)) :
    (splitSep (cleanChars p) ++ es).foldl (cleanElem (isRooted p)) [] =
      (splitSep p ++ es).foldl (cleanElem (isRooted p)) [] := by
  rw [List.foldl_append, List.foldl_append]
  congr 1
  simp only [cleanChars, hp, if_false]
  rw [foldl_splitSep_renderPath _ _ _ _ (fun e he => (elem_props_of_mem_cleanElems he).2.1)]
  exact foldl_cleanElem_idem _ _

/-- The loop of `Clean` reads a cleaned relative path `x`, after `st`, as it reads `x`. -/
theorem foldl_splitSep_cleanChars_rel {x : List Char} (hx : x ≠ []) (hr : isRooted x = false)
    (r : Bool) (st : List (List Char)) :
    (splitSep (cleanChars x)).foldl (cleanElem r) st = (splitSep x).foldl (cleanElem r) st := by
  simp only [cleanChars, hx, if_false, hr]
  rw [foldl_splitSep_renderPath _ _ _ _ (fun e he => (elem_props_of_mem_cleanElems he).2.1)]
  exact foldl_cleanElem_absorb r st _

theorem cleanChars_eq_of {p q : List Char} (hp : p ≠ []) (hq : q ≠ [])
    (hr : isRooted p = isRooted q)
    (he : (splitSep p).foldl (cleanElem (isRooted p)) [] =
      (splitSep q).foldl (cleanElem (isRooted p)) []) : cleanChars p = cleanChars q := by
  simp only [cleanChars, hp, hq, if_false, cleanElems, ← hr, he]

theorem cleanChars_idem (p : List Char) : cleanChars (cleanChars p) = cleanChars p := by
  by_cases hp : p = []
  · subst hp; rfl
  · have h := foldl_splitSep_cleanChars hp []
    simp only [List.append_nil] at h
    have hr := isRooted_cleanChars p
    conv_lhs => rw [cleanChars]
    rw [if_neg (cleanChars_ne_nil p), hr, cleanElems, h]
    simp [cleanChars, hp, cleanElems]

/-- Joining after a cleaned first element. -/
theorem cleanChars_clean_left {p : List Char} (hp : p ≠ []) (x : List Char) :
    cleanChars (cleanChars p ++ '/' :: x) = cleanChars (p ++ '/' :: x) := by
  have hc := cleanChars_ne_nil p
  apply cleanChars_eq_of (by simp [hc]) (by simp [hp])
  · rw [isRooted_append hc, isRooted_append hp, isRooted_cleanChars]
  · rw [isRooted_append hc, isRooted_cleanChars, splitSep_append_sep, splitSep_append_sep]
    exact foldl_splitSep_cleanChars hp _

/-- Joining before a cleaned relative second element. -/
theorem cleanChars_clean_right {a x : List Char} (ha : a ≠ []) (hx : x ≠ [])
    (hr : isRooted x = false) :
    cleanChars (a ++ '/' :: cleanChars x) = cleanChars (a ++ '/' :: x) := by
  apply cleanChars_eq_of (by simp [ha]) (by simp [ha])
  · rw [isRooted_append ha, isRooted_append ha]
  · rw [isRooted_append ha, splitSep_append_sep, splitSep_append_sep, List.foldl_append,
      List.foldl_append]
    exact foldl_splitSep_cleanChars_rel hx hr _ _

theorem cleanChars_sep_sep {a : List Char} (ha : a ≠ []) (x : List Char) :
    cleanChars (a ++ ['/'] ++ '/' :: x) = cleanChars (a ++ '/' :: x) := by
  apply cleanChars_eq_of (by simp [ha]) (by simp [ha])
  · rw [List.append_assoc, isRooted_append ha, isRooted_append ha]
  · rw [List.append_assoc, isRooted_append ha]
    simp [splitSep_append_sep, splitSep, List.foldl_append, cleanElem_empty]

theorem joinChars_nil_left (x : List Char) : joinChars [] (joinChars [] x) = joinChars [] x := by
  by_cases hx : x = []
  · subst hx; rfl
  · simp [joinChars, hx, cleanChars_ne_nil, cleanChars_idem]

theorem joinChars_assoc (a b x : List Char)
    (h : a = [] ∨ (isRooted b = false ∧ (b = [] → isRooted x = false))) :
    joinChars a (joinChars b x) = joinChars (joinChars a b) x := by
  by_cases ha : a = []
  · subst ha
    by_cases hb : b = []
    · subst hb
      rw [joinChars_nil_left]
      rfl
    · simp only [joinChars, ne_eq, not_true_eq_false, if_false, hb, not_false_eq_true, if_true,
        cleanChars_ne_nil, cleanChars_idem, cleanChars_clean_left hb]
  · obtain ⟨hrb, hrx⟩ := h.resolve_left ha
    have hab : cleanChars (a ++ '/' :: b) ≠ [] := cleanChars_ne_nil _
    by_cases hb : b = []
    · subst hb
      by_cases hx : x = []
      · subst hx
        simp only [joinChars, ne_eq, ha, not_false_eq_true, if_true, not_true_eq_false, if_false,
          hab]
        rw [cleanChars_clean_left (by simp [ha])]
        exact (cleanChars_sep_sep ha []).symm
      · simp only [joinChars, ne_eq, ha, not_false_eq_true, if_true, not_true_eq_false, if_false,
          hab, hx]
        rw [cleanChars_clean_left (by simp [ha]), cleanChars_clean_right ha hx (hrx rfl)]
        exact (cleanChars_sep_sep ha x).symm
    · simp only [joinChars, ne_eq, ha, not_false_eq_true, if_true, hab, hb]
      rw [cleanChars_clean_left (by simp [ha]),
        cleanChars_clean_right ha (by simp [hb]) (by rw [isRooted_append hb]; exact hrb)]
      simp

theorem Join_assoc (a b x : String) (h : a = "" ∨ (IsRel b ∧ (b = "" → IsRel x))) :
    Join a (Join b x) = Join (Join a b) x := by
  simp only [Join]
  congr 1
  apply joinChars_assoc
  rcases h with h | ⟨h1, h2⟩
  · left; rw [h]
  · right
    refine ⟨h1, fun hb => h2 ?_⟩
    exact String.ext hb

/-! ## Helper facts on step sequences -/

theorem foldl_extend_eq {α : Type} (f : α → Steps) (xs : List α) (init : Steps) :
    xs.foldl (fun steps x => Steps.Extend steps (f x)) init = init ++ xs.flatMap f := by
  induction xs generalizing init with
  | nil => simp
  | cons x xs ih => rw [List.foldl_cons, ih]; simp [Steps.Extend, List.append_assoc]

theorem Step.PrependPath_assoc (s : Step) (a b : String) (hb : IsRel b) (hs : s.RelPaths) :
    (s.PrependPath b).PrependPath a = s.PrependPath (Join a b) := by
  obtain ⟨act, x, y⟩ := s
  cases act <;> simp only [Step.PrependPath, Step.RelPaths] at hs ⊢
  all_goals first
    | rw [Join_assoc a b x (Or.inr ⟨hb, fun _ => hs.1⟩),
        Join_assoc a b y (Or.inr ⟨hb, fun _ => hs.2⟩)]
    | rw [Join_assoc a b x (Or.inr ⟨hb, fun _ => hs⟩)]

/-! ## The last element of a joined path -/

theorem getLast?_splitSep_append_sep (a x : List Char) :
    (splitSep (a ++ '/' :: x)).getLast? = (splitSep x).getLast? := by
  rw [splitSep_append_sep]
  obtain ⟨e, es, hes⟩ := List.exists_cons_of_ne_nil (splitSep_ne_nil x)
  rw [hes, List.getLast?_append_cons]

theorem getLast?_splitSep_cleanChars {p c : List Char} (hc : IsName c)
    (h : (splitSep p).getLast? = some c) : (splitSep (cleanChars p)).getLast? = some c := by
  have hp : p ≠ [] := by
    rintro rfl
    simp [splitSep] at h
    exact hc.1 h
  obtain ⟨es, hes⟩ := List.getLast?_eq_some_iff.1 h
  have hce : cleanElems (isRooted p) (splitSep p) =
      (es.foldl (cleanElem (isRooted p)) []).reverse ++ [c] := by
    rw [cleanElems, hes, List.foldl_append, List.foldl_cons, List.foldl_nil, cleanElem_name hc,
      List.reverse_cons]
  have hsl : ∀ e ∈ (es.foldl (cleanElem (isRooted p)) []).reverse ++ [c], '/' ∉ e := by
    intro e he
    rw [← hce] at he
    exact (elem_props_of_mem_cleanElems he).2.1
  simp only [cleanChars, hp, if_false, hce]
  cases hr : isRooted p
  · rw [hr] at hsl
    simp only [renderPath, Bool.false_eq_true, if_false, List.append_eq_nil, List.cons_ne_nil,
      and_false]
    rw [splitSep_joinSep _ (by simp) hsl]
    simp
  · rw [hr] at hsl
    have : ∀ l : List Char, '/' :: l = [] ++ '/' :: l := fun _ => rfl
    simp only [renderPath, if_true]
    rw [this, getLast?_splitSep_append_sep, splitSep_joinSep _ (by simp) hsl]
    simp

theorem getLast?_splitSep_joinChars {x c : List Char} (hc : IsName c)
    (h : (splitSep x).getLast? = some c) (a : List Char) :
    (splitSep (joinChars a x)).getLast? = some c := by
  have hx : x ≠ [] := by
    rintro rfl
    simp [splitSep] at h
    exact hc.1 h
  by_cases ha : a = []
  · simp only [joinChars, ha, ne_eq, not_true_eq_false, if_false, hx, not_false_eq_true, if_true]
    exact getLast?_splitSep_cleanChars hc h
  · simp only [joinChars, ha, ne_eq, not_false_eq_true, if_true]
    exact getLast?_splitSep_cleanChars hc (by rw [getLast?_splitSep_append_sep]; exact h)

theorem LastElemIs_Join {c x : String} (hc : IsName c.data) (h : LastElemIs c x) (a : String) :
    LastElemIs c (Join a x) :=
  getLast?_splitSep_joinChars hc h a.data

theorem writeNames_isName : ∀ c ∈ writeNames, IsName c.data := by decide

theorem WritesKnownFile_PrependPath {s : Step} (h : WritesKnownFile s) (p : String) :
    WritesKnownFile (s.PrependPath p) := by
  obtain ⟨act, x, y⟩ := s
  intro hw
  cases act <;> simp [Step.PrependPath] at hw ⊢
  all_goals
    obtain ⟨c, hc, hl⟩ := h (by simp)
    exact ⟨c, hc, LastElemIs_Join (writeNames_isName c hc) hl p⟩

/-! ## The shape of the compiled sequence -/

theorem GadgetFunctionCreate_massStorage (n : String) (luns : List MassStorageLun) :
    Function.GadgetFunctionCreate (.MassStorage n luns) = luns.flatMap lunSteps := by
  simp [Function.GadgetFunctionCreate, foldl_extend_eq]

theorem configSteps_eq (c : Config) :
    configSteps c =
      Steps.PrependPath
        [ ⟨.Comment, "config `" ++ c.Name ++ "`", ""⟩,
          ⟨.Mkdir, "", ""⟩,
          ⟨.Mkdir, "strings/" ++ StrEnglish, ""⟩,
          ⟨.Write, "strings/" ++ StrEnglish ++ "/configuration", c.Configuration⟩ ]
        ("configs/" ++ c.Name) ++
      c.Functions.flatMap (functionSteps c.Name) := by
  simp only [configSteps, foldl_extend_eq]

theorem relSteps_eq (g : Gadget) :
    g.relSteps =
      [ ⟨.Mkdir, "", ""⟩,
        ⟨.Write, "idVendor", sprintfHex04 g.IdVendor⟩,
        ⟨.Write, "idProduct", sprintfHex04 g.IdProduct⟩,
        ⟨.Mkdir, "strings/" ++ StrEnglish, ""⟩,
        ⟨.Write, "strings/" ++ StrEnglish ++ "/serialnumber", g.SerialNumber⟩,
        ⟨.Write, "strings/" ++ StrEnglish ++ "/manufacturer", g.Manufacturer⟩,
        ⟨.Write, "strings/" ++ StrEnglish ++ "/product", g.Product⟩ ] ++
      g.Configs.flatMap configSteps ++
      (if g.UDC ≠ "" then [⟨.Write, "UDC", g.UDC⟩] else []) := by
  simp only [Gadget.relSteps, foldl_extend_eq, Steps.Append]
  split_ifs <;> simp

/-! ## The files that are written -/

theorem WritesKnownFile_of {c x : String} (hc : c ∈ writeNames) (h : LastElemIs c x)
    (act : Action) (y : String) : WritesKnownFile ⟨act, x, y⟩ :=
  fun _ => ⟨c, hc, h⟩

theorem WritesKnownFile_of_action {s : Step} (h1 : s.Action ≠ .Write)
    (h2 : s.Action ≠ .WriteBinary) : WritesKnownFile s := by
  intro h
  rcases h with h | h
  · exact absurd h h1
  · exact absurd h h2

theorem WritesKnownFile_lunSteps (lun : MassStorageLun) : ∀ s ∈ lunSteps lun, WritesKnownFile s := by
  intro s hs
  simp only [lunSteps, Steps.Extend, MassStorageLun.lunCreate, Steps.PrependPath,
    List.singleton_append, List.mem_map] at hs
  obtain ⟨t, ht, rfl⟩ := hs
  apply WritesKnownFile_PrependPath
  simp only [List.mem_cons, List.mem_singleton, List.mem_nil_iff, or_false] at ht
  rcases ht with rfl | rfl | rfl | rfl
  · exact WritesKnownFile_of_action (by simp) (by simp)
  · exact WritesKnownFile_of (c := "file") (by decide) (by decide) _ _
  · exact WritesKnownFile_of (c := "removable") (by decide) (by decide) _ _
  · exact WritesKnownFile_of (c := "cdrom") (by decide) (by decide) _ _

theorem WritesKnownFile_GadgetFunctionCreate (fn : Function) :
    ∀ s ∈ fn.GadgetFunctionCreate, WritesKnownFile s := by
  intro s hs
  cases fn with
  | Acm n => simp [Function.GadgetFunctionCreate] at hs
  | Eem n d h =>
    simp only [Function.GadgetFunctionCreate, List.mem_cons, List.mem_singleton,
      List.mem_nil_iff, or_false] at hs
    rcases hs with rfl | rfl
    · exact WritesKnownFile_of (c := "dev_addr") (by decide) (by decide) _ _
    · exact WritesKnownFile_of (c := "host_addr") (by decide) (by decide) _ _
  | Ncm n d h =>
    simp only [Function.GadgetFunctionCreate, List.mem_cons, List.mem_singleton,
      List.mem_nil_iff, or_false] at hs
    rcases hs with rfl | rfl
    · exact WritesKnownFile_of (c := "dev_addr") (by decide) (by decide) _ _
    · exact WritesKnownFile_of (c := "host_addr") (by decide) (by decide) _ _
  | Hid n p sc r d =>
    simp only [Function.GadgetFunctionCreate, List.mem_cons, List.mem_singleton,
      List.mem_nil_iff, or_false] at hs
    rcases hs with rfl | rfl | rfl | rfl
    · exact WritesKnownFile_of (c := "protocol") (by decide) (by decide) _ _
    · exact WritesKnownFile_of (c := "subclass") (by decide) (by decide) _ _
    · exact WritesKnownFile_of (c := "report_length") (by decide) (by decide) _ _
    · exact WritesKnownFile_of (c := "report_desc") (by decide) (by decide) _ _
  | MassStorage n luns =>
    rw [GadgetFunctionCreate_massStorage, List.mem_flatMap] at hs
    obtain ⟨lun, _, hl⟩ := hs
    exact WritesKnownFile_lunSteps lun s hl

theorem WritesKnownFile_functionSteps (cName : String) (fn : Function) :
    ∀ s ∈ functionSteps cName fn, WritesKnownFile s := by
  intro s hs
  simp only [functionSteps, Steps.Extend, Steps.Append, Steps.PrependPath, List.mem_append,
    List.mem_map, List.mem_singleton] at hs
  rcases hs with ⟨t, ht, rfl⟩ | rfl
  · apply WritesKnownFile_PrependPath
    simp only [List.mem_append, List.mem_cons, List.mem_singleton, List.mem_nil_iff,
      or_false] at ht
    rcases ht with (rfl | rfl) | ht
    · exact WritesKnownFile_of_action (by simp) (by simp)
    · exact WritesKnownFile_of_action (by simp) (by simp)
    · exact WritesKnownFile_GadgetFunctionCreate fn t ht
  · exact WritesKnownFile_of_action (by simp) (by simp)

theorem WritesKnownFile_configSteps (c : Config) : ∀ s ∈ configSteps c, WritesKnownFile s := by
  intro s hs
  rw [configSteps_eq] at hs
  simp only [Steps.PrependPath, List.mem_append, List.mem_map, List.mem_flatMap] at hs
  rcases hs with ⟨t, ht, rfl⟩ | ⟨fn, _, hfn⟩
  · apply WritesKnownFile_PrependPath
    simp only [List.mem_cons, List.mem_singleton, List.mem_nil_iff, or_false] at ht
    rcases ht with rfl | rfl | rfl | rfl
    · exact WritesKnownFile_of_action (by simp) (by simp)
    · exact WritesKnownFile_of_action (by simp) (by simp)
    · exact WritesKnownFile_of_action (by simp) (by simp)
    · exact WritesKnownFile_of (c := "configuration") (by decide) (by decide) _ _
  · exact WritesKnownFile_functionSteps c.Name fn s hfn

theorem WritesKnownFile_relSteps (g : Gadget) (hu : g.UDC = "") :
    ∀ s ∈ g.relSteps, WritesKnownFile s := by
  intro s hs
  rw [relSteps_eq] at hs
  simp only [hu, ne_eq, not_true_eq_false, if_false, List.append_nil, List.mem_append,
    List.mem_flatMap] at hs
  rcases hs with ht | ⟨c, _, hc⟩
  · simp only [List.mem_cons, List.mem_singleton, List.mem_nil_iff, or_false] at ht
    rcases ht with rfl | rfl | rfl | rfl | rfl | rfl | rfl
    · exact WritesKnownFile_of_action (by simp) (by simp)
    · exact WritesKnownFile_of (c := "idVendor") (by decide) (by decide) _ _
    · exact WritesKnownFile_of (c := "idProduct") (by decide) (by decide) _ _
    · exact WritesKnownFile_of_action (by simp) (by simp)
    · exact WritesKnownFile_of (c := "serialnumber") (by decide) (by decide) _ _
    · exact WritesKnownFile_of (c := "manufacturer") (by decide) (by decide) _ _
    · exact WritesKnownFile_of (c := "product") (by decide) (by decide) _ _
  · exact WritesKnownFile_configSteps c s hc

/-! ## Joining below a root -/

theorem cleanChars_trailing_sep {p : List Char} (hp : p ≠ []) :
    cleanChars (p ++ ['/']) = cleanChars p := by
  apply cleanChars_eq_of (by simp [hp]) hp
  · rw [isRooted_append hp]
  · rw [isRooted_append hp, splitSep_append_sep]
    simp [splitSep, List.foldl_append, cleanElem_empty]

theorem Join_empty_right {r : String} (hr : r ≠ "") : Join r "" = Clean r := by
  have h : r.data ≠ [] := fun h => hr (String.ext h)
  simp [Join, Clean, joinChars, h, cleanChars_trailing_sep h]

theorem Clean_Join (a b : String) (h : a ≠ "" ∨ b ≠ "") : Clean (Join a b) = Join a b := by
  have h' : a.data ≠ [] ∨ b.data ≠ [] := by
    rcases h with h | h
    · exact Or.inl (fun e => h (String.ext e))
    · exact Or.inr (fun e => h (String.ext e))
  simp only [Join, Clean, joinChars]
  congr 1
  by_cases ha : a.data = []
  · have hb := h'.resolve_left (not_not.2 ha)
    simp [ha, hb, cleanChars_idem]
  · simp [ha, cleanChars_idem]

theorem Join_trailing_sep (r : String) {p : String} (hp : p ≠ "") :
    Join r (p ++ "/") = Join r p := by
  have h : p.data ≠ [] := fun h => hp (String.ext h)
  simp only [Join, joinChars, String.data_append]
  congr 1
  by_cases hr : r.data = []
  · simp only [hr, ne_eq, not_true_eq_false, if_false, List.append_eq_nil, h, false_and,
      not_false_eq_true, if_true]
    exact cleanChars_trailing_sep h
  · simp only [hr, ne_eq, not_false_eq_true, if_true]
    have := cleanChars_trailing_sep (p := r.data ++ '/' :: p.data) (by simp)
    simpa using this

/-- Joining a relative path `p` with `s` below `r` is joining the text `p/s` below `r`. -/
theorem Join_Join_rel (r : String) {p : String} (hp : p ≠ "") (hrel : IsRel p) (s : String) :
    Join r (Join p s) = Join r (p ++ "/" ++ s) := by
  have h : p.data ≠ [] := fun h => hp (String.ext h)
  have hd : (p ++ "/" ++ s).data = p.data ++ '/' :: s.data := by
    simp [String.data_append]
  have hrel' : isRooted (p.data ++ '/' :: s.data) = false := by
    rw [isRooted_append h]; exact hrel
  simp only [Join, hd]
  congr 1
  by_cases hr : r.data = []
  · simp [joinChars, hr, h, cleanChars_ne_nil, cleanChars_idem]
  · simp only [joinChars, hr, h, ne_eq, not_false_eq_true, if_true]
    exact cleanChars_clean_right hr (by simp) hrel'

theorem Join_Join_rel_empty (r : String) {p : String} (hp : p ≠ "") (hrel : IsRel p) :
    Join r (Join p "") = Join r p := by
  rw [Join_Join_rel r hp hrel, String.append_empty, Join_trailing_sep r hp]

theorem gadgetPath_ne_empty (g : Gadget) : g.gadgetPath ≠ "" := by
  unfold Gadget.gadgetPath
  split_ifs with h
  · exact h
  · intro he
    have := congrArg String.data he
    simp only [Join, joinChars] at this
    revert this
    simp [GadgetConfigBasePath, cleanChars_ne_nil]

theorem literal_append_ne_empty (l s : String) (hl : l.data ≠ []) : l ++ s ≠ "" := by
  intro h
  have := congrArg String.data h
  simp [String.data_append, hl] at this

theorem literal_append_isRel (l s : String) (hl : l.data ≠ []) (hr : IsRel l) : IsRel (l ++ s) := by
  unfold IsRel at *
  rw [String.data_append, isRooted_append hl]
  exact hr

/-! ## The elements of a joined path -/

theorem elemsOf_cleanChars (p : List Char) : elemsOf (cleanChars p) = elemsOf p := by
  by_cases hp : p = []
  · subst hp; decide
  · have h := foldl_splitSep_cleanChars hp []
    simp only [List.append_nil] at h
    rw [elemsOf, isRooted_cleanChars, cleanElems, h]
    rfl

theorem elemsOf_append_sep {a x : List Char} (ha : a ≠ []) (hx : isRooted x = false)
    (hn : ∀ e ∈ elemsOf x, IsName e) : elemsOf (a ++ '/' :: x) = elemsOf a ++ elemsOf x := by
  have hx' : elemsOf x = ((splitSep x).foldl (cleanElem false) []).reverse := by
    rw [elemsOf, hx, cleanElems]
  rw [elemsOf, isRooted_append ha, cleanElems, splitSep_append_sep, List.foldl_append,
    ← foldl_cleanElem_absorb, ← hx', foldl_cleanElem_names _ _ _ hn]
  simp [elemsOf, cleanElems]

theorem elemsOf_joinChars (a : List Char) {x : List Char} (hx : isRooted x = false)
    (hn : ∀ e ∈ elemsOf x, IsName e) : elemsOf (joinChars a x) = elemsOf a ++ elemsOf x := by
  by_cases ha : a = []
  · subst ha
    by_cases hx0 : x = []
    · subst hx0; decide
    · simp only [joinChars, ne_eq, not_true_eq_false, if_false, hx0, not_false_eq_true, if_true,
        elemsOf_cleanChars]
      have : elemsOf [] = [] := by decide
      rw [this, List.nil_append]
  · simp only [joinChars, ne_eq, ha, not_false_eq_true, if_true, elemsOf_cleanChars]
    exact elemsOf_append_sep ha hx hn

theorem isRooted_joinChars (a : List Char) {x : List Char} (hx : isRooted x = false) :
    isRooted (joinChars a x) = isRooted a := by
  by_cases ha : a = []
  · subst ha
    by_cases hx0 : x = []
    · subst hx0; rfl
    · simp only [joinChars, ne_eq, not_true_eq_false, if_false, hx0, not_false_eq_true, if_true,
        isRooted_cleanChars, hx]
      rfl
  · simp only [joinChars, ne_eq, ha, not_false_eq_true, if_true, isRooted_cleanChars,
      isRooted_append ha]

theorem elemsOf_name {c : List Char} (hc : IsName c) (hs : '/' ∉ c) :
    isRooted c = false ∧ elemsOf c = [c] := by
  have hr : isRooted c = false := by
    cases c with
    | nil => rfl
    | cons d ds =>
      have : d ≠ '/' := fun h => hs (by simp [h])
      simp [isRooted, this]
  refine ⟨hr, ?_⟩
  rw [elemsOf, hr, cleanElems, splitSep_noSep hs]
  simp [cleanElem_name hc]

theorem GoodPath_Join {a x : String} (ha : GoodPath a) (hx : GoodPath x) :
    GoodPath (Join a x) ∧ elemsOf (Join a x).data = elemsOf a.data ++ elemsOf x.data := by
  have he : elemsOf (Join a x).data = elemsOf a.data ++ elemsOf x.data :=
    elemsOf_joinChars a.data hx.1 hx.2
  refine ⟨⟨?_, ?_⟩, he⟩
  · exact (isRooted_joinChars a.data hx.1).trans ha.1
  · intro e h
    rw [he, List.mem_append] at h
    rcases h with h | h
    · exact ha.2 e h
    · exact hx.2 e h

theorem GoodPath_empty : GoodPath "" := by
  refine ⟨rfl, ?_⟩
  intro e he
  have : elemsOf "".data = [] := by decide
  rw [this] at he
  simp at he

theorem elemsOf_empty : elemsOf "".data = [] := by decide

/-- A literal directory followed by `/` and a plain name. -/
theorem GoodPath_dir_name {d c : String} (hd : GoodPath d) (hd0 : d.data ≠ [])
    (hc : IsName c.data) (hs : '/' ∉ c.data) :
    GoodPath (d ++ "/" ++ c) ∧ elemsOf (d ++ "/" ++ c).data = elemsOf d.data ++ [c.data] := by
  have hdat : (d ++ "/" ++ c).data = d.data ++ '/' :: c.data := by simp [String.data_append]
  obtain ⟨hr, hel⟩ := elemsOf_name hc hs
  have he : elemsOf (d ++ "/" ++ c).data = elemsOf d.data ++ [c.data] := by
    rw [hdat, elemsOf_append_sep hd0 hr (by rw [hel]; simpa using hc), hel]
  refine ⟨⟨?_, ?_⟩, he⟩
  · rw [hdat, isRooted_append hd0]; exact hd.1
  · intro e h
    rw [he, List.mem_append] at h
    rcases h with h | h
    · exact hd.2 e h
    · simp only [List.mem_singleton] at h; rw [h]; exact hc

/-! ## From the creation order to the teardown order -/

theorem TeardownOrdered_Undo {x y : Step} (h : CreateOrdered x y) :
    TeardownOrdered y.Undo x.Undo := by
  intro p hp hv
  obtain ⟨ay, y0, y1⟩ := y
  obtain ⟨ax, x0, x1⟩ := x
  cases ay <;> simp [Step.Undo] at hp
  subst hp
  cases ax <;> simp [Step.Undo] at hv
  · exact h rfl x0 rfl
  · exact h rfl x1 rfl

theorem pairwise_TeardownOrdered {ss : Steps} (h : ss.Pairwise CreateOrdered) :
    (Steps.Reverse (Steps.Undo ss)).Pairwise TeardownOrdered := by
  rw [Steps.Reverse, Steps.Undo, Steps.Clone, Steps.Clone, List.pairwise_reverse,
    List.pairwise_map]
  exact h.imp (fun hxy => TeardownOrdered_Undo hxy)

theorem undoTarget_PrependPath (s : Step) (r : String) :
    undoTarget (s.PrependPath r) = (undoTarget s).map (Join r) := by
  obtain ⟨a, x0, x1⟩ := s
  cases a <;> rfl

theorem CreateOrdered_PrependPath {x y : Step} (r : String) (hx : GoodStep x) (hy : GoodStep y)
    (h : CreateOrderedRel x y) : CreateOrdered (x.PrependPath r) (y.PrependPath r) := by
  intro hm q hq hb
  rw [undoTarget_PrependPath] at hq
  obtain ⟨q0, hq0, rfl⟩ := Option.map_eq_some'.1 hq
  have hya : y.Action = .Mkdir := by
    obtain ⟨a, y0, y1⟩ := y
    cases a <;> simp_all [Step.PrependPath]
  have hy0 : (y.PrependPath r).Arg0 = Join r y.Arg0 := by
    obtain ⟨a, y0, y1⟩ := y
    cases a <;> simp_all [Step.PrependPath]
  have hgy : GoodPath y.Arg0 := hy y.Arg0 (by simp [undoTarget, hya])
  have hgq : GoodPath q0 := hx q0 hq0
  rw [hy0] at hb
  obtain ⟨_, h2, h3⟩ := hb
  have e1 : elemsOf (Join r y.Arg0).data = elemsOf r.data ++ elemsOf y.Arg0.data :=
    elemsOf_joinChars r.data hgy.1 hgy.2
  have e2 : elemsOf (Join r q0).data = elemsOf r.data ++ elemsOf q0.data :=
    elemsOf_joinChars r.data hgq.1 hgq.2
  rw [e1, e2] at h2 h3
  refine h hya q0 hq0 ⟨(List.prefix_append_right_inj _).1 h2, fun he => h3 (by rw [he])⟩

theorem pairwise_CreateOrdered_PrependPath {ss : Steps} (r : String)
    (hg : ∀ s ∈ ss, GoodStep s) (h : ss.Pairwise CreateOrderedRel) :
    (Steps.PrependPath ss r).Pairwise CreateOrdered := by
  rw [Steps.PrependPath, List.pairwise_map]
  exact h.imp_of_mem (fun {a b} ha hb hab => CreateOrdered_PrependPath r (hg a ha) (hg b hb) hab)

theorem isName_GadgetFunctionName (fn : Function) : IsName fn.GadgetFunctionName.data := by
  cases fn <;> simp [Function.GadgetFunctionName, IsName, String.data_append]

theorem TargetIs_of_none {s : Step} (h : undoTarget s = none) (D L : List (List Char) → Prop) :
    TargetIs s D L := by
  intro q hq; rw [h] at hq; cases hq

theorem TargetIs.mono {s : Step} {D L D2 L2 : List (List Char) → Prop} (h : TargetIs s D L)
    (hD : ∀ k, D k → D2 k) (hL : ∀ k, L k → L2 k) : TargetIs s D2 L2 := by
  intro q hq
  obtain ⟨hg, hk⟩ := h q hq
  refine ⟨hg, ?_⟩
  rcases hk with ⟨h1, h2⟩ | ⟨h1, h2⟩
  · exact Or.inl ⟨h1, hD _ h2⟩
  · exact Or.inr ⟨h1, hL _ h2⟩

theorem TargetIs_PrependPath {t : Step} {D L : List (List Char) → Prop}
    (h : TargetIs t D L) {p : String} (hp : GoodPath p) :
    TargetIs (t.PrependPath p) (fun k => ∃ k0, D k0 ∧ k = elemsOf p.data ++ k0)
      (fun k => ∃ k0, L k0 ∧ k = elemsOf p.data ++ k0) := by
  intro q hq
  rw [undoTarget_PrependPath] at hq
  obtain ⟨q0, hq0, rfl⟩ := Option.map_eq_some'.1 hq
  obtain ⟨hg, hk⟩ := h q0 hq0
  obtain ⟨hgj, hej⟩ := GoodPath_Join hp hg
  refine ⟨hgj, ?_⟩
  have ha : (t.PrependPath p).Action = t.Action := by
    obtain ⟨a, x0, x1⟩ := t
    cases a <;> rfl
  rw [ha, hej]
  rcases hk with ⟨h1, h2⟩ | ⟨h1, h2⟩
  · exact Or.inl ⟨h1, _, h2, rfl⟩
  · exact Or.inr ⟨h1, _, h2, rfl⟩

theorem TargetIs_mkdir {x : String} (hx : GoodPath x) (y : String)
    {D : List (List Char) → Prop} (hm : D (elemsOf x.data)) (L : List (List Char) → Prop) :
    TargetIs ⟨.Mkdir, x, y⟩ D L := by
  intro q hq
  simp only [undoTarget, Option.some.injEq] at hq
  subst hq
  exact ⟨hx, Or.inl ⟨rfl, hm⟩⟩

theorem TargetIs_symlink {y : String} (hy : GoodPath y) (x : String)
    (D : List (List Char) → Prop) {L : List (List Char) → Prop} (hm : L (elemsOf y.data)) :
    TargetIs ⟨.Symlink, x, y⟩ D L := by
  intro q hq
  simp only [undoTarget, Option.some.injEq] at hq
  subst hq
  exact ⟨hy, Or.inr ⟨rfl, hm⟩⟩

theorem GoodStep_of_TargetIs {s : Step} {D L : List (List Char) → Prop} (h : TargetIs s D L) :
    GoodStep s := fun q hq => (h q hq).1

/-- Two steps are in order when no directory of the later one can be a strict initial part
of a target of the earlier one. -/
theorem CreateOrderedRel_of_TargetIs {x y : Step} {Dx Lx Dy Ly : List (List Char) → Prop}
    (hx : TargetIs x Dx Lx) (hy : TargetIs y Dy Ly)
    (h : ∀ ky kx, Dy ky → Dx kx ∨ Lx kx → ¬ (ky <+: kx ∧ ky ≠ kx)) :
    CreateOrderedRel x y := by
  intro hm q hq
  obtain ⟨_, hkx⟩ := hx q hq
  obtain ⟨_, hky⟩ := hy y.Arg0 (by simp [undoTarget, hm])
  have hky : Dy (elemsOf y.Arg0.data) := by
    rcases hky with ⟨_, h2⟩ | ⟨h1, _⟩
    · exact h2
    · rw [hm] at h1; cases h1
  apply h _ _ hky
  rcases hkx with ⟨_, h2⟩ | ⟨_, h2⟩
  · exact Or.inl h2
  · exact Or.inr h2

theorem CreateOrderedRel_of_none {x : Step} (h : undoTarget x = none) (y : Step) :
    CreateOrderedRel x y := by
  intro _ q hq; rw [h] at hq; cases hq

theorem CreateOrderedRel_of_not_mkdir (x : Step) {y : Step} (h : y.Action ≠ .Mkdir) :
    CreateOrderedRel x y := fun hm => absurd hm h

theorem GoodPath_configPath {c : String} (hc : PlainName c) :
    GoodPath ("configs/" ++ c) ∧ elemsOf ("configs/" ++ c).data = ["configs".data, c.data] := by
  have e : "configs/" ++ c = "configs" ++ "/" ++ c := String.ext (by simp [String.data_append])
  rw [e]
  have := GoodPath_dir_name (d := "configs") (c := c) (by decide) (by decide) hc.1 hc.2
  refine ⟨this.1, ?_⟩
  rw [this.2]
  have : elemsOf "configs".data = ["configs".data] := by decide
  rw [this]; rfl

theorem GoodPath_fnPath {f : String} (hf : IsName f.data) (hs : '/' ∉ f.data) :
    GoodPath ("functions/" ++ f) ∧
      elemsOf ("functions/" ++ f).data = ["functions".data, f.data] := by
  have e : "functions/" ++ f = "functions" ++ "/" ++ f :=
    String.ext (by simp [String.data_append])
  rw [e]
  have := GoodPath_dir_name (d := "functions") (c := f) (by decide) (by decide) hf hs
  refine ⟨this.1, ?_⟩
  rw [this.2]
  have : elemsOf "functions".data = ["functions".data] := by decide
  rw [this]; rfl

theorem GoodPath_linkPath {c f : String} (hc : PlainName c) (hf : IsName f.data)
    (hs : '/' ∉ f.data) :
    GoodPath ("configs/" ++ c ++ "/" ++ f) ∧
      elemsOf ("configs/" ++ c ++ "/" ++ f).data = ["configs".data, c.data, f.data] := by
  obtain ⟨h1, h2⟩ := GoodPath_configPath hc
  have := GoodPath_dir_name (d := "configs/" ++ c) (c := f) h1
    (by simp [String.data_append]) hf hs
  refine ⟨this.1, ?_⟩
  rw [this.2, h2]; rfl

/-! ## The targets of the compiled steps -/

theorem Step.PrependPath_action (s : Step) (p : String) : (s.PrependPath p).Action = s.Action := by
  obtain ⟨a, x0, x1⟩ := s
  cases a <;> rfl

theorem undoTarget_eq_none {s : Step} (h1 : s.Action ≠ .Mkdir) (h2 : s.Action ≠ .Symlink) :
    undoTarget s = none := by
  obtain ⟨a, x0, x1⟩ := s
  cases a <;> simp_all [undoTarget]

theorem action_lunSteps (lun : MassStorageLun) :
    ∀ s ∈ lunSteps lun, s.Action ≠ .Mkdir ∧ s.Action ≠ .Symlink := by
  intro s hs
  simp only [lunSteps, Steps.Extend, MassStorageLun.lunCreate, Steps.PrependPath,
    List.singleton_append, List.mem_map] at hs
  obtain ⟨t, ht, rfl⟩ := hs
  rw [Step.PrependPath_action]
  simp only [List.mem_cons, List.mem_singleton, List.mem_nil_iff, or_false] at ht
  rcases ht with rfl | rfl | rfl | rfl <;> simp

theorem action_GadgetFunctionCreate (fn : Function) :
    ∀ s ∈ fn.GadgetFunctionCreate, s.Action ≠ .Mkdir ∧ s.Action ≠ .Symlink := by
  intro s hs
  cases fn with
  | Acm n => simp [Function.GadgetFunctionCreate] at hs
  | Eem n d h =>
    simp only [Function.GadgetFunctionCreate, List.mem_cons, List.mem_singleton,
      List.mem_nil_iff, or_false] at hs
    rcases hs with rfl | rfl <;> simp
  | Ncm n d h =>
    simp only [Function.GadgetFunctionCreate, List.mem_cons, List.mem_singleton,
      List.mem_nil_iff, or_false] at hs
    rcases hs with rfl | rfl <;> simp
  | Hid n p sc r d =>
    simp only [Function.GadgetFunctionCreate, List.mem_cons, List.mem_singleton,
      List.mem_nil_iff, or_false] at hs
    rcases hs with rfl | rfl | rfl | rfl <;> simp
  | MassStorage n luns =>
    rw [GadgetFunctionCreate_massStorage, List.mem_flatMap] at hs
    obtain ⟨lun, _, hl⟩ := hs
    exact action_lunSteps lun s hl

theorem functionSteps_eq (cName : String) (fn : Function) :
    functionSteps cName fn =
      (Step.mk .Comment ("config `" ++ cName ++ "`, function `" ++ fn.GadgetFunctionName ++ "`")
          "").PrependPath ("functions/" ++ fn.GadgetFunctionName) ::
        (Step.mk .Mkdir "" "").PrependPath ("functions/" ++ fn.GadgetFunctionName) ::
          (fn.GadgetFunctionCreate.map
              (fun s => s.PrependPath ("functions/" ++ fn.GadgetFunctionName)) ++
            [⟨.Symlink, "functions/" ++ fn.GadgetFunctionName,
              "configs/" ++ cName ++ "/" ++ fn.GadgetFunctionName⟩]) := by
  simp [functionSteps, Steps.Extend, Steps.Append, Steps.PrependPath]

theorem action_functionSteps_tail (fn : Function) (p x y : String) :
    ∀ s ∈ fn.GadgetFunctionCreate.map (fun s => s.PrependPath p) ++ [⟨.Symlink, x, y⟩],
      s.Action ≠ .Mkdir := by
  intro s hs
  simp only [List.mem_append, List.mem_map, List.mem_singleton] at hs
  rcases hs with ⟨t, ht, rfl⟩ | rfl
  · rw [Step.PrependPath_action]; exact (action_GadgetFunctionCreate fn t ht).1
  · simp

theorem TargetIs_functionSteps {c : String} (hc : PlainName c) {fn : Function}
    (hs : '/' ∉ fn.GadgetFunctionName.data) :
    ∀ s ∈ functionSteps c fn,
      TargetIs s (fun k => k = ["functions".data, fn.GadgetFunctionName.data])
        (fun k => k = ["configs".data, c.data, fn.GadgetFunctionName.data]) := by
  intro s hmem
  have hf := isName_GadgetFunctionName fn
  obtain ⟨hg, he⟩ := GoodPath_fnPath hf hs
  rw [functionSteps_eq] at hmem
  simp only [List.mem_cons, List.mem_append, List.mem_map, List.mem_singleton,
    List.mem_nil_iff, or_false] at hmem
  rcases hmem with rfl | rfl | ⟨t, ht, rfl⟩ | rfl
  · exact TargetIs_of_none (by rfl) _ _
  · have := TargetIs_PrependPath (TargetIs_mkdir GoodPath_empty "" (D := fun k => k = []) elemsOf_empty
      (fun _ => False)) hg
    refine this.mono ?_ ?_
    · rintro k ⟨k0, rfl, rfl⟩; rw [he]; rfl
    · rintro k ⟨k0, h, _⟩; exact h.elim
  · apply TargetIs_of_none
    apply undoTarget_eq_none <;> rw [Step.PrependPath_action]
    · exact (action_GadgetFunctionCreate fn t ht).1
    · exact (action_GadgetFunctionCreate fn t ht).2
  · exact TargetIs_symlink (GoodPath_linkPath hc hf hs).1 _ _ (GoodPath_linkPath hc hf hs).2

theorem TargetIs_configBase {c : String} (hc : PlainName c) (l : String) :
    ∀ s ∈ Steps.PrependPath
        [ ⟨.Comment, "config `" ++ c ++ "`", ""⟩,
          ⟨.Mkdir, "", ""⟩,
          ⟨.Mkdir, "strings/" ++ StrEnglish, ""⟩,
          ⟨.Write, "strings/" ++ StrEnglish ++ "/configuration", l⟩ ]
        ("configs/" ++ c),
      TargetIs s (fun k => k = ["configs".data, c.data] ∨
        k = ["configs".data, c.data, "strings".data, "0x409".data]) (fun _ => False) := by
  intro s hmem
  obtain ⟨hg, he⟩ := GoodPath_configPath hc
  simp only [Steps.PrependPath, List.map_cons, List.map_nil, List.mem_cons, List.mem_singleton,
    List.mem_nil_iff, or_false] at hmem
  rcases hmem with rfl | rfl | rfl | rfl
  · exact TargetIs_of_none (by rfl) _ _
  · have := TargetIs_PrependPath (TargetIs_mkdir GoodPath_empty "" (D := fun k => k = []) elemsOf_empty
      (fun _ => False)) hg
    refine this.mono ?_ ?_
    · rintro k ⟨k0, rfl, rfl⟩; rw [he]; exact Or.inl rfl
    · rintro k ⟨k0, h, _⟩; exact h.elim
  · have hstr : GoodPath ("strings/" ++ StrEnglish) := by decide
    have hel : elemsOf ("strings/" ++ StrEnglish).data = ["strings".data, "0x409".data] := by
      decide
    have := TargetIs_PrependPath (TargetIs_mkdir hstr ""
      (D := fun k => k = ["strings".data, "0x409".data]) hel (fun _ => False)) hg
    refine this.mono ?_ ?_
    · rintro k ⟨k0, rfl, rfl⟩; rw [he]; exact Or.inr rfl
    · rintro k ⟨k0, h, _⟩; exact h.elim
  · exact TargetIs_of_none (by rfl) _ _

theorem TargetIs_configSteps {c : Config} (hc : PlainName c.Name)
    (hf : ∀ fn ∈ c.Functions, '/' ∉ fn.GadgetFunctionName.data) :
    ∀ s ∈ configSteps c, TargetIs s (ConfigDirs c.Name) (ConfigLinks c.Name) := by
  intro s hmem
  rw [configSteps_eq, List.mem_append, List.mem_flatMap] at hmem
  rcases hmem with h | ⟨fn, hfn, h⟩
  · refine (TargetIs_configBase hc _ s h).mono ?_ ?_
    · rintro k (h | h)
      · exact Or.inl h
      · exact Or.inr (Or.inl h)
    · intro k h; exact h.elim
  · refine (TargetIs_functionSteps hc (hf fn hfn) s h).mono ?_ ?_
    · intro k h; exact Or.inr (Or.inr ⟨fn, h⟩)
    · intro k h; exact ⟨fn, h⟩

/-! ## The order of the compiled steps -/

theorem pairwise_of_no_mkdir {ss : Steps} (h : ∀ s ∈ ss, s.Action ≠ .Mkdir) :
    ss.Pairwise CreateOrderedRel :=
  List.pairwise_of_forall_mem_list (fun a _ b hb => CreateOrderedRel_of_not_mkdir a (h b hb))

theorem pairwise_functionSteps (c : String) (fn : Function) :
    (functionSteps c fn).Pairwise CreateOrderedRel := by
  rw [functionSteps_eq]
  have ht := action_functionSteps_tail fn ("functions/" ++ fn.GadgetFunctionName)
    ("functions/" ++ fn.GadgetFunctionName) ("configs/" ++ c ++ "/" ++ fn.GadgetFunctionName)
  refine List.pairwise_cons.2 ⟨fun y _ => CreateOrderedRel_of_none (by rfl) y, ?_⟩
  refine List.pairwise_cons.2 ⟨fun y hy => CreateOrderedRel_of_not_mkdir _ (ht y hy), ?_⟩
  exact pairwise_of_no_mkdir ht

theorem strings_ne_configs : "strings".data ≠ "configs".data := by decide

theorem functions_ne_configs : "functions".data ≠ "configs".data := by decide

theorem functions_ne_strings : "functions".data ≠ "strings".data := by decide

theorem pairwise_configBase {c : String} (hc : PlainName c) (l : String) :
    (Steps.PrependPath
        [ ⟨.Comment, "config `" ++ c ++ "`", ""⟩,
          ⟨.Mkdir, "", ""⟩,
          ⟨.Mkdir, "strings/" ++ StrEnglish, ""⟩,
          ⟨.Write, "strings/" ++ StrEnglish ++ "/configuration", l⟩ ]
        ("configs/" ++ c)).Pairwise CreateOrderedRel := by
  have hT := TargetIs_configBase hc l
  simp only [Steps.PrependPath, List.map_cons, List.map_nil] at hT ⊢
  refine List.pairwise_cons.2 ⟨fun y _ => CreateOrderedRel_of_none (by rfl) y, ?_⟩
  refine List.pairwise_cons.2 ⟨?_, ?_⟩
  · intro y hy
    simp only [List.mem_cons, List.mem_singleton, List.mem_nil_iff, or_false] at hy
    rcases hy with rfl | rfl
    · obtain ⟨hg, he⟩ := GoodPath_configPath hc
      intro _ q hq
      simp only [undoTarget, Step.PrependPath, Option.some.injEq] at hq
      subst hq
      have h1 : elemsOf (Join ("configs/" ++ c) "").data = ["configs".data, c.data] := by
        rw [(GoodPath_Join hg GoodPath_empty).2, he, elemsOf_empty]; rfl
      have h2 : elemsOf (Join ("configs/" ++ c) ("strings/" ++ StrEnglish)).data =
          ["configs".data, c.data, "strings".data, "0x409".data] := by
        rw [(GoodPath_Join hg (by decide)).2, he]
        have : elemsOf ("strings/" ++ StrEnglish).data = ["strings".data, "0x409".data] := by
          decide
        rw [this]; rfl
      simp only [Step.PrependPath, h1, h2]
      rintro ⟨hp, _⟩
      have := hp.length_le
      simp at this
    · exact CreateOrderedRel_of_not_mkdir _ (by simp [Step.PrependPath])
  · refine List.pairwise_cons.2 ⟨?_, List.pairwise_singleton _ _⟩
    intro y hy
    simp only [List.mem_singleton] at hy
    subst hy
    exact CreateOrderedRel_of_not_mkdir _ (by simp [Step.PrependPath])

theorem pairwise_configSteps {c : Config} (hc : PlainName c.Name)
    (hf : ∀ fn ∈ c.Functions, '/' ∉ fn.GadgetFunctionName.data) :
    (configSteps c).Pairwise CreateOrderedRel := by
  rw [configSteps_eq]
  refine List.pairwise_append.2 ⟨pairwise_configBase hc _, ?_, ?_⟩
  · refine List.pairwise_flatMap.2 ⟨fun fn _ => pairwise_functionSteps c.Name fn, ?_⟩
    refine List.Pairwise.imp_of_mem ?_ (List.pairwise_of_forall (R := fun _ _ => True)
      (l := c.Functions) (fun _ _ => trivial))
    intro f1 f2 h1 h2 _ x hx y hy
    refine CreateOrderedRel_of_TargetIs (TargetIs_functionSteps hc (hf f1 h1) x hx)
      (TargetIs_functionSteps hc (hf f2 h2) y hy) ?_
    rintro ky kx rfl (rfl | rfl) ⟨hp, hne⟩
    · have := hp.eq_of_length (by simp); exact hne this
    · simp [List.cons_prefix_cons, functions_ne_configs] at hp
  · intro x hx y hy
    obtain ⟨fn, hfn, hy⟩ := List.mem_flatMap.1 hy
    refine CreateOrderedRel_of_TargetIs (TargetIs_configBase hc _ x hx)
      (TargetIs_functionSteps hc (hf fn hfn) y hy) ?_
    rintro ky kx rfl (h | h) ⟨hp, hne⟩
    · rcases h with rfl | rfl <;> simp [List.cons_prefix_cons, functions_ne_configs] at hp
    · exact h

theorem relSteps_eq_blocks (g : Gadget) :
    g.relSteps = identitySteps g ++ (g.Configs.flatMap configSteps ++ bindingSteps g) := by
  rw [relSteps_eq, List.append_assoc]; rfl

theorem TargetIs_identitySteps (g : Gadget) :
    ∀ s ∈ identitySteps g,
      TargetIs s (fun k => k = [] ∨ k = ["strings".data, "0x409".data]) (fun _ => False) := by
  intro s hs
  simp only [identitySteps, List.mem_cons, List.mem_singleton, List.mem_nil_iff, or_false] at hs
  rcases hs with rfl | rfl | rfl | rfl | rfl | rfl | rfl
  · exact TargetIs_mkdir GoodPath_empty _ (Or.inl elemsOf_empty) _
  · exact TargetIs_of_none (by rfl) _ _
  · exact TargetIs_of_none (by rfl) _ _
  · exact TargetIs_mkdir (by decide) _ (Or.inr (by decide)) _
  · exact TargetIs_of_none (by rfl) _ _
  · exact TargetIs_of_none (by rfl) _ _
  · exact TargetIs_of_none (by rfl) _ _

theorem action_bindingSteps (g : Gadget) :
    ∀ s ∈ bindingSteps g, s.Action ≠ .Mkdir ∧ s.Action ≠ .Symlink := by
  intro s hs
  unfold bindingSteps at hs
  split_ifs at hs
  · simp only [List.mem_singleton] at hs; subst hs; simp
  · simp at hs

theorem pairwise_identitySteps (g : Gadget) : (identitySteps g).Pairwise CreateOrderedRel := by
  unfold identitySteps
  refine List.pairwise_cons.2 ⟨?_, ?_⟩
  · intro y hy
    simp only [List.mem_cons, List.mem_singleton, List.mem_nil_iff, or_false] at hy
    rcases hy with rfl | rfl | rfl | rfl | rfl | rfl
    · exact CreateOrderedRel_of_not_mkdir _ (by simp)
    · exact CreateOrderedRel_of_not_mkdir _ (by simp)
    · intro _ q hq
      simp only [undoTarget, Option.some.injEq] at hq
      subst hq
      decide
    · exact CreateOrderedRel_of_not_mkdir _ (by simp)
    · exact CreateOrderedRel_of_not_mkdir _ (by simp)
    · exact CreateOrderedRel_of_not_mkdir _ (by simp)
  refine List.pairwise_cons.2 ⟨fun y _ => CreateOrderedRel_of_none (by rfl) y, ?_⟩
  refine List.pairwise_cons.2 ⟨fun y _ => CreateOrderedRel_of_none (by rfl) y, ?_⟩
  refine List.pairwise_cons.2 ⟨?_, ?_⟩
  · intro y hy
    simp only [List.mem_cons, List.mem_singleton, List.mem_nil_iff, or_false] at hy
    rcases hy with rfl | rfl | rfl <;> exact CreateOrderedRel_of_not_mkdir _ (by simp)
  · exact pairwise_of_no_mkdir (by
      intro s hs
      simp only [List.mem_cons, List.mem_singleton, List.mem_nil_iff, or_false] at hs
      rcases hs with rfl | rfl | rfl <;> simp)

theorem TargetIs_relSteps {g : Gadget} (hg : g.PlainNames) :
    ∀ s ∈ g.relSteps, TargetIs s (fun k => k.length ≠ 1) (fun k => k.length ≠ 1) := by
  intro s hs
  rw [relSteps_eq_blocks, List.mem_append, List.mem_append, List.mem_flatMap] at hs
  rcases hs with h | ⟨c, hc, h⟩ | h
  · refine (TargetIs_identitySteps g s h).mono ?_ (fun _ h => h.elim)
    rintro k (rfl | rfl) <;> simp
  · refine (TargetIs_configSteps (hg c hc).1 (hg c hc).2 s h).mono ?_ ?_
    · rintro k (rfl | rfl | ⟨f, rfl⟩) <;> simp
    · rintro k ⟨f, rfl⟩; simp
  · exact TargetIs_of_none
      (undoTarget_eq_none (action_bindingSteps g s h).1 (action_bindingSteps g s h).2) _ _

theorem pairwise_relSteps {g : Gadget} (hg : g.WellNamed) :
    g.relSteps.Pairwise CreateOrderedRel := by
  obtain ⟨hp, hn⟩ := hg
  rw [relSteps_eq_blocks]
  refine List.pairwise_append.2 ⟨pairwise_identitySteps g, ?_, ?_⟩
  · refine List.pairwise_append.2 ⟨?_, ?_, ?_⟩
    · refine List.pairwise_flatMap.2
        ⟨fun c hc => pairwise_configSteps (hp c hc).1 (hp c hc).2, ?_⟩
      have hne : g.Configs.Pairwise (fun c1 c2 => c1.Name ≠ c2.Name) := by
        simpa [List.Nodup, List.pairwise_map] using hn
      refine hne.imp_of_mem ?_
      intro c1 c2 h1 h2 hne x hx y hy
      refine CreateOrderedRel_of_TargetIs (TargetIs_configSteps (hp c1 h1).1 (hp c1 h1).2 x hx)
        (TargetIs_configSteps (hp c2 h2).1 (hp c2 h2).2 y hy) ?_
      have hd : c2.Name.data ≠ c1.Name.data := fun h => hne (String.ext h.symm)
      rintro ky kx hky hkx ⟨hpre, hneq⟩
      rcases hky with rfl | rfl | ⟨f2, rfl⟩
      · rcases hkx with (rfl | rfl | ⟨f1, rfl⟩) | ⟨f1, rfl⟩ <;>
          simp [List.cons_prefix_cons, hd, functions_ne_configs.symm] at hpre
      · rcases hkx with (rfl | rfl | ⟨f1, rfl⟩) | ⟨f1, rfl⟩ <;>
          simp [List.cons_prefix_cons, hd, functions_ne_configs.symm] at hpre
      · rcases hkx with (rfl | rfl | ⟨f1, rfl⟩) | ⟨f1, rfl⟩
        · simp [List.cons_prefix_cons, functions_ne_configs] at hpre
        · simp [List.cons_prefix_cons, functions_ne_configs] at hpre
        · exact hneq (hpre.eq_of_length (by simp))
        · simp [List.cons_prefix_cons, functions_ne_configs] at hpre
    · exact pairwise_of_no_mkdir (fun s hs => (action_bindingSteps g s hs).1)
    · intro x _ y hy
      exact CreateOrderedRel_of_not_mkdir x (action_bindingSteps g y hy).1
  · intro x hx y hy
    rcases List.mem_append.1 hy with hy | hy
    · obtain ⟨c, hc, hy⟩ := List.mem_flatMap.1 hy
      refine CreateOrderedRel_of_TargetIs (TargetIs_identitySteps g x hx)
        (TargetIs_configSteps (hp c hc).1 (hp c hc).2 y hy) ?_
      rintro ky kx hky (hkx | hkx) ⟨hpre, hneq⟩
      · rcases hky with rfl | rfl | ⟨f2, rfl⟩ <;> rcases hkx with rfl | rfl <;>
          simp [List.cons_prefix_cons, strings_ne_configs.symm, functions_ne_strings] at hpre
      · exact hkx
    · exact CreateOrderedRel_of_not_mkdir x (action_bindingSteps g y hy).1

theorem pairwise_CreateOrdered_CreateSteps {g : Gadget} (hg : g.WellNamed) :
    g.CreateSteps.Pairwise CreateOrdered :=
  pairwise_CreateOrdered_PrependPath g.gadgetPath
    (fun s hs => GoodStep_of_TargetIs (TargetIs_relSteps hg.1 s hs)) (pairwise_relSteps hg)

/-! ## The steps of the teardown -/

theorem Undo_action (t : Step) :
    t.Undo.Action = .Noop ∨ t.Undo.Action = .Rmdir ∨ t.Undo.Action = .Remove := by
  obtain ⟨a, x0, x1⟩ := t
  cases a <;> simp [Step.Undo]

theorem Undo_remove {t : Step} (h : t.Undo.Action = .Remove) :
    t.Action = .Symlink ∧ t.Arg1 = t.Undo.Arg0 := by
  obtain ⟨a, x0, x1⟩ := t
  cases a <;> simp [Step.Undo] at h ⊢

theorem Undo_write {t : Step} (h : t.Action = .Write ∨ t.Action = .WriteBinary) :
    t.Undo = ⟨.Noop, "", ""⟩ := by
  obtain ⟨a, x0, x1⟩ := t
  cases a <;> simp_all [Step.Undo]

theorem Undo_arg0 (t : Step) : t.Undo.Arg0 = (undoTarget t).getD "" := by
  obtain ⟨a, x0, x1⟩ := t
  cases a <;> rfl

theorem mem_RemoveSteps {g : Gadget} {s : Step} :
    s ∈ g.RemoveSteps ↔ ∃ t ∈ g.CreateSteps, t.Undo = s := by
  simp [Gadget.RemoveSteps, Steps.Reverse, Steps.Undo, Steps.Clone]

theorem Join_UDC_ne_empty (r : String) : Join r "UDC" ≠ "" := by
  intro h
  have := congrArg String.data h
  simp only [Join, joinChars] at this
  revert this
  split_ifs with h1 h2
  · simp [cleanChars_ne_nil]
  · simp [cleanChars_ne_nil]
  · exact absurd (by decide) h2

theorem CreateSteps_bound (g : Gadget) (h : g.UDC ≠ "") :
    ∃ ss : Steps, g.CreateSteps = ss ++ [⟨.Write, Join g.gadgetPath "UDC", g.UDC⟩] := by
  refine ⟨Steps.PrependPath (identitySteps g ++ g.Configs.flatMap configSteps) g.gadgetPath, ?_⟩
  rw [Gadget.CreateSteps, relSteps_eq_blocks, bindingSteps, if_pos h, ← List.append_assoc]
  simp [Steps.PrependPath, Step.PrependPath]

/-! ## Base64 -/

theorem decodeChar_encodeChar (v : Nat) : decodeChar (encodeChar v) = some (v % 64) := by
  have h : ∀ n, n < 64 → decodeChar (encodeStd.getD n 'A') = some n := by decide
  exact h (v % 64) (Nat.mod_lt _ (by decide))

theorem encodeChar_ne_pad (v : Nat) : encodeChar v ≠ '=' := by
  have h : ∀ n, n < 64 → encodeStd.getD n 'A' ≠ '=' := by decide
  exact h (v % 64) (Nat.mod_lt _ (by decide))

theorem base64Decode_encode (d : List Nat) (h : ∀ b ∈ d, b < 256) :
    base64Decode (base64Encode d) = some d := by
  induction d using base64Encode.induct with
  | case1 b0 b1 b2 rest ih =>
    have h0 : b0 < 256 := h b0 (by simp)
    have h1 : b1 < 256 := h b1 (by simp)
    have h2 : b2 < 256 := h b2 (by simp)
    have ih := ih (fun b hb => h b (by simp [hb]))
    simp only [base64Encode, base64Decode, encodeChar_ne_pad, and_false, if_false,
      decodeChar_encodeChar, ih]
    have e0 : ((b0 * 65536 + b1 * 256 + b2) / 262144 % 64 * 4 +
        (b0 * 65536 + b1 * 256 + b2) / 4096 % 64 / 16) % 256 = b0 := by omega
    have e1 : ((b0 * 65536 + b1 * 256 + b2) / 4096 % 64 * 16 +
        (b0 * 65536 + b1 * 256 + b2) / 64 % 64 / 4) % 256 = b1 := by omega
    have e2 : ((b0 * 65536 + b1 * 256 + b2) / 64 % 64 * 64 +
        (b0 * 65536 + b1 * 256 + b2) % 64) % 256 = b2 := by omega
    rw [e0, e1, e2]
  | case2 b0 b1 =>
    have h0 : b0 < 256 := h b0 (by simp)
    have h1 : b1 < 256 := h b1 (by simp)
    simp only [base64Encode, base64Decode, encodeChar_ne_pad, and_self, if_true, if_false,
      decodeChar_encodeChar]
    have e0 : ((b0 * 65536 + b1 * 256) / 262144 % 64 * 4 +
        (b0 * 65536 + b1 * 256) / 4096 % 64 / 16) % 256 = b0 := by omega
    have e1 : ((b0 * 65536 + b1 * 256) / 4096 % 64 * 16 +
        (b0 * 65536 + b1 * 256) / 64 % 64 / 4) % 256 = b1 := by omega
    rw [e0, e1]
  | case3 b0 =>
    have h0 : b0 < 256 := h b0 (by simp)
    simp only [base64Encode, base64Decode, and_self, if_true, decodeChar_encodeChar]
    have e0 : (b0 * 65536 / 262144 % 64 * 4 + b0 * 65536 / 4096 % 64 / 16) % 256 = b0 := by
      omega
    rw [e0]
  | case4 => rfl

/-! ## Bytes and text -/

theorem toNat_ofNat_byte (n : Nat) (h : n < 256) : (Char.ofNat n).toNat = n := by
  have hv : n.isValidChar := Or.inl (by omega)
  simp only [Char.ofNat, dif_pos hv, Char.ofNatAux, Char.toNat]
  rfl

theorem stringBytes_bytesToString (d : List Nat) (h : ∀ b ∈ d, b < 256) :
    stringBytes (bytesToString d) = d := by
  simp only [stringBytes, bytesToString, List.map_map]
  conv_rhs => rw [← List.map_id d]
  apply List.map_congr_left
  intro b hb
  simp only [Function.comp, id]
  rw [Nat.mod_eq_of_lt (h b hb)]
  exact toNat_ofNat_byte b (h b hb)

theorem joinSpace_cons_append (acc a : String) (rest : List String) :
    joinSpace ((acc ++ " " ++ a) :: rest) = acc ++ " " ++ joinSpace (a :: rest) := by
  cases rest with
  | nil => rfl
  | cons b r => simp [joinSpace, String.append_assoc]

theorem intercalate_go_eq (acc : String) (args : List String) :
    String.intercalate.go acc " " args = joinSpace (acc :: args) := by
  induction args generalizing acc with
  | nil => rfl
  | cons a rest ih =>
    rw [String.intercalate.go, ih, joinSpace_cons_append]
    cases rest <;> rfl

theorem joinSpace_eq_intercalate (args : List String) :
    joinSpace args = " ".intercalate args := by
  cases args with
  | nil => rfl
  | cons a rest => rw [String.intercalate, intercalate_go_eq]

/-! ## Joining plain names -/

theorem cleanChars_name {x : List Char} (hx : IsName x) (hs : '/' ∉ x) : cleanChars x = x := by
  obtain ⟨hr, he⟩ := elemsOf_name hx hs
  have h : cleanElems false (splitSep x) = [x] := by rw [← hr]; exact he
  simp [cleanChars, hx.1, h, hr, renderPath, joinSep]

theorem cleanChars_name_name {x f : List Char} (hx : IsName x) (hs : '/' ∉ x) (hf : IsName f)
    (hfs : '/' ∉ f) : cleanChars (x ++ '/' :: f) = x ++ '/' :: f := by
  obtain ⟨hr, he⟩ := elemsOf_name hx hs
  obtain ⟨hrf, hef⟩ := elemsOf_name hf hfs
  have h : cleanElems (isRooted (x ++ '/' :: f)) (splitSep (x ++ '/' :: f)) = [x, f] := by
    have := elemsOf_append_sep hx.1 hrf (by rw [hef]; simpa using hf)
    rw [he, hef] at this
    exact this
  have hr2 : isRooted (x ++ '/' :: f) = false := by rw [isRooted_append hx.1]; exact hr
  rw [hr2] at h
  simp [cleanChars, hx.1, h, hr2, renderPath, joinSep]

theorem Join_name_empty {x : String} (hx : IsName x.data) (hs : '/' ∉ x.data) :
    Join x "" = x := by
  apply String.ext
  simp only [Join, joinChars, ne_eq, hx.1, not_false_eq_true, if_true]
  show cleanChars (x.data ++ ['/']) = x.data
  rw [cleanChars_trailing_sep hx.1, cleanChars_name hx hs]

theorem Join_name_name {x f : String} (hx : IsName x.data) (hs : '/' ∉ x.data)
    (hf : IsName f.data) (hfs : '/' ∉ f.data) : Join x f = x ++ "/" ++ f := by
  apply String.ext
  simp only [Join, joinChars, ne_eq, hx.1, not_false_eq_true, if_true, String.data_append]
  rw [cleanChars_name_name hx hs hf hfs]
  simp

theorem lunPath_plain {n : String} (hn : '/' ∉ n.data) :
    IsName ("lun." ++ n).data ∧ '/' ∉ ("lun." ++ n).data := by
  refine ⟨?_, ?_⟩
  · simp [IsName, String.data_append]
  · simp [String.data_append, hn]

theorem lunSteps_eq (u : MassStorageLun) : lunSteps u = lunBlock u := by
  simp [lunSteps, lunBlock, Steps.Extend, MassStorageLun.lunCreate, Steps.PrependPath,
    Step.PrependPath]

/-! ## The symbolic links of the compiled sequence -/

theorem filter_symlink_of_action {ss : Steps} (h : ∀ s ∈ ss, s.Action ≠ .Symlink) :
    ss.filter (fun s => s.Action = .Symlink) = [] := by
  rw [List.filter_eq_nil_iff]
  intro s hs
  simpa using h s hs

theorem filter_symlink_functionSteps (c : String) (fn : Function) :
    (functionSteps c fn).filter (fun s => s.Action = .Symlink) = [attachStep c fn] := by
  rw [functionSteps_eq]
  have h : (fn.GadgetFunctionCreate.map
      (fun s => s.PrependPath ("functions/" ++ fn.GadgetFunctionName))).filter
      (fun s => s.Action = .Symlink) = [] := by
    apply filter_symlink_of_action
    intro s hs
    obtain ⟨t, ht, rfl⟩ := List.mem_map.1 hs
    rw [Step.PrependPath_action]
    exact (action_GadgetFunctionCreate fn t ht).2
  rw [List.filter_cons_of_neg (by simp [Step.PrependPath_action]),
    List.filter_cons_of_neg (by simp [Step.PrependPath_action]), List.filter_append, h]
  rfl

theorem filter_symlink_configSteps (c : Config) :
    (configSteps c).filter (fun s => s.Action = .Symlink) = c.Functions.map (attachStep c.Name) := by
  rw [configSteps_eq, List.filter_append, List.filter_flatMap]
  have h : ∀ fs : List Function,
      fs.flatMap (fun fn => (functionSteps c.Name fn).filter (fun s => s.Action = .Symlink)) =
        fs.map (attachStep c.Name) := by
    intro fs
    induction fs with
    | nil => rfl
    | cons f fs ih => rw [List.flatMap_cons, filter_symlink_functionSteps, ih]; rfl
  rw [h]
  simp [Steps.PrependPath, Step.PrependPath, List.filter_cons]

theorem filter_symlink_relSteps (g : Gadget) :
    g.relSteps.filter (fun s => s.Action = .Symlink) =
      g.Configs.flatMap (fun c => c.Functions.map (attachStep c.Name)) := by
  rw [relSteps_eq_blocks, List.filter_append, List.filter_append, List.filter_flatMap]
  have h1 : (identitySteps g).filter (fun s => s.Action = .Symlink) = [] := by
    simp [identitySteps, List.filter_cons]
  have h2 : (bindingSteps g).filter (fun s => s.Action = .Symlink) = [] :=
    filter_symlink_of_action (fun s hs => (action_bindingSteps g s hs).2)
  rw [h1, h2, List.nil_append, List.append_nil]
  exact congrArg (fun f => g.Configs.flatMap f) (funext filter_symlink_configSteps)

theorem filter_symlink_CreateSteps (g : Gadget) :
    g.CreateSteps.filter (fun s => s.Action = .Symlink) =
      g.Configs.flatMap (fun c => c.Functions.map
        (fun fn => (attachStep c.Name fn).PrependPath g.gadgetPath)) := by
  have h : ∀ ss : Steps, (Steps.PrependPath ss g.gadgetPath).filter (fun s => s.Action = .Symlink) =
      Steps.PrependPath (ss.filter (fun s => s.Action = .Symlink)) g.gadgetPath := by
    intro ss
    induction ss with
    | nil => rfl
    | cons s ss ih =>
      simp only [Steps.PrependPath, List.map_cons, List.filter_cons, Step.PrependPath_action] at ih ⊢
      split <;> simp [ih]
  rw [Gadget.CreateSteps, h, filter_symlink_relSteps]
  simp [Steps.PrependPath, List.map_flatMap, Function.comp_def]

/-! ## The subtree of a function -/

theorem Step.PrependPath_assoc_of_ne (s : Step) (a : String) {b : String} (hb : IsRel b)
    (hne : b ≠ "") : (s.PrependPath b).PrependPath a = s.PrependPath (Join a b) := by
  obtain ⟨act, x, y⟩ := s
  cases act <;> simp only [Step.PrependPath]
  all_goals first
    | rw [Join_assoc a b x (Or.inr ⟨hb, fun h => absurd h hne⟩),
        Join_assoc a b y (Or.inr ⟨hb, fun h => absurd h hne⟩)]
    | rw [Join_assoc a b x (Or.inr ⟨hb, fun h => absurd h hne⟩)]

theorem fnPath_rel (fn : Function) :
    "functions/" ++ fn.GadgetFunctionName ≠ "" ∧ IsRel ("functions/" ++ fn.GadgetFunctionName) :=
  ⟨literal_append_ne_empty _ _ (by decide), literal_append_isRel _ _ (by decide) (by decide)⟩

theorem functionSteps_infix_CreateSteps (g : Gadget) {c : Config} (hc : c ∈ g.Configs)
    {fn : Function} (hf : fn ∈ c.Functions) :
    Steps.PrependPath (functionSteps c.Name fn) g.gadgetPath <:+: g.CreateSteps := by
  rw [Gadget.CreateSteps]
  apply List.IsInfix.map
  rw [relSteps_eq_blocks]
  have h1 : functionSteps c.Name fn <:+: configSteps c := by
    rw [configSteps_eq]
    have : functionSteps c.Name fn <:+: c.Functions.flatMap (functionSteps c.Name) := by
      rw [List.flatMap_def]
      exact List.infix_of_mem_flatten (List.mem_map.2 ⟨fn, hf, rfl⟩)
    exact this.trans (List.suffix_append _ _).isInfix
  have h2 : configSteps c <:+: g.Configs.flatMap configSteps := by
    rw [List.flatMap_def]
    exact List.infix_of_mem_flatten (List.mem_map.2 ⟨c, hc, rfl⟩)
  exact (h1.trans h2).trans (List.infix_append' _ _ _)

theorem PrependPath_functionSteps (r c : String) (fn : Function) :
    Steps.PrependPath (functionSteps c fn) r =
      ⟨.Comment, "config `" ++ c ++ "`, function `" ++ fn.GadgetFunctionName ++ "`", ""⟩ ::
        ([⟨.Mkdir, Join r ("functions/" ++ fn.GadgetFunctionName), ""⟩] ++
          Steps.PrependPath fn.GadgetFunctionCreate (Join r ("functions/" ++ fn.GadgetFunctionName)) ++
          [⟨.Symlink, Join r ("functions/" ++ fn.GadgetFunctionName),
            Join r ("configs/" ++ c ++ "/" ++ fn.GadgetFunctionName)⟩]) := by
  obtain ⟨hne, hrel⟩ := fnPath_rel fn
  rw [functionSteps_eq]
  simp only [Steps.PrependPath, List.map_cons, List.map_append, List.map_map, List.map_nil,
    List.singleton_append, List.cons_append]
  congr 1
  congr 1
  · simp [Step.PrependPath, Join_Join_rel_empty r hne hrel]
  · congr 1
    apply List.map_congr_left
    intro s _
    exact Step.PrependPath_assoc_of_ne s r hrel hne

/-! ## Paths that stay below the root -/

theorem GoodPath_of_noDotDot {p : String} (hr : isRooted p.data = false) (h : NoDotDot p) :
    GoodPath p := by
  refine ⟨hr, ?_⟩
  intro e he
  rcases mem_foldl_cleanElem (splitSep p.data) (List.mem_reverse.1 he) with h0 | ⟨h1, h2, h3⟩
  · simp at h0
  · exact ⟨h2, h3, fun hd => h (hd ▸ h1)⟩

theorem NoDotDot_dir_append {d x p : String} (hp : p.data = d.data ++ '/' :: x.data)
    (hd : NoDotDot d) (hx : NoDotDot x) : NoDotDot p := by
  unfold NoDotDot at *
  rw [hp, splitSep_append_sep, List.mem_append]
  exact fun h => h.elim hd hx

theorem GoodPath_configPath_noDotDot {c : String} (hc : NoDotDot c) :
    GoodPath ("configs/" ++ c) ∧ NoDotDot ("configs/" ++ c) := by
  have hn : NoDotDot ("configs/" ++ c) :=
    NoDotDot_dir_append (d := "configs") (x := c) (by simp [String.data_append]) (by decide) hc
  exact ⟨GoodPath_of_noDotDot (by simp [String.data_append, isRooted]) hn, hn⟩

theorem GoodPath_fnPath_noDotDot {f : String} (hf : NoDotDot f) :
    GoodPath ("functions/" ++ f) := by
  have hn : NoDotDot ("functions/" ++ f) :=
    NoDotDot_dir_append (d := "functions") (x := f) (by simp [String.data_append]) (by decide) hf
  exact GoodPath_of_noDotDot (by simp [String.data_append, isRooted]) hn

theorem GoodPath_linkPath_noDotDot {c f : String} (hc : NoDotDot c) (hf : NoDotDot f) :
    GoodPath ("configs/" ++ c ++ "/" ++ f) := by
  have hn : NoDotDot ("configs/" ++ c ++ "/" ++ f) :=
    NoDotDot_dir_append (d := "configs/" ++ c) (x := f) (by simp [String.data_append])
      (GoodPath_configPath_noDotDot hc).2 hf
  exact GoodPath_of_noDotDot (by simp [String.data_append, isRooted]) hn

theorem GoodPath_lunPath_noDotDot {n : String} (h : NoDotDot ("lun." ++ n)) :
    GoodPath ("lun." ++ n) :=
  GoodPath_of_noDotDot (by simp [String.data_append, isRooted]) h

theorem RelStepOK_PrependPath {s : Step} (h : RelStepOK s) {p : String} (hp : GoodPath p) :
    RelStepOK (s.PrependPath p) := by
  obtain ⟨a, x, y⟩ := s
  rcases h with h | ⟨h1, h2, h3⟩
  · left
    rw [Step.PrependPath_action]; exact h
  · right
    have hx : GoodPath (Join p x) := (GoodPath_Join hp h2).1
    cases a
    · exact absurd rfl h1
    · exact ⟨h1, h2, h3⟩
    · exact ⟨h1, hx, fun h => by cases h⟩
    · exact ⟨h1, hx, fun h => by cases h⟩
    · exact ⟨h1, hx, fun h => by cases h⟩
    · exact ⟨h1, hx, fun h => by cases h⟩
    · exact ⟨h1, hx, fun h => by cases h⟩
    · exact ⟨h1, hx, fun h => by cases h⟩
    · exact ⟨h1, hx, fun _ => (GoodPath_Join hp (h3 rfl)).1⟩

theorem RelStepOK_of_path {a : Action} {x y : String} (ha : a ≠ .Noop) (hs : a ≠ .Symlink)
    (hx : GoodPath x) : RelStepOK ⟨a, x, y⟩ :=
  Or.inr ⟨ha, hx, fun h => absurd h hs⟩

theorem RelStepOK_lunSteps {u : MassStorageLun} (h : NoDotDot ("lun." ++ u.Name)) :
    ∀ s ∈ lunSteps u, RelStepOK s := by
  intro s hs
  simp only [lunSteps, Steps.Extend, MassStorageLun.lunCreate, Steps.PrependPath,
    List.cons_append, List.nil_append, List.map_cons, List.map_nil, List.mem_cons,
    List.mem_nil_iff, or_false] at hs
  have hl := GoodPath_lunPath_noDotDot h
  rcases hs with rfl | rfl | rfl | rfl
  · exact RelStepOK_PrependPath (RelStepOK_of_path (by decide) (by decide) GoodPath_empty) hl
  · exact RelStepOK_PrependPath (RelStepOK_of_path (by decide) (by decide) (by decide)) hl
  · exact RelStepOK_PrependPath (RelStepOK_of_path (by decide) (by decide) (by decide)) hl
  · exact RelStepOK_PrependPath (RelStepOK_of_path (by decide) (by decide) (by decide)) hl

theorem RelStepOK_GadgetFunctionCreate {fn : Function}
    (h : ∀ u ∈ fn.Luns, NoDotDot ("lun." ++ u.Name)) :
    ∀ s ∈ fn.GadgetFunctionCreate, RelStepOK s := by
  intro s hs
  cases fn with
  | Acm n => simp [Function.GadgetFunctionCreate] at hs
  | Eem n d x =>
    simp only [Function.GadgetFunctionCreate, List.mem_cons, List.mem_nil_iff, or_false] at hs
    rcases hs with rfl | rfl <;>
      exact RelStepOK_of_path (by decide) (by decide) (by decide)
  | Ncm n d x =>
    simp only [Function.GadgetFunctionCreate, List.mem_cons, List.mem_nil_iff, or_false] at hs
    rcases hs with rfl | rfl <;>
      exact RelStepOK_of_path (by decide) (by decide) (by decide)
  | Hid n p sc r d =>
    simp only [Function.GadgetFunctionCreate, List.mem_cons, List.mem_nil_iff, or_false] at hs
    rcases hs with rfl | rfl | rfl | rfl <;>
      exact RelStepOK_of_path (by decide) (by decide) (by decide)
  | MassStorage n luns =>
    rw [GadgetFunctionCreate_massStorage, List.mem_flatMap] at hs
    obtain ⟨u, hu, hl⟩ := hs
    exact RelStepOK_lunSteps (h u hu) s hl

theorem RelStepOK_functionSteps {c : String} (hc : NoDotDot c) {fn : Function}
    (hf : NoDotDot fn.GadgetFunctionName) (hl : ∀ u ∈ fn.Luns, NoDotDot ("lun." ++ u.Name)) :
    ∀ s ∈ functionSteps c fn, RelStepOK s := by
  intro s hs
  have hp := GoodPath_fnPath_noDotDot hf
  rw [functionSteps_eq] at hs
  simp only [List.mem_cons, List.mem_append, List.mem_map, List.mem_singleton,
    List.mem_nil_iff, or_false] at hs
  rcases hs with rfl | rfl | ⟨t, ht, rfl⟩ | rfl
  · exact Or.inl rfl
  · exact RelStepOK_PrependPath (RelStepOK_of_path (by decide) (by decide) GoodPath_empty) hp
  · exact RelStepOK_PrependPath (RelStepOK_GadgetFunctionCreate hl t ht) hp
  · exact Or.inr ⟨(fun h => by cases h), hp, fun _ => GoodPath_linkPath_noDotDot hc hf⟩

theorem RelStepOK_configSteps {c : Config} (hc : NoDotDot c.Name)
    (hf : ∀ fn ∈ c.Functions, NoDotDot fn.GadgetFunctionName ∧
      ∀ u ∈ fn.Luns, NoDotDot ("lun." ++ u.Name)) :
    ∀ s ∈ configSteps c, RelStepOK s := by
  intro s hs
  have hp := (GoodPath_configPath_noDotDot hc).1
  rw [configSteps_eq, List.mem_append, List.mem_flatMap] at hs
  rcases hs with h | ⟨fn, hfn, h⟩
  · simp only [Steps.PrependPath, List.map_cons, List.map_nil, List.mem_cons,
      List.mem_nil_iff, or_false] at h
    rcases h with rfl | rfl | rfl | rfl
    · exact Or.inl rfl
    · exact RelStepOK_PrependPath (RelStepOK_of_path (by decide) (by decide) GoodPath_empty) hp
    · exact RelStepOK_PrependPath (RelStepOK_of_path (by decide) (by decide) (by decide)) hp
    · exact RelStepOK_PrependPath (RelStepOK_of_path (by decide) (by decide) (by decide)) hp
  · exact RelStepOK_functionSteps hc (hf fn hfn).1 (hf fn hfn).2 s h

theorem RelStepOK_relSteps {g : Gadget} (hg : g.NoDotDotNames) :
    ∀ s ∈ g.relSteps, RelStepOK s := by
  intro s hs
  rw [relSteps_eq_blocks, List.mem_append, List.mem_append, List.mem_flatMap] at hs
  rcases hs with h | ⟨c, hc, h⟩ | h
  · simp only [identitySteps, List.mem_cons, List.mem_nil_iff, or_false] at h
    rcases h with rfl | rfl | rfl | rfl | rfl | rfl | rfl
    · exact RelStepOK_of_path (by decide) (by decide) GoodPath_empty
    all_goals exact RelStepOK_of_path (by decide) (by decide) (by decide)
  · exact RelStepOK_configSteps (hg c hc).1 (hg c hc).2 s h
  · unfold bindingSteps at h
    split_ifs at h
    · simp only [List.mem_cons, List.mem_nil_iff, or_false] at h
      subst h
      exact RelStepOK_of_path (by decide) (by decide) (by decide)
    · simp at h

theorem joinSep_append {e k : List (List Char)} (he : e ≠ []) (hk : k ≠ []) :
    joinSep (e ++ k) = joinSep e ++ '/' :: joinSep k := by
  induction e with
  | nil => exact absurd rfl he
  | cons a as ih =>
    cases as with
    | nil =>
      obtain ⟨b, bs, rfl⟩ := List.exists_cons_of_ne_nil hk
      simp [joinSep]
    | cons a2 as2 =>
      have := ih (by simp)
      simp only [List.cons_append] at this ⊢
      simp [joinSep, this]

theorem cleanChars_eq_render {p : List Char} (hp : p ≠ []) :
    cleanChars p = renderPath (isRooted p) (elemsOf p) := by
  simp [cleanChars, hp, elemsOf]

/-- The text of a path joined below a root: the cleaned root, or the cleaned root followed by
a separator and more. -/
theorem Join_below {r x : String} (hr : r ≠ "") (he : elemsOf r.data ≠ []) (hx : GoodPath x) :
    Join r x = Clean r ∨ ∃ rest : String, Join r x = Clean r ++ "/" ++ rest := by
  have h : r.data ≠ [] := fun h => hr (String.ext h)
  have hj : (Join r x).data = renderPath (isRooted r.data) (elemsOf r.data ++ elemsOf x.data) := by
    simp only [Join, joinChars, ne_eq, h, not_false_eq_true, if_true]
    rw [cleanChars_eq_render (by simp), isRooted_append h, elemsOf_append_sep h hx.1 hx.2]
  have hc : (Clean r).data = renderPath (isRooted r.data) (elemsOf r.data) := by
    simp only [Clean]; exact cleanChars_eq_render h
  by_cases hk : elemsOf x.data = []
  · left
    apply String.ext
    rw [hj, hc, hk, List.append_nil]
  · right
    refine ⟨⟨joinSep (elemsOf x.data)⟩, String.ext ?_⟩
    rw [hj]
    simp only [String.data_append, hc]
    simp only [renderPath, joinSep_append he hk, he, if_false]
    cases isRooted r.data <;> simp [he]

theorem WithinRoot_Join (r : String) {x : String} (hx : GoodPath x) : WithinRoot (Join r x) r := by
  refine ⟨isRooted_joinChars r.data hx.1, ?_⟩
  have : elemsOf (Join r x).data = elemsOf r.data ++ elemsOf x.data :=
    elemsOf_joinChars r.data hx.1 hx.2
  rw [this]
  exact List.prefix_append _ _

/-- The paths of a compiled step are joined below the root `r`. -/
theorem below_of_RelStepOK {s : Step} (h : RelStepOK s) (r : String) :
    (s.Action ≠ .Comment → ∃ x, GoodPath x ∧ (s.PrependPath r).Arg0 = Join r x) ∧
    (s.Action = .Symlink → ∃ y, GoodPath y ∧ (s.PrependPath r).Arg1 = Join r y) := by
  obtain ⟨a, x, y⟩ := s
  rcases h with h | ⟨h1, h2, h3⟩
  · simp only at h; subst h
    exact ⟨fun h => absurd rfl h, fun h => by cases h⟩
  · cases a
    · exact absurd rfl h1
    · exact ⟨fun h => absurd rfl h, fun h => by cases h⟩
    · exact ⟨fun _ => ⟨x, h2, rfl⟩, fun h => by cases h⟩
    · exact ⟨fun _ => ⟨x, h2, rfl⟩, fun h => by cases h⟩
    · exact ⟨fun _ => ⟨x, h2, rfl⟩, fun h => by cases h⟩
    · exact ⟨fun _ => ⟨x, h2, rfl⟩, fun h => by cases h⟩
    · exact ⟨fun _ => ⟨x, h2, rfl⟩, fun h => by cases h⟩
    · exact ⟨fun _ => ⟨x, h2, rfl⟩, fun h => by cases h⟩
    · exact ⟨fun _ => ⟨x, h2, rfl⟩, fun _ => ⟨y, h3 rfl, rfl⟩⟩

theorem mem_CreateSteps {g : Gadget} {s : Step} (h : s ∈ g.CreateSteps) :
    ∃ t ∈ g.relSteps, s = t.PrependPath g.gadgetPath := by
  simp only [Gadget.CreateSteps, Steps.PrependPath, List.mem_map] at h
  obtain ⟨t, ht, rfl⟩ := h
  exact ⟨t, ht, rfl⟩

theorem BeginsWithRoot_Join {r x : String} (hr : r ≠ "") (he : elemsOf r.data ≠ [])
    (hx : GoodPath x) : BeginsWithRoot (Join r x) r := by
  rcases Join_below hr he hx with h | ⟨rest, h⟩
  · exact Or.inl h
  · right
    rw [h]
    simp only [String.data_append]
    exact List.prefix_append _ _

/-! ## Directories come first -/

theorem SupportedFrom_weaken {ss pre pre2 : Steps} (h : SupportedFrom pre ss)
    (hsub : ∀ m ∈ pre, m ∈ pre2) : SupportedFrom pre2 ss := by
  induction ss generalizing pre pre2 with
  | nil => trivial
  | cons s rest ih =>
    obtain ⟨h1, h2⟩ := h
    refine ⟨fun p hp => ?_, ih h2 ?_⟩
    · obtain ⟨m, hm, hd⟩ := h1 p hp
      exact ⟨m, hsub m hm, hd⟩
    · intro m hm
      rcases List.mem_cons.1 hm with rfl | hm
      · exact List.mem_cons_self _ _
      · exact List.mem_cons_of_mem _ (hsub m hm)

theorem SupportedFrom_append {a b pre : Steps} (ha : SupportedFrom pre a)
    (hb : SupportedFrom (a ++ pre) b) : SupportedFrom pre (a ++ b) := by
  induction a generalizing pre with
  | nil => exact hb
  | cons s rest ih =>
    obtain ⟨h1, h2⟩ := ha
    refine ⟨h1, ih h2 (SupportedFrom_weaken hb ?_)⟩
    intro m hm
    simp only [List.cons_append, List.mem_cons, List.mem_append] at hm ⊢
    tauto

theorem SupportedFrom_flatMap {α : Type} (f : α → Steps) (l : List α) (pre : Steps)
    (h : ∀ x ∈ l, ∀ pre2 : Steps, (∀ m ∈ pre, m ∈ pre2) → SupportedFrom pre2 (f x)) :
    SupportedFrom pre (l.flatMap f) := by
  induction l generalizing pre with
  | nil => trivial
  | cons x xs ih =>
    rw [List.flatMap_cons]
    refine SupportedFrom_append (h x (List.mem_cons_self _ _) pre (fun _ hm => hm)) (ih _ ?_)
    intro y hy pre2 hsub
    exact h y (List.mem_cons_of_mem _ hy) pre2 (fun m hm => hsub m (List.mem_append_right _ hm))

theorem SupportedFrom_of_no_need {ss : Steps} (h : ∀ s ∈ ss, needsDir s = none) (pre : Steps) :
    SupportedFrom pre ss := by
  induction ss generalizing pre with
  | nil => trivial
  | cons s rest ih =>
    refine ⟨fun p hp => ?_, ih (fun t ht => h t (List.mem_cons_of_mem _ ht)) _⟩
    rw [h s (List.mem_cons_self _ _)] at hp
    cases hp

/-- The index form: a step that needs a directory comes after one that creates it. -/
theorem SupportedFrom_getElem {ss pre : Steps} (h : SupportedFrom pre ss) {i : Nat} {s : Step}
    {p : String} (hi : ss[i]? = some s) (hp : needsDir s = some p) :
    ∃ m, DirFor m p ∧ (m ∈ pre ∨ ∃ j, j < i ∧ ss[j]? = some m) := by
  induction ss generalizing pre i with
  | nil => simp at hi
  | cons t rest ih =>
    obtain ⟨h1, h2⟩ := h
    cases i with
    | zero =>
      simp only [List.getElem?_cons_zero, Option.some.injEq] at hi
      subst hi
      obtain ⟨m, hm, hd⟩ := h1 p hp
      exact ⟨m, hd, Or.inl hm⟩
    | succ k =>
      rw [List.getElem?_cons_succ] at hi
      obtain ⟨m, hd, hm⟩ := ih h2 hi
      refine ⟨m, hd, ?_⟩
      rcases hm with hm | ⟨j, hj, hm⟩
      · rcases List.mem_cons.1 hm with rfl | hm
        · exact Or.inr ⟨0, Nat.succ_pos _, by simp⟩
        · exact Or.inl hm
      · exact Or.inr ⟨j + 1, Nat.succ_lt_succ hj, by rw [List.getElem?_cons_succ]; exact hm⟩

theorem foldl_splitSep_empty (r : Bool) (st : List (List Char)) :
    (splitSep []).foldl (cleanElem r) st = st := by
  simp [splitSep, cleanElem_empty]

theorem ChildOf_name {f : List Char} (hf : IsName f) (hs : '/' ∉ f) : ChildOf f f [] := by
  intro r st
  rw [splitSep_noSep hs, foldl_splitSep_empty]
  simp [cleanElem_name hf]

theorem ChildOf_sub {f : List Char} (hf : IsName f) (hs : '/' ∉ f) (d : List Char) :
    ChildOf f (d ++ '/' :: f) d := by
  intro r st
  rw [splitSep_append_sep, List.foldl_append, splitSep_noSep hs]
  simp [cleanElem_name hf]

theorem foldl_splitSep_joinChars {a : List Char} (ha : a ≠ []) (hr : isRooted a = false)
    (w : List Char) (r : Bool) (st : List (List Char)) :
    (splitSep (joinChars a w)).foldl (cleanElem r) st =
      (splitSep w).foldl (cleanElem r) ((splitSep a).foldl (cleanElem r) st) := by
  simp only [joinChars, ne_eq, ha, not_false_eq_true, if_true]
  rw [foldl_splitSep_cleanChars_rel (by simp) (by rw [isRooted_append ha]; exact hr),
    splitSep_append_sep, List.foldl_append]

theorem ChildOf_joinChars {f w m a : List Char} (h : ChildOf f w m) (ha : a ≠ [])
    (hr : isRooted a = false) : ChildOf f (joinChars a w) (joinChars a m) := by
  intro r st
  rw [foldl_splitSep_joinChars ha hr, foldl_splitSep_joinChars ha hr]
  exact h r _

theorem elemsOf_joinChars_ne {a : List Char} (ha : a ≠ []) (w : List Char) :
    elemsOf (joinChars a w) =
      ((splitSep w).foldl (cleanElem (isRooted a))
        ((splitSep a).foldl (cleanElem (isRooted a)) [])).reverse := by
  simp only [joinChars, ne_eq, ha, not_false_eq_true, if_true]
  rw [elemsOf_cleanChars, elemsOf, isRooted_append ha, cleanElems, splitSep_append_sep,
    List.foldl_append]

theorem isRooted_joinChars_ne {a : List Char} (ha : a ≠ []) (w : List Char) :
    isRooted (joinChars a w) = isRooted a := by
  simp only [joinChars, ne_eq, ha, not_false_eq_true, if_true]
  rw [isRooted_cleanChars, isRooted_append ha]

theorem ParentDir_of_ChildOf {f w m : List Char} (h : ChildOf f w m) {a : String}
    (ha : a ≠ "") : ParentDir (Join a ⟨m⟩) (Join a ⟨w⟩) := by
  have ha' : a.data ≠ [] := fun e => ha (String.ext e)
  refine ⟨?_, ?_, ?_⟩
  · simp only [Join]
    rw [isRooted_joinChars_ne ha', isRooted_joinChars_ne ha']
  · simp only [Join]
    rw [elemsOf_joinChars_ne ha', h]
    simp
  · simp only [Join]
    rw [elemsOf_joinChars_ne ha', elemsOf_joinChars_ne ha', h]
    simp

theorem needsDir_PrependPath (s : Step) (a : String) :
    needsDir (s.PrependPath a) = (needsDir s).map (Join a) := by
  obtain ⟨act, x, y⟩ := s
  cases act <;> rfl

theorem DirFor_PrependPath {m : Step} {p : String} (h : DirFor m p) {a : String} (ha : a ≠ "")
    (hr : IsRel a) : DirFor (m.PrependPath a) (Join a p) := by
  obtain ⟨hm, f, hc⟩ := h
  have ha' : a.data ≠ [] := fun e => ha (String.ext e)
  refine ⟨by rw [Step.PrependPath_action]; exact hm, f, ?_⟩
  have : (m.PrependPath a).Arg0 = Join a m.Arg0 := by
    obtain ⟨act, x, y⟩ := m
    rcases hm with hm | hm <;> (simp only at hm; subst hm; rfl)
  rw [this]
  exact ChildOf_joinChars hc ha' hr

theorem SupportedFrom_PrependPath {ss pre : Steps} (h : SupportedFrom pre ss) {a : String}
    (ha : a ≠ "") (hr : IsRel a) :
    SupportedFrom (Steps.PrependPath pre a) (Steps.PrependPath ss a) := by
  induction ss generalizing pre with
  | nil => trivial
  | cons s rest ih =>
    obtain ⟨h1, h2⟩ := h
    refine ⟨fun p hp => ?_, ih h2⟩
    rw [needsDir_PrependPath] at hp
    obtain ⟨p0, hp0, rfl⟩ := Option.map_eq_some'.1 hp
    obtain ⟨m, hm, hd⟩ := h1 p0 hp0
    exact ⟨m.PrependPath a, List.mem_map.2 ⟨m, hm, rfl⟩, DirFor_PrependPath hd ha hr⟩

/-- A block of steps below the relative path `a` that supports itself does so in any
context. -/
theorem SupportedFrom_block {ss : Steps} (h : SupportedFrom [] ss) {a : String} (ha : a ≠ "")
    (hr : IsRel a) (pre : Steps) : SupportedFrom pre (Steps.PrependPath ss a) :=
  SupportedFrom_weaken (SupportedFrom_PrependPath h ha hr)
    (fun m hm => by simp [Steps.PrependPath] at hm)

theorem DirFor_root {f : String} (hf : IsName f.data) (hs : '/' ∉ f.data) (x : String) :
    DirFor ⟨.Mkdir, "", x⟩ f :=
  ⟨Or.inl rfl, f.data, ChildOf_name hf hs⟩

theorem DirFor_sub {m : Step} {p : String} (f : List Char)
    (hm : m.Action = .Mkdir ∨ m.Action = .MkdirCreateOnly) (hp : p.data = m.Arg0.data ++ '/' :: f)
    (hf : IsName f) (hs : '/' ∉ f) : DirFor m p :=
  ⟨hm, f, by rw [hp]; exact ChildOf_sub hf hs _⟩

theorem SupportedFrom_identitySteps (g : Gadget) (pre : Steps) :
    SupportedFrom pre (identitySteps g) := by
  have h : SupportedFrom [] (identitySteps g) := by
    refine ⟨(fun p hp => by cases hp), ?_, ?_, ?_, ?_, ?_, ?_, trivial⟩
    · intro p hp
      simp only [needsDir, Option.some.injEq] at hp
      subst hp
      exact ⟨_, List.mem_cons_self _ _, DirFor_root (by decide) (by decide) _⟩
    · intro p hp
      simp only [needsDir, Option.some.injEq] at hp
      subst hp
      exact ⟨⟨.Mkdir, "", ""⟩, by simp, DirFor_root (by decide) (by decide) _⟩
    · intro p hp; cases hp
    · intro p hp
      simp only [needsDir, Option.some.injEq] at hp
      subst hp
      exact ⟨⟨.Mkdir, "strings/" ++ StrEnglish, ""⟩, by simp,
        DirFor_sub "serialnumber".data (Or.inl rfl) (by decide) (by decide) (by decide)⟩
    · intro p hp
      simp only [needsDir, Option.some.injEq] at hp
      subst hp
      exact ⟨⟨.Mkdir, "strings/" ++ StrEnglish, ""⟩, by simp,
        DirFor_sub "manufacturer".data (Or.inl rfl) (by decide) (by decide) (by decide)⟩
    · intro p hp
      simp only [needsDir, Option.some.injEq] at hp
      subst hp
      exact ⟨⟨.Mkdir, "strings/" ++ StrEnglish, ""⟩, by simp,
        DirFor_sub "product".data (Or.inl rfl) (by decide) (by decide) (by decide)⟩
  exact SupportedFrom_weaken h (fun m hm => by simp at hm)

theorem SupportedFrom_configBase (t l : String) :
    SupportedFrom []
      [ ⟨.Comment, t, ""⟩,
        ⟨.Mkdir, "", ""⟩,
        ⟨.Mkdir, "strings/" ++ StrEnglish, ""⟩,
        ⟨.Write, "strings/" ++ StrEnglish ++ "/configuration", l⟩ ] := by
  refine ⟨(fun p hp => by cases hp), (fun p hp => by cases hp), (fun p hp => by cases hp), ?_,
    trivial⟩
  intro p hp
  simp only [needsDir, Option.some.injEq] at hp
  subst hp
  exact ⟨⟨.Mkdir, "strings/" ++ StrEnglish, ""⟩, by simp,
    DirFor_sub "configuration".data (Or.inl rfl) (by decide) (by decide) (by decide)⟩

theorem SupportedFrom_lunSteps (u : MassStorageLun) (pre : Steps) :
    SupportedFrom pre (lunSteps u) := by
  have h : SupportedFrom []
      (Steps.Extend [⟨.MkdirCreateOnly, "", ""⟩] u.lunCreate) := by
    refine ⟨(fun p hp => by cases hp), ?_, ?_, ?_, trivial⟩
    all_goals
      intro p hp
      simp only [needsDir, Option.some.injEq] at hp
      subst hp
      exact ⟨⟨.MkdirCreateOnly, "", ""⟩, by simp,
        ⟨Or.inr rfl, _, ChildOf_name (by decide) (by decide)⟩⟩
  exact SupportedFrom_block h (literal_append_ne_empty _ _ (by decide))
    (literal_append_isRel _ _ (by decide) (by decide)) pre

/-- The steps of a function, after the step that makes its directory. -/
theorem SupportedFrom_GadgetFunctionCreate (fn : Function) (x : String) :
    SupportedFrom [⟨.Mkdir, "", x⟩] fn.GadgetFunctionCreate := by
  cases fn with
  | Acm n => trivial
  | Eem n d h =>
    refine ⟨?_, ?_, trivial⟩ <;>
    · intro p hp
      simp only [needsDir, Option.some.injEq] at hp
      subst hp
      exact ⟨⟨.Mkdir, "", x⟩, by simp, DirFor_root (by decide) (by decide) _⟩
  | Ncm n d h =>
    refine ⟨?_, ?_, trivial⟩ <;>
    · intro p hp
      simp only [needsDir, Option.some.injEq] at hp
      subst hp
      exact ⟨⟨.Mkdir, "", x⟩, by simp, DirFor_root (by decide) (by decide) _⟩
  | Hid n p sc r d =>
    refine ⟨?_, ?_, ?_, ?_, trivial⟩ <;>
    · intro p hp
      simp only [needsDir, Option.some.injEq] at hp
      subst hp
      exact ⟨⟨.Mkdir, "", x⟩, by simp, DirFor_root (by decide) (by decide) _⟩
  | MassStorage n luns =>
    rw [GadgetFunctionCreate_massStorage]
    exact SupportedFrom_flatMap _ _ _ (fun u _ pre2 _ => SupportedFrom_lunSteps u pre2)

theorem DirFor_link (c : String) {f : String} (hf : IsName f.data) (hs : '/' ∉ f.data) :
    DirFor ⟨.Mkdir, Join ("configs/" ++ c) "", ""⟩ ("configs/" ++ c ++ "/" ++ f) := by
  refine ⟨Or.inl rfl, f.data, ?_⟩
  intro r st
  have hd : ("configs/" ++ c ++ "/" ++ f).data = ("configs/" ++ c).data ++ '/' :: f.data := by
    simp [String.data_append]
  have hne : ("configs/" ++ c).data ≠ [] := by simp [String.data_append]
  have hrel : isRooted ("configs/" ++ c).data = false := by simp [String.data_append, isRooted]
  simp only [Join]
  rw [hd, splitSep_append_sep, List.foldl_append, splitSep_noSep hs,
    foldl_splitSep_joinChars hne hrel, foldl_splitSep_empty]
  simp [cleanElem_name hf]

theorem SupportedFrom_functionSteps (c : String) {fn : Function}
    (hs : '/' ∉ fn.GadgetFunctionName.data) {pre : Steps}
    (hpre : (⟨.Mkdir, Join ("configs/" ++ c) "", ""⟩ : Step) ∈ pre) :
    SupportedFrom pre (functionSteps c fn) := by
  have e : functionSteps c fn =
      Steps.PrependPath
        ([⟨.Comment, "config `" ++ c ++ "`, function `" ++ fn.GadgetFunctionName ++ "`", ""⟩,
          ⟨.Mkdir, "", ""⟩] ++ fn.GadgetFunctionCreate) ("functions/" ++ fn.GadgetFunctionName) ++
        [⟨.Symlink, "functions/" ++ fn.GadgetFunctionName,
          "configs/" ++ c ++ "/" ++ fn.GadgetFunctionName⟩] := by
    rw [functionSteps_eq]
    simp [Steps.PrependPath]
  rw [e]
  refine SupportedFrom_append ?_ ?_
  · refine SupportedFrom_block ?_ (fnPath_rel fn).1 (fnPath_rel fn).2 pre
    refine ⟨(fun p hp => by cases hp), (fun p hp => by cases hp), ?_⟩
    exact SupportedFrom_weaken (SupportedFrom_GadgetFunctionCreate fn "")
      (fun m hm => by simp at hm ⊢; simp [hm])
  · refine ⟨?_, trivial⟩
    intro p hp
    simp only [needsDir, Option.some.injEq] at hp
    subst hp
    exact ⟨_, List.mem_append_right _ hpre, DirFor_link c (isName_GadgetFunctionName fn) hs⟩

theorem SupportedFrom_configSteps {c : Config}
    (hf : ∀ fn ∈ c.Functions, '/' ∉ fn.GadgetFunctionName.data) (pre : Steps) :
    SupportedFrom pre (configSteps c) := by
  rw [configSteps_eq]
  refine SupportedFrom_append ?_ ?_
  · exact SupportedFrom_block (SupportedFrom_configBase _ _)
      (literal_append_ne_empty _ _ (by decide))
      (literal_append_isRel _ _ (by decide) (by decide)) pre
  · apply SupportedFrom_flatMap
    intro fn hfn pre2 hsub
    apply SupportedFrom_functionSteps c.Name (hf fn hfn)
    apply hsub
    simp [Steps.PrependPath, Step.PrependPath]

theorem SupportedFrom_relSteps {g : Gadget} (hg : g.FlatFunctionNames) :
    SupportedFrom [] g.relSteps := by
  rw [relSteps_eq_blocks]
  refine SupportedFrom_append (SupportedFrom_identitySteps g _) (SupportedFrom_append ?_ ?_)
  · exact SupportedFrom_flatMap _ _ _ (fun c hc pre2 _ => SupportedFrom_configSteps (hg c hc) pre2)
  · unfold bindingSteps
    split_ifs
    · refine ⟨?_, trivial⟩
      intro p hp
      simp only [needsDir, Option.some.injEq] at hp
      subst hp
      exact ⟨⟨.Mkdir, "", ""⟩, by simp [identitySteps], DirFor_root (by decide) (by decide) _⟩
    · trivial

/-- In the compiled sequence, a step that needs a directory comes after the step that makes
its parent directory. -/
theorem CreateSteps_dir_first {g : Gadget} (hg : g.FlatFunctionNames) {i : Nat} {s : Step}
    {p : String} (hi : g.CreateSteps[i]? = some s) (hp : needsDir s = some p) :
    ∃ j m, j < i ∧ g.CreateSteps[j]? = some m ∧
      (m.Action = .Mkdir ∨ m.Action = .MkdirCreateOnly) ∧ ParentDir m.Arg0 p := by
  simp only [Gadget.CreateSteps, Steps.PrependPath, List.getElem?_map] at hi ⊢
  obtain ⟨t, ht, rfl⟩ := Option.map_eq_some'.1 hi
  rw [needsDir_PrependPath] at hp
  obtain ⟨p0, hp0, rfl⟩ := Option.map_eq_some'.1 hp
  obtain ⟨m, ⟨hm, f, hc⟩, hmem⟩ := SupportedFrom_getElem (SupportedFrom_relSteps hg) ht hp0
  rcases hmem with h | ⟨j, hj, hjm⟩
  · simp at h
  · refine ⟨j, m.PrependPath g.gadgetPath, hj, by rw [hjm]; rfl,
      by rw [Step.PrependPath_action]; exact hm, ?_⟩
    have : (m.PrependPath g.gadgetPath).Arg0 = Join g.gadgetPath m.Arg0 := by
      obtain ⟨act, x, y⟩ := m
      rcases hm with hm | hm <;> (simp only at hm; subst hm; rfl)
    rw [this]
    exact ParentDir_of_ChildOf hc (gadgetPath_ne_empty g)

/-! ## Running a sequence -/

theorem outcomeAt_zero {σ ε : Type} (stepRun : Step → σ → σ × Option ε) (s : Step)
    (rest : Steps) (w : σ) : Steps.outcomeAt stepRun (s :: rest) w 0 = (stepRun s w).2 := by
  simp [Steps.outcomeAt, Steps.stateAfter]

theorem outcomeAt_succ {σ ε : Type} (stepRun : Step → σ → σ × Option ε) (s : Step)
    (rest : Steps) (w : σ) (k : Nat) :
    Steps.outcomeAt stepRun (s :: rest) w (k + 1) =
      Steps.outcomeAt stepRun rest (stepRun s w).1 k := by
  simp [Steps.outcomeAt, Steps.stateAfter]

/-- The result of the loop of `Steps.Run`: without error every step succeeded and all were
executed; with an error the step of the reported index failed, the steps before it
succeeded, and the steps up to it were executed. -/
theorem runFrom_spec {σ ε : Type} (stepRun : Step → σ → σ × Option ε) (steps : Steps) (n : Nat)
    (w : σ) :
    ((Steps.runFrom stepRun n steps w).2 = none ∧
      (∀ k, Steps.outcomeAt stepRun steps w k = none) ∧
      (Steps.runFrom stepRun n steps w).1 = Steps.stateAfter stepRun steps w) ∨
    (∃ i s e, (Steps.runFrom stepRun n steps w).2 = some ⟨n + i, s, e⟩ ∧
      steps[i]? = some s ∧ Steps.outcomeAt stepRun steps w i = some e ∧
      (∀ k, k < i → Steps.outcomeAt stepRun steps w k = none) ∧
      (Steps.runFrom stepRun n steps w).1 =
        Steps.stateAfter stepRun (steps.take (i + 1)) w) := by
  induction steps generalizing n w with
  | nil =>
    left
    exact ⟨rfl, fun k => by simp [Steps.outcomeAt], rfl⟩
  | cons s rest ih =>
    cases h : (stepRun s w).2 with
    | some e =>
      right
      refine ⟨0, s, e, ?_, by simp, ?_, fun k hk => absurd hk (Nat.not_lt_zero k), ?_⟩
      · rw [Steps.runFrom]
        split
        · rename_i w1 err heq
          rw [heq] at h
          simp only [Option.some.injEq] at h
          subst h; rfl
        · rename_i w1 heq
          rw [heq] at h
          cases h
      · rw [outcomeAt_zero, h]
      · rw [Steps.runFrom]
        split
        · rename_i w1 err heq
          simp [Steps.stateAfter, heq]
        · rename_i w1 heq
          rw [heq] at h
          cases h
    | none =>
      have e1 : Steps.runFrom stepRun n (s :: rest) w =
          Steps.runFrom stepRun (n + 1) rest (stepRun s w).1 := by
        rw [Steps.runFrom]
        split
        · rename_i w1 err heq
          rw [heq] at h
          cases h
        · rename_i w1 heq
          rw [heq]
      rw [e1]
      rcases ih (n + 1) (stepRun s w).1 with ⟨h1, h2, h3⟩ | ⟨i, t, e, h1, h2, h3, h4, h5⟩
      · left
        refine ⟨h1, ?_, ?_⟩
        · intro k
          cases k with
          | zero => rw [outcomeAt_zero, h]
          | succ k => rw [outcomeAt_succ]; exact h2 k
        · rw [h3]; rfl
      · right
        refine ⟨i + 1, t, e, ?_, ?_, ?_, ?_, ?_⟩
        · rw [h1]
          congr 2
          omega
        · simpa using h2
        · rw [outcomeAt_succ]; exact h3
        · intro k hk
          cases k with
          | zero => rw [outcomeAt_zero, h]
          | succ k => rw [outcomeAt_succ]; exact h4 k (by omega)
        · rw [h5]; rfl

theorem runFrom_traced {σ ε : Type} (stepRun : Step → σ → σ × Option ε) (steps : Steps)
    (n : Nat) (log : List Step) (w : σ) :
    (Steps.runFrom (traced stepRun) n steps (log, w)).2 = (Steps.runFrom stepRun n steps w).2 ∧
    (Steps.runFrom (traced stepRun) n steps (log, w)).1.2 =
      (Steps.runFrom stepRun n steps w).1 ∧
    (Steps.runFrom (traced stepRun) n steps (log, w)).1.1 =
      log ++ match (Steps.runFrom stepRun n steps w).2 with
        | none => steps
        | some r => steps.take (r.index - n + 1) := by
  induction steps generalizing n log w with
  | nil => simp [Steps.runFrom]
  | cons s rest ih =>
    cases h : (stepRun s w).2 with
    | some e =>
      have e1 : Steps.runFrom stepRun n (s :: rest) w = ((stepRun s w).1, some ⟨n, s, e⟩) := by
        rw [Steps.runFrom]
        split
        · rename_i w1 err heq
          rw [heq] at h
          simp only [Option.some.injEq] at h
          subst h; simp [heq]
        · rename_i w1 heq
          rw [heq] at h
          cases h
      have e2 : Steps.runFrom (traced stepRun) n (s :: rest) (log, w) =
          ((log ++ [s], (stepRun s w).1), some ⟨n, s, e⟩) := by
        rw [Steps.runFrom]
        simp [traced, h]
      rw [e1, e2]
      simp
    | none =>
      have e1 : Steps.runFrom stepRun n (s :: rest) w =
          Steps.runFrom stepRun (n + 1) rest (stepRun s w).1 := by
        rw [Steps.runFrom]
        split
        · rename_i w1 err heq
          rw [heq] at h
          cases h
        · rename_i w1 heq
          rw [heq]
      have e2 : Steps.runFrom (traced stepRun) n (s :: rest) (log, w) =
          Steps.runFrom (traced stepRun) (n + 1) rest (log ++ [s], (stepRun s w).1) := by
        rw [Steps.runFrom]
        simp [traced, h]
      rw [e1, e2]
      obtain ⟨h1, h2, h3⟩ := ih (n + 1) (log ++ [s]) (stepRun s w).1
      refine ⟨h1, h2, ?_⟩
      rw [h3]
      rcases runFrom_spec stepRun rest (n + 1) (stepRun s w).1 with
        ⟨g1, _, _⟩ | ⟨i, t, e, g1, _, _, _, _⟩
      · rw [g1]; simp
      · rw [g1]
        simp only [List.append_assoc, List.singleton_append]
        have : n + 1 + i - n + 1 = (n + 1 + i - (n + 1) + 1) + 1 := by omega
        rw [this, List.take_succ_cons]

/-! ## Typing a text -/

theorem PressKeys_cons {σ ε : Type} (dev : Device σ ε) (k : Key) (ks : List Key) (w : σ) :
    dev.PressKeys (k :: ks) w =
      match (dev.PressKeys [k] w).2 with
      | none => dev.PressKeys ks (dev.PressKeys [k] w).1
      | some err => ((dev.PressKeys [k] w).1, some err) := by
  by_cases hk : k = 0
  · subst hk
    simp [Device.PressKeys]
  · simp only [Device.PressKeys, hk, if_false]
    cases h1 : dev.HoldKeys [k] w with
    | mk w1 r1 =>
      cases r1 with
      | some e => simp
      | none =>
        simp only
        cases h2 : dev.ReleaseKeys (dev.holdPause w1) with
        | mk w2 r2 =>
          cases r2 with
          | some e => simp
          | none => simp

/-- Typing bytes that are all mapped to keys other than 0 presses these keys in order, and
goes on with the rest of the text when no press fails. -/
theorem typeBytes_mapped {σ ε : Type} (dev : Device σ ε) (keymap : Keymap) (pre rest : List Nat)
    (ks : List Key) (w : σ) (hm : pre.map keymap.get = ks.map some) (h0 : ∀ k ∈ ks, k ≠ 0) :
    dev.typeBytes keymap (pre ++ rest) w =
      match (dev.PressKeys ks w).2 with
      | none => dev.typeBytes keymap rest (dev.PressKeys ks w).1
      | some err => ((dev.PressKeys ks w).1, some (.device err)) := by
  induction pre generalizing ks w with
  | nil =>
    cases ks with
    | nil => simp [Device.PressKeys]
    | cons k ks => simp at hm
  | cons c cs ih =>
    cases ks with
    | nil => simp at hm
    | cons k ks =>
      simp only [List.map_cons, List.cons.injEq] at hm
      obtain ⟨hc, hcs⟩ := hm
      have hk : k ≠ 0 := h0 k (List.mem_cons_self _ _)
      rw [PressKeys_cons, List.cons_append, Device.typeBytes, hc]
      simp only [hk, if_false]
      cases h1 : dev.PressKeys [k] w with
      | mk w1 r1 =>
        cases r1 with
        | some e => simp
        | none =>
          simp only
          exact ih ks w1 hcs (fun k2 hk2 => h0 k2 (List.mem_cons_of_mem _ hk2))

/-! ## The report of the keys held -/

theorem Key.Modifier_eq (k : Key) : Key.Modifier k = (k &&& 0xff00) >>> 8 := by
  unfold Key.Modifier
  by_cases h : k &&& 0xff00 = 0
  · simp [h]
  · simp [h]

theorem Key.split (k : Key) (hk : k < 65536) :
    (Key.Modifier k <<< 8) ||| Key.Keycode k = k := by
  rw [Key.Modifier_eq, Key.Keycode]
  have h1 : (0xff00 : Nat) = (2 ^ 8 - 1) <<< 8 := by decide
  have h2 : (0xff : Nat) = 2 ^ 8 - 1 := by decide
  rw [h1, h2]
  apply Nat.eq_of_testBit_eq
  intro j
  simp only [Nat.testBit_or, Nat.testBit_shiftLeft, Nat.testBit_shiftRight, Nat.testBit_and,
    Nat.testBit_two_pow_sub_one]
  by_cases hj : j < 8
  · simp [hj, Nat.not_le.2 hj]
  · have hj8 : 8 ≤ j := Nat.not_lt.1 hj
    by_cases hj16 : j < 16
    · have e : 8 + (j - 8) = j := by omega
      have e2 : j - 8 < 8 := by omega
      simp [hj, hj8, e, e2]
    · have hk2 : k < 2 ^ j :=
        lt_of_lt_of_le hk (by
          have : (65536 : Nat) = 2 ^ 16 := by decide
          rw [this]
          exact Nat.pow_le_pow_right (by decide) (by omega))
      have e : 8 + (j - 8) = j := by omega
      simp [hj, e, Nat.testBit_lt_two_pow hk2]

theorem keysUpTo_nil (n : Nat) : keysUpTo n [] = [] := by
  cases n <;> rfl

theorem keysUpTo_isPrefix (n : Nat) (keys : List Key) : keysUpTo n keys <+: keys := by
  induction keys generalizing n with
  | nil => rw [keysUpTo_nil]
  | cons k ks ih =>
    cases n with
    | zero => exact List.nil_prefix
    | succ n =>
      by_cases h : Key.Keycode k = 0
      · simp only [keysUpTo, h, ne_eq, not_true_eq_false, if_false]
        exact (List.prefix_cons_inj k).2 (ih (n + 1))
      · simp only [keysUpTo, h, ne_eq, not_false_eq_true, if_true]
        exact (List.prefix_cons_inj k).2 (ih n)

theorem keycodesOf_cons (k : Key) (ks : List Key) :
    keycodesOf (k :: ks) =
      if Key.Keycode k ≠ 0 then Key.Keycode k :: keycodesOf ks else keycodesOf ks := by
  by_cases h : Key.Keycode k = 0 <;> simp [keycodesOf, h]

/-- The initial part holds at most `n` key codes; when it holds fewer it is the whole list,
and when it holds `n > 0` it ends with a key that has a key code. -/
theorem keysUpTo_shortest (n : Nat) (keys : List Key) :
    (keycodesOf (keysUpTo n keys)).length ≤ n ∧
    ((keycodesOf (keysUpTo n keys)).length < n → keysUpTo n keys = keys) ∧
    ((keycodesOf (keysUpTo n keys)).length = n → 0 < n →
      ∃ q k, keysUpTo n keys = q ++ [k] ∧ Key.Keycode k ≠ 0) := by
  induction keys generalizing n with
  | nil =>
    rw [keysUpTo_nil]
    refine ⟨Nat.zero_le _, fun _ => rfl, fun h hn => ?_⟩
    simp [keycodesOf] at h
    omega
  | cons k ks ih =>
    cases n with
    | zero =>
      refine ⟨by simp [keysUpTo, keycodesOf], fun h => by simp at h, fun _ h => by omega⟩
    | succ n =>
      by_cases h : Key.Keycode k = 0
      · obtain ⟨h1, h2, h3⟩ := ih (n + 1)
        simp only [keysUpTo, h, ne_eq, not_true_eq_false, if_false, keycodesOf_cons]
        refine ⟨h1, fun hl => by rw [h2 hl], fun hl hn => ?_⟩
        obtain ⟨q, k2, e, hk2⟩ := h3 hl hn
        exact ⟨k :: q, k2, by rw [e]; rfl, hk2⟩
      · obtain ⟨h1, h2, h3⟩ := ih n
        simp only [keysUpTo, h, ne_eq, not_false_eq_true, if_true, keycodesOf_cons,
          List.length_cons]
        refine ⟨by omega, fun hl => by rw [h2 (by omega)], fun hl hn => ?_⟩
        cases n with
        | zero => exact ⟨[], k, by simp [keysUpTo], h⟩
        | succ m =>
          obtain ⟨q, k2, e, hk2⟩ := h3 (by omega) (Nat.succ_pos m)
          exact ⟨k :: q, k2, by rw [e]; rfl, hk2⟩

theorem modifiersOf_cons (m : Nat) (k : Key) (ks : List Key) :
    modifiersOf m (k :: ks) = modifiersOf (m ||| Key.Modifier k) ks := rfl

theorem take_succ_set {l : List Nat} {i : Nat} (h : i < l.length) (x : Nat) :
    (l.set i x).take (i + 1) = l.take i ++ [x] := by
  induction l generalizing i with
  | nil => simp at h
  | cons a as ih =>
    cases i with
    | zero => simp
    | succ j =>
      simp only [List.length_cons, Nat.succ_lt_succ_iff] at h
      simp [List.set, ih h]

theorem drop_succ_set (l : List Nat) (i m : Nat) (x : Nat) :
    (l.set i x).drop (i + 1 + m) = l.drop (i + 1 + m) := by
  induction l generalizing i with
  | nil => simp
  | cons a as ih =>
    cases i with
    | zero => simp [Nat.add_comm 1 m]
    | succ j =>
      have e : j + 1 + 1 + m = (j + 1 + m) + 1 := by omega
      rw [List.set_cons_succ, e, List.drop_succ_cons, List.drop_succ_cons]
      exact ih j

/-- The loop of `SetKeys` from the index `i` on: it reads the keys up to the one that fills
the last of the `6 - i` free places, writes their key codes from the place `i` on, and ors
their modifiers. -/
theorem setKeysFrom_spec (keys : List Key) (i : Nat) (r : Report) (hi : i ≤ 6)
    (hr : r.Keycodes.length = 6) :
    (Report.setKeysFrom i r keys).Keycodes =
      r.Keycodes.take i ++ keycodesOf (keysUpTo (6 - i) keys) ++
        r.Keycodes.drop (i + (keycodesOf (keysUpTo (6 - i) keys)).length) ∧
    (Report.setKeysFrom i r keys).Mod = modifiersOf r.Mod (keysUpTo (6 - i) keys) := by
  induction keys generalizing i r with
  | nil =>
    rw [keysUpTo_nil]
    simp [Report.setKeysFrom, keycodesOf, modifiersOf]
  | cons k ks ih =>
    by_cases h6 : i = 6
    · subst h6
      simp [Report.setKeysFrom, hr, keysUpTo, keycodesOf, modifiersOf]
    · have hlt : i < 6 := by omega
      obtain ⟨n, hn⟩ : ∃ n, 6 - i = n + 1 := ⟨5 - i, by omega⟩
      have hn2 : 6 - (i + 1) = n := by omega
      have hm : (if Key.Modifier k ≠ 0 then { r with Mod := r.Mod ||| Key.Modifier k } else r) =
          ({ r with Mod := r.Mod ||| Key.Modifier k } : Report) := by
        by_cases hz : Key.Modifier k = 0
        · simp [hz]
        · simp [hz]
      rw [Report.setKeysFrom]
      simp only [hr, h6, if_false, hm, hn]
      by_cases hc : Key.Keycode k = 0
      · simp only [hc, ne_eq, not_true_eq_false, if_false, keysUpTo, keycodesOf_cons,
          modifiersOf_cons]
        have := ih i { r with Mod := r.Mod ||| Key.Modifier k } hi hr
        rw [hn] at this
        exact this
      · simp only [hc, ne_eq, not_false_eq_true, if_true, keysUpTo, keycodesOf_cons,
          modifiersOf_cons]
        have := ih (i + 1)
          { Mod := r.Mod ||| Key.Modifier k, Keycodes := r.Keycodes.set i (Key.Keycode k) }
          (by omega) (by simp [hr])
        rw [hn2] at this
        obtain ⟨h1, h2⟩ := this
        refine ⟨?_, h2⟩
        rw [h1]
        have hil : i < r.Keycodes.length := by omega
        simp only [List.length_cons]
        rw [take_succ_set hil, drop_succ_set]
        have e : i + ((keycodesOf (keysUpTo n ks)).length + 1) =
            i + 1 + (keycodesOf (keysUpTo n ks)).length := by omega
        rw [e]
        simp

theorem keysUpTo_idem (n : Nat) (keys : List Key) :
    keysUpTo n (keysUpTo n keys) = keysUpTo n keys := by
  induction keys generalizing n with
  | nil => rw [keysUpTo_nil, keysUpTo_nil]
  | cons k ks ih =>
    cases n with
    | zero => simp [keysUpTo]
    | succ n =>
      by_cases h : Key.Keycode k = 0
      · simp only [keysUpTo, h, ne_eq, not_true_eq_false, if_false]
        rw [ih (n + 1)]
      · simp only [keysUpTo, h, ne_eq, not_false_eq_true, if_true]
        rw [ih n]

theorem SetKeys_zero_spec (keys : List Key) :
    (Report.zero.SetKeys keys).Keycodes = padTo 6 (keycodesOf (keysUpTo 6 keys)) ∧
    (Report.zero.SetKeys keys).Mod = modifiersOf 0 (keysUpTo 6 keys) := by
  have h := setKeysFrom_spec keys 0 Report.zero (Nat.zero_le _) (by decide)
  simp only [Nat.sub_zero, List.take_zero, List.nil_append, Nat.zero_add] at h
  refine ⟨?_, h.2⟩
  rw [Report.SetKeys, h.1, padTo]
  have e : Report.zero.Keycodes = List.replicate 6 0 := rfl
  rw [e, List.drop_replicate]

/-! ## Hexadecimal ids -/

theorem digitChar_hex : ∀ x, x < 16 →
    Nat.digitChar x ∈ hexDigits ∧ hexDigits.indexOf (Nat.digitChar x) = x := by
  decide

theorem toDigits_16_four (m : Nat) (hm : m < 65536) :
    List.replicate (4 - (Nat.toDigits 16 m).length) '0' ++ Nat.toDigits 16 m =
      [Nat.digitChar (m / 4096), Nat.digitChar (m / 256 % 16), Nat.digitChar (m / 16 % 16),
        Nat.digitChar (m % 16)] := by
  have d0 : Nat.digitChar 0 = '0' := rfl
  by_cases h1 : m < 16
  · have e1 : m / 16 = 0 := by omega
    have e2 : m / 256 = 0 := by omega
    have e3 : m / 4096 = 0 := by omega
    simp [Nat.toDigits, Nat.toDigitsCore, e1, e2, e3, d0]
  · obtain ⟨f, hf⟩ : ∃ f, m + 1 = f + 4 := ⟨m - 3, by omega⟩
    have n1 : m / 16 ≠ 0 := by omega
    by_cases h2 : m < 256
    · have e1 : m / 16 / 16 = 0 := by omega
      have e2 : m / 256 = 0 := by omega
      have e3 : m / 4096 = 0 := by omega
      have e4 : m / 16 % 16 = m / 16 := by omega
      unfold Nat.toDigits
      rw [hf]
      simp [Nat.toDigitsCore, n1, e1, e2, e3, e4, d0]
    · have n2 : m / 16 / 16 ≠ 0 := by omega
      have q2 : m / 16 / 16 = m / 256 := by omega
      by_cases h3 : m < 4096
      · have e1 : m / 256 / 16 = 0 := by omega
        have e3 : m / 4096 = 0 := by omega
        have e4 : m / 256 % 16 = m / 256 := by omega
        have n2b : m / 256 ≠ 0 := by omega
        unfold Nat.toDigits
        rw [hf]
        simp [Nat.toDigitsCore, n1, q2, n2b, e1, e3, e4, d0]
      · have n3 : m / 256 / 16 ≠ 0 := by omega
        have q3 : m / 256 / 16 = m / 4096 := by omega
        have n2b : m / 256 ≠ 0 := by omega
        have n3b : m / 4096 ≠ 0 := by omega
        have e1 : m / 4096 / 16 = 0 := by omega
        have e4 : m / 4096 % 16 = m / 4096 := by omega
        unfold Nat.toDigits
        rw [hf]
        simp [Nat.toDigitsCore, n1, q2, n2b, q3, n3b, e1, e4]

/-- The text of an id between 0 and `0xFFFF`: `0x` and four lowercase hexadecimal digits of
the value of the id. -/
theorem sprintfHex04_spec (n : Int) (h0 : 0 ≤ n) (h1 : n ≤ 0xFFFF) :
    ∃ ds : List Char, sprintfHex04 n = ⟨'0' :: 'x' :: ds⟩ ∧ ds.length = 4 ∧
      (∀ c ∈ ds, c ∈ hexDigits) ∧ (hexValue ds : Int) = n := by
  obtain ⟨m, rfl⟩ := Int.eq_ofNat_of_zero_le h0
  have hm : m < 65536 := by omega
  refine ⟨[Nat.digitChar (m / 4096), Nat.digitChar (m / 256 % 16),
    Nat.digitChar (m / 16 % 16), Nat.digitChar (m % 16)], ?_, rfl, ?_, ?_⟩
  · have hn : ¬ ((m : Int) < 0) := by omega
    simp only [sprintfHex04, hn, if_false, Int.natAbs_ofNat, List.nil_append]
    rw [toDigits_16_four m hm]
  · intro c hc
    simp only [List.mem_cons, List.mem_nil_iff, or_false] at hc
    rcases hc with rfl | rfl | rfl | rfl
    · exact (digitChar_hex _ (by omega)).1
    · exact (digitChar_hex _ (by omega)).1
    · exact (digitChar_hex _ (by omega)).1
    · exact (digitChar_hex _ (by omega)).1
  · simp only [hexValue, List.foldl_cons, List.foldl_nil]
    rw [(digitChar_hex (m / 4096) (by omega)).2, (digitChar_hex (m / 256 % 16) (by omega)).2,
      (digitChar_hex (m / 16 % 16) (by omega)).2, (digitChar_hex (m % 16) (by omega)).2]
    congr 1
    omega

theorem CreateSteps_identity_writes (g : Gadget) :
    g.CreateSteps[1]? = some ⟨.Write, Join g.gadgetPath "idVendor", sprintfHex04 g.IdVendor⟩ ∧
    g.CreateSteps[2]? =
      some ⟨.Write, Join g.gadgetPath "idProduct", sprintfHex04 g.IdProduct⟩ := by
  rw [Gadget.CreateSteps, relSteps_eq]
  constructor <;> rfl

/-! ## The raw I2C transaction -/

theorem set_append_cons {α : Type} (a : List α) (x y : α) (b : List α) (k : Nat)
    (hk : a.length = k) : (a ++ x :: b).set k y = a ++ y :: b := by
  induction a generalizing k with
  | nil => subst hk; rfl
  | cons c cs ih =>
    subst hk
    simp [List.set, ih cs.length rfl]

theorem I2C.fill_range (msgs : List I2C.Msg) (n : Nat) (hn : n ≤ msgs.length) (k : Nat)
    (hk : k ≤ n) :
    (List.range k).foldl
      (fun c i =>
        match msgs[i]? with
        | some m => c.set i m.toC
        | none => c)
      (List.replicate n I2C.i2c_msg.zero) =
    (msgs.take k).map I2C.Msg.toC ++ List.replicate (n - k) I2C.i2c_msg.zero := by
  induction k with
  | zero => simp
  | succ k ih =>
    have hkl : k < msgs.length := by omega
    rw [List.range_succ, List.foldl_append, ih (by omega)]
    simp only [List.foldl_cons, List.foldl_nil, List.getElem?_eq_getElem hkl]
    have hlen : ((msgs.take k).map I2C.Msg.toC).length = k := by
      simp [List.length_take]; omega
    obtain ⟨j, hj⟩ : ∃ j, n - k = j + 1 := ⟨n - k - 1, by omega⟩
    have hj2 : n - (k + 1) = j := by omega
    rw [hj, hj2, List.replicate_succ]
    rw [set_append_cons _ _ _ _ k hlen]
    simp only [List.take_succ, List.getElem?_eq_getElem hkl, Option.toList_some,
      List.map_append, List.map_cons, List.map_nil, List.append_assoc, List.singleton_append]

theorem I2C.fillMsgs_eq (msgs : List I2C.Msg) (n : Nat) (hn : n ≤ msgs.length) :
    I2C.fillMsgs msgs (List.replicate n I2C.i2c_msg.zero) = (msgs.take n).map I2C.Msg.toC := by
  have h := I2C.fill_range msgs n hn n (Nat.le_refl n)
  simp only [Nat.sub_self, List.replicate_zero, List.append_nil] at h
  rw [I2C.fillMsgs, List.length_replicate]
  exact h

/-! ## Sequences in memory -/

theorem getElem?_append_cons_at {α : Type} (a : List α) (x : α) (b : List α) (k : Nat)
    (hk : a.length = k) : (a ++ x :: b)[k]? = some x := by
  subst hk
  induction a with
  | nil => simp
  | cons c cs ih => simpa using ih

/-- The loop over the elements of a slice replaces each of them by its image and leaves the
rest of the backing array as it is. -/
theorem updateFrom_spec (f : Step → Step) (off : Nat) (pre post : List Step)
    (hp : pre.length = off) (todo done : List Step) (k : Nat) (hk : done.length = k) :
    updateFrom f off k todo.length (pre ++ done ++ todo ++ post) =
      pre ++ done ++ todo.map f ++ post := by
  induction todo generalizing done k with
  | nil => simp [updateFrom]
  | cons s t ih =>
    have hlen : (pre ++ done).length = off + k := by simp [hp, hk]
    have e : pre ++ done ++ s :: t ++ post = (pre ++ done) ++ s :: (t ++ post) := by simp
    rw [List.length_cons, updateFrom, e, getElem?_append_cons_at _ _ _ _ hlen]
    simp only
    rw [set_append_cons _ _ _ _ _ hlen]
    have e2 : pre ++ done ++ f s :: (t ++ post) = pre ++ (done ++ [f s]) ++ t ++ post := by simp
    rw [e2, ih (done ++ [f s]) (k + 1) (by simp [hk])]
    simp

theorem updateFrom_window (f : Step → Step) (off len : Nat) (a : List Step)
    (h : off + len ≤ a.length) :
    updateFrom f off 0 len a =
      a.take off ++ ((a.drop off).take len).map f ++ a.drop (off + len) := by
  have hl : ((a.drop off).take len).length = len := by
    simp [List.length_take, List.length_drop]; omega
  have e : a = a.take off ++ [] ++ (a.drop off).take len ++ a.drop (off + len) := by
    rw [List.append_nil, List.append_assoc, ← List.drop_drop, List.take_append_drop,
      List.take_append_drop]
  have := updateFrom_spec f off (a.take off) (a.drop (off + len))
    (by simp [List.length_take]; omega) ((a.drop off).take len) [] 0 rfl
  rw [hl, ← e] at this
  rw [this]
  simp

theorem Heap.steps_length {h : Heap} {r : StepsRef} (hv : h.Valid r) :
    (h.steps r).length = r.len := by
  unfold Heap.Valid at hv
  simp [Heap.steps, List.length_take, List.length_drop]
  omega

theorem Heap.array_append_old (h : Heap) (x : List Step) (q : StepsRef) (hq : q.arr < h.length) :
    Heap.array (h ++ [x]) q = h.array q := by
  simp [Heap.array, List.getD, List.getElem?_append_left hq]

theorem Heap.steps_append_old (h : Heap) (x : List Step) (q : StepsRef) (hq : q.arr < h.length) :
    Heap.steps (h ++ [x]) q = h.steps q := by
  simp [Heap.steps, Heap.array_append_old h x q hq]

theorem Heap.set_append_new (h : Heap) (x y : List Step) :
    (h ++ [x]).set h.length y = h ++ [y] := by
  exact set_append_cons h x y [] h.length rfl

theorem Heap.steps_new (h : Heap) (x : List Step) (n : Nat) (hn : x.length = n) :
    Heap.steps (h ++ [x]) ⟨h.length, 0, n⟩ = x := by
  simp [Heap.steps, Heap.array, List.getD, ← hn]

theorem Mem.Undo_eq (h : Heap) (r : StepsRef) :
    Mem.Undo h r =
      (h ++ [updateFrom Step.Undo 0 0 r.len (h.steps r)], ⟨h.length, 0, r.len⟩) := by
  simp [Mem.Undo, Mem.Clone, Heap.set_append_new, Heap.array, List.getD]

theorem Mem.Reverse_eq (h : Heap) (r : StepsRef) :
    Mem.Reverse h r = (h ++ [reverseIn 0 r.len (h.steps r)], ⟨h.length, 0, r.len⟩) := by
  simp [Mem.Reverse, Mem.Clone, Heap.set_append_new, Heap.array, List.getD]

theorem Heap.array_set_ne (h : Heap) (x : List Step) (r q : StepsRef) (hq : q.arr ≠ r.arr) :
    Heap.array (h.set r.arr x) q = h.array q := by
  simp [Heap.array, List.getD, List.getElem?_set_ne (Ne.symm hq)]

theorem Heap.array_set_self (h : Heap) (x : List Step) (r : StepsRef) (hr : r.arr < h.length) :
    Heap.array (h.set r.arr x) r = x := by
  simp [Heap.array, List.getD, List.getElem?_set_self, hr]

/-- The backing array of the receiver after `Steps.PrependPath`. -/
theorem Mem.PrependPath_array (h : Heap) (r : StepsRef) (p : String) (hv : h.Valid r) :
    Heap.array (Mem.PrependPath h r p).1 r =
      (h.array r).take r.off ++ Steps.PrependPath (h.steps r) p ++
        (h.array r).drop (r.off + r.len) := by
  have hw := updateFrom_window (fun s => s.PrependPath p) r.off r.len (h.array r) hv
  by_cases hr : r.arr < h.length
  · rw [Mem.PrependPath, Heap.array_set_self _ _ _ hr, hw]
    rfl
  · have ha : h.array r = [] := by
      simp [Heap.array, List.getD, List.getElem?_eq_none (Nat.not_lt.1 hr)]
    have hs : h.set r.arr (updateFrom (fun s => s.PrependPath p) r.off 0 r.len (h.array r)) = h :=
      List.set_eq_of_length_le (Nat.not_lt.1 hr)
    rw [Mem.PrependPath, hs]
    simp [ha, Heap.steps, Steps.PrependPath]

theorem take_drop_window (pre win post : List Step) (off len : Nat) (hp : pre.length = off)
    (hw : win.length = len) :
    ((pre ++ win ++ post).drop off).take len = win ∧
    (pre ++ win ++ post).take off = pre ∧
    (pre ++ win ++ post).drop (off + len) = post := by
  subst hp hw
  refine ⟨by simp, by simp, ?_⟩
  rw [List.append_assoc, ← List.drop_drop]
  simp

theorem Mem.Undo_steps (h : Heap) (r : StepsRef) (hv : h.Valid r) :
    Heap.steps (Mem.Undo h r).1 (Mem.Undo h r).2 = Steps.Undo (h.steps r) := by
  have hl := Heap.steps_length hv
  have hw := updateFrom_window Step.Undo 0 r.len (h.steps r) (by omega)
  rw [Mem.Undo_eq, hw]
  simp only [List.take_zero, List.drop_zero, List.nil_append, Nat.zero_add]
  rw [← hl, List.take_length, List.drop_length, List.append_nil, hl]
  exact Heap.steps_new h _ r.len (by simp [hl])

theorem Mem.Reverse_steps (h : Heap) (r : StepsRef) (hv : h.Valid r) :
    Heap.steps (Mem.Reverse h r).1 (Mem.Reverse h r).2 = Steps.Reverse (h.steps r) := by
  have hl := Heap.steps_length hv
  rw [Mem.Reverse_eq, reverseIn]
  simp only [List.take_zero, List.drop_zero, List.nil_append, Nat.zero_add]
  rw [← hl, List.take_length, List.drop_length, List.append_nil, hl]
  exact Heap.steps_new h _ r.len (by simp [hl])

/-! ## The claims -/

/-- C1. `RemoveSteps` is the per-step undo of `CreateSteps` in reversed order: it has the
same length `n`, and its step `i` is `Step.Undo` of step `n - 1 - i` of `CreateSteps`. -/
theorem C1_RemoveSteps_is_reversed_undo (g : Gadget) :
    g.RemoveSteps.length = g.CreateSteps.length ∧
    ∀ i, i < g.CreateSteps.length →
      g.RemoveSteps[i]? = (g.CreateSteps[g.CreateSteps.length - 1 - i]?).map Step.Undo := by
  refine ⟨by simp [Gadget.RemoveSteps, Steps.Reverse, Steps.Undo, Steps.Clone], ?_⟩
  intro i hi
  simp only [Gadget.RemoveSteps, Steps.Reverse, Steps.Undo, Steps.Clone]
  rw [List.getElem?_reverse (by simpa using hi)]
  simp [List.getElem?_map]

/-- C1 at the sample gadget, step 3 of the teardown. -/
theorem C1_RemoveSteps_is_reversed_undo_witness :
    3 < sampleGadget.CreateSteps.length ∧
    sampleGadget.RemoveSteps[3]? =
      (sampleGadget.CreateSteps[sampleGadget.CreateSteps.length - 1 - 3]?).map Step.Undo :=
  ⟨by decide, (C1_RemoveSteps_is_reversed_undo sampleGadget).2 3 (by decide)⟩

/-- C2. `Step.Undo` follows the inverse table: `Mkdir p` gives `Rmdir p`, `Symlink t l` gives
`Remove l` (the link path), and a step whose action is `Write`, `WriteBinary`, `Rmdir`,
`Remove`, `Comment` or `Noop` gives the `Noop` step with both arguments empty. -/
theorem C2_Undo_table :
    (∀ p x : String, Step.Undo ⟨.Mkdir, p, x⟩ = ⟨.Rmdir, p, ""⟩) ∧
    (∀ t l : String, Step.Undo ⟨.Symlink, t, l⟩ = ⟨.Remove, l, ""⟩) ∧
    (∀ s : Step, s.Action = .Write ∨ s.Action = .WriteBinary ∨ s.Action = .Rmdir ∨
        s.Action = .Remove ∨ s.Action = .Comment ∨ s.Action = .Noop →
      s.Undo = ⟨.Noop, "", ""⟩) := by
  refine ⟨fun _ _ => rfl, fun _ _ => rfl, ?_⟩
  rintro ⟨a, x, y⟩ h
  cases a <;> simp_all [Step.Undo]

/-- C2 at the write step of a controller binding. -/
theorem C2_Undo_table_witness :
    Step.Undo ⟨.Write, "g1/UDC", "fe980000.usb"⟩ = ⟨.Noop, "", ""⟩ :=
  C2_Undo_table.2.2 ⟨.Write, "g1/UDC", "fe980000.usb"⟩ (Or.inl rfl)

/-- C3, as stated, fails: the undo of a create-only directory step is not `Rmdir`. -/
theorem C3_counterexample :
    Step.Undo ⟨.MkdirCreateOnly, "lun.0", ""⟩ ≠ ⟨.Rmdir, "lun.0", ""⟩ := by
  decide

/-- C3, amended. The inverse of a create-only directory step is the `Noop` step, so the
teardown of a mass-storage function's own steps holds no `Rmdir` for a logical-unit
directory: it consists of `Noop` steps only, four for each logical unit. -/
theorem C3_Undo_MkdirCreateOnly_is_Noop :
    (∀ p x : String, Step.Undo ⟨.MkdirCreateOnly, p, x⟩ = ⟨.Noop, "", ""⟩) ∧
    (∀ (n : String) (luns : List MassStorageLun),
      Steps.Undo (Function.GadgetFunctionCreate (.MassStorage n luns)) =
        List.replicate (4 * luns.length) ⟨.Noop, "", ""⟩) := by
  refine ⟨fun _ _ => rfl, ?_⟩
  intro n luns
  simp only [Function.GadgetFunctionCreate, foldl_extend_eq, Steps.Undo, Steps.Clone,
    List.nil_append]
  induction luns with
  | nil => rfl
  | cons l ls ih =>
    rw [List.flatMap_cons, List.map_append, ih, List.length_cons, Nat.mul_succ, Nat.add_comm,
      List.replicate_add]
    rfl

/-- C4, as stated, fails. With two configurations of the same name the teardown removes the
directory of the configuration (step 2) before the strings directory beneath it that the
first configuration made (step 5); with a configuration named `..` it removes the root
(step 2) before the strings directory beneath it (step 7); with a configuration of empty
name after one named `strings` it removes `configs` (step 2) before `configs/strings`
(step 6); with a function named `x/..` after the function `a` it removes `functions`
(step 1) before `functions/acm.a` (step 4). -/
theorem C4_counterexample :
    (¬ ∀ (i j : Nat) (p : String) (s : Step), i < j →
      twinGadget.RemoveSteps[i]? = some ⟨.Rmdir, p, ""⟩ → twinGadget.RemoveSteps[j]? = some s →
      s.Action = .Rmdir ∨ s.Action = .Remove → ¬ StrictlyBeneath s.Arg0 p) ∧
    (¬ ∀ (i j : Nat) (p : String) (s : Step), i < j →
      parentGadget.RemoveSteps[i]? = some ⟨.Rmdir, p, ""⟩ →
      parentGadget.RemoveSteps[j]? = some s →
      s.Action = .Rmdir ∨ s.Action = .Remove → ¬ StrictlyBeneath s.Arg0 p) ∧
    (¬ ∀ (i j : Nat) (p : String) (s : Step), i < j →
      emptyNameGadget.RemoveSteps[i]? = some ⟨.Rmdir, p, ""⟩ →
      emptyNameGadget.RemoveSteps[j]? = some s →
      s.Action = .Rmdir ∨ s.Action = .Remove → ¬ StrictlyBeneath s.Arg0 p) ∧
    (¬ ∀ (i j : Nat) (p : String) (s : Step), i < j →
      sepFunctionGadget.RemoveSteps[i]? = some ⟨.Rmdir, p, ""⟩ →
      sepFunctionGadget.RemoveSteps[j]? = some s →
      s.Action = .Rmdir ∨ s.Action = .Remove → ¬ StrictlyBeneath s.Arg0 p) :=
  ⟨fun h => h 2 5 "/sys/kernel/config/usb_gadget/g1/configs/c.1"
      ⟨.Rmdir, "/sys/kernel/config/usb_gadget/g1/configs/c.1/strings/0x409", ""⟩
      (by decide) (by decide) (by decide) (Or.inl rfl) (by decide),
    fun h => h 2 7 "/sys/kernel/config/usb_gadget/g1"
      ⟨.Rmdir, "/sys/kernel/config/usb_gadget/g1/strings/0x409", ""⟩
      (by decide) (by decide) (by decide) (Or.inl rfl) (by decide),
    fun h => h 2 6 "/sys/kernel/config/usb_gadget/g1/configs"
      ⟨.Rmdir, "/sys/kernel/config/usb_gadget/g1/configs/strings", ""⟩
      (by decide) (by decide) (by decide) (Or.inl rfl) (by decide),
    fun h => h 1 4 "/sys/kernel/config/usb_gadget/g1/functions"
      ⟨.Rmdir, "/sys/kernel/config/usb_gadget/g1/functions/acm.a", ""⟩
      (by decide) (by decide) (by decide) (Or.inl rfl) (by decide)⟩

/-- C4, amended. For a well-named gadget (every configuration name a plain path element,
no two configurations of the same name, no separator in a canonical function name) the
teardown never removes a directory before what is nested beneath it: if step `i` of
`RemoveSteps` is `Rmdir p`, no later step is an `Rmdir` or `Remove` of a path strictly
beneath `p`; equivalently, in `CreateSteps` no `Mkdir p` comes after a `Mkdir` or a
`Symlink` link path strictly beneath `p`. -/
theorem C4_teardown_removes_nested_first (g : Gadget) (hg : g.WellNamed) :
    (∀ (i j : Nat) (p : String) (s : Step), i < j →
      g.RemoveSteps[i]? = some ⟨.Rmdir, p, ""⟩ → g.RemoveSteps[j]? = some s →
      s.Action = .Rmdir ∨ s.Action = .Remove → ¬ StrictlyBeneath s.Arg0 p) ∧
    (∀ (i j : Nat) (p x q : String) (s : Step), i < j →
      g.CreateSteps[j]? = some ⟨.Mkdir, p, x⟩ → g.CreateSteps[i]? = some s →
      undoTarget s = some q → ¬ StrictlyBeneath q p) := by
  have hc := pairwise_CreateOrdered_CreateSteps hg
  have hr : g.RemoveSteps.Pairwise TeardownOrdered := pairwise_TeardownOrdered hc
  constructor
  · intro i j p s hij hi hj hs
    obtain ⟨hi', ei⟩ := List.getElem?_eq_some_iff.1 hi
    obtain ⟨hj', ej⟩ := List.getElem?_eq_some_iff.1 hj
    have := List.pairwise_iff_getElem.1 hr i j hi' hj' hij
    rw [ei, ej] at this
    exact this p rfl hs
  · intro i j p x q s hij hj hi hq
    obtain ⟨hi', ei⟩ := List.getElem?_eq_some_iff.1 hi
    obtain ⟨hj', ej⟩ := List.getElem?_eq_some_iff.1 hj
    have := List.pairwise_iff_getElem.1 hc i j hi' hj' hij
    rw [ei, ej] at this
    exact this rfl q hq

/-- C4, amended, at a gadget with two configurations: the directory of the second
configuration is removed (step 10) before the root (step 25). -/
theorem C4_teardown_removes_nested_first_witness :
    multiGadget.WellNamed ∧
    multiGadget.RemoveSteps[10]? =
      some ⟨.Rmdir, "/sys/kernel/config/usb_gadget/g1/configs/c.2", ""⟩ ∧
    multiGadget.RemoveSteps[25]? = some ⟨.Rmdir, "/sys/kernel/config/usb_gadget/g1", ""⟩ ∧
    ¬ StrictlyBeneath "/sys/kernel/config/usb_gadget/g1"
      "/sys/kernel/config/usb_gadget/g1/configs/c.2" :=
  ⟨by decide, by decide, by decide,
    (C4_teardown_removes_nested_first multiGadget (by decide)).1 10 25
      "/sys/kernel/config/usb_gadget/g1/configs/c.2"
      ⟨.Rmdir, "/sys/kernel/config/usb_gadget/g1", ""⟩ (by decide) (by decide) (by decide)
      (Or.inl rfl)⟩

/-- C5, as stated, fails in its last part: for a gadget whose configuration is named
`../UDC` the teardown holds a step `Rmdir` of the path `UDC` under the root. -/
theorem C5_counterexample :
    ¬ ∀ s ∈ udcDirGadget.RemoveSteps, s.Arg0 ≠ Join udcDirGadget.gadgetPath "UDC" :=
  fun h => h ⟨.Rmdir, "/sys/kernel/config/usb_gadget/g1/UDC", ""⟩ (by decide) (by decide)

/-- C5, amended. The teardown never removes a written file explicitly: every step of
`RemoveSteps` has action `Noop`, `Rmdir` or `Remove`; the path of every `Remove` step is the
link path of a `Symlink` step of `CreateSteps`; every `Write` or `WriteBinary` step of
`CreateSteps` is mapped to the `Noop` step at the mirrored position, and so is the
controller-binding write, which makes the first teardown step a `Noop`. No teardown step has
the path `UDC` under the root when the names of the gadget are plain (configuration names
plain path elements, no separator in a canonical function name). -/
theorem C5_teardown_never_removes_written_file (g : Gadget) :
    (∀ s ∈ g.RemoveSteps, s.Action = .Noop ∨ s.Action = .Rmdir ∨ s.Action = .Remove) ∧
    (∀ s ∈ g.RemoveSteps, s.Action = .Remove →
      ∃ t ∈ g.CreateSteps, t.Action = .Symlink ∧ t.Arg1 = s.Arg0) ∧
    (∀ (i : Nat) (t : Step), g.CreateSteps[i]? = some t →
      t.Action = .Write ∨ t.Action = .WriteBinary →
      g.RemoveSteps[g.CreateSteps.length - 1 - i]? = some ⟨.Noop, "", ""⟩) ∧
    (g.UDC ≠ "" →
      g.CreateSteps.getLast? = some ⟨.Write, Join g.gadgetPath "UDC", g.UDC⟩ ∧
      g.RemoveSteps.head? = some ⟨.Noop, "", ""⟩) ∧
    (g.PlainNames → ∀ s ∈ g.RemoveSteps, s.Arg0 ≠ Join g.gadgetPath "UDC") := by
  refine ⟨?_, ?_, ?_, ?_, ?_⟩
  · intro s hs
    obtain ⟨t, _, rfl⟩ := mem_RemoveSteps.1 hs
    exact Undo_action t
  · intro s hs hr
    obtain ⟨t, ht, rfl⟩ := mem_RemoveSteps.1 hs
    exact ⟨t, ht, Undo_remove hr⟩
  · intro i t hi hw
    obtain ⟨hi', ei⟩ := List.getElem?_eq_some_iff.1 hi
    simp only [Gadget.RemoveSteps, Steps.Reverse, Steps.Undo, Steps.Clone]
    rw [List.getElem?_reverse (by simp; omega)]
    simp only [List.length_map, List.getElem?_map]
    have : g.CreateSteps.length - 1 - (g.CreateSteps.length - 1 - i) = i := by omega
    rw [this, hi]
    simp [Undo_write hw]
  · intro hu
    obtain ⟨ss, hss⟩ := CreateSteps_bound g hu
    refine ⟨by rw [hss]; simp, ?_⟩
    simp [Gadget.RemoveSteps, Steps.Reverse, Steps.Undo, Steps.Clone, hss, Step.Undo]
  · intro hg s hs heq
    obtain ⟨t, ht, rfl⟩ := mem_RemoveSteps.1 hs
    simp only [Gadget.CreateSteps, Steps.PrependPath, List.mem_map] at ht
    obtain ⟨t0, ht0, rfl⟩ := ht
    rw [Undo_arg0, undoTarget_PrependPath] at heq
    cases hq : undoTarget t0 with
    | none =>
      rw [hq] at heq
      exact Join_UDC_ne_empty _ heq.symm
    | some q0 =>
      rw [hq] at heq
      simp only [Option.map_some', Option.getD_some] at heq
      obtain ⟨hgood, hk⟩ := TargetIs_relSteps hg t0 ht0 q0 hq
      have e1 : elemsOf (Join g.gadgetPath q0).data = elemsOf g.gadgetPath.data ++ elemsOf q0.data :=
        elemsOf_joinChars _ hgood.1 hgood.2
      have hU : GoodPath "UDC" := by decide
      have e2 : elemsOf (Join g.gadgetPath "UDC").data =
          elemsOf g.gadgetPath.data ++ elemsOf "UDC".data :=
        elemsOf_joinChars _ hU.1 hU.2
      rw [heq, e2] at e1
      have e3 := List.append_cancel_left e1
      have hlen : (elemsOf q0.data).length = 1 := by rw [← e3]; decide
      rcases hk with ⟨_, h⟩ | ⟨_, h⟩ <;> exact h hlen

/-- C5, amended, at a gadget with two configurations: no teardown step has the path of the
binding file. -/
theorem C5_teardown_never_removes_written_file_witness :
    multiGadget.PlainNames ∧
    (⟨.Remove, "/sys/kernel/config/usb_gadget/g1/configs/c.1/acm.usb0", ""⟩ : Step) ∈
      multiGadget.RemoveSteps ∧
    "/sys/kernel/config/usb_gadget/g1/configs/c.1/acm.usb0" ≠ Join multiGadget.gadgetPath "UDC" :=
  ⟨by decide, by decide,
    (C5_teardown_never_removes_written_file multiGadget).2.2.2.2 (by decide)
      ⟨.Remove, "/sys/kernel/config/usb_gadget/g1/configs/c.1/acm.usb0", ""⟩ (by decide)⟩

/-- C6, as stated, fails on rooted paths. Prefixing `Mkdir ..` by the rooted path `/` and
then by `a` gives `Mkdir a`, prefixing it by `Join a /` gives `Mkdir .`; prefixing the
rooted step path of `Mkdir /..` by the empty path and then by `a` gives `Mkdir a`,
prefixing it by `Join a ""` gives `Mkdir .`. -/
theorem C6_counterexample :
    (((Step.mk .Mkdir ".." "").PrependPath "/").PrependPath "a" = ⟨.Mkdir, "a", ""⟩ ∧
      (Step.mk .Mkdir ".." "").PrependPath (Join "a" "/") = ⟨.Mkdir, ".", ""⟩ ∧
      ((Step.mk .Mkdir ".." "").PrependPath "/").PrependPath "a" ≠
        (Step.mk .Mkdir ".." "").PrependPath (Join "a" "/")) ∧
    (((Step.mk .Mkdir "/.." "").PrependPath "").PrependPath "a" = ⟨.Mkdir, "a", ""⟩ ∧
      (Step.mk .Mkdir "/.." "").PrependPath (Join "a" "") = ⟨.Mkdir, ".", ""⟩ ∧
      ((Step.mk .Mkdir "/.." "").PrependPath "").PrependPath "a" ≠
        (Step.mk .Mkdir "/.." "").PrependPath (Join "a" "")) := by
  decide

/-- C6, amended. Path-prefixing is associative on relative paths: for every path `a`, every
relative path `b` and every step `s` of any action whose path arguments (`Arg0`, and `Arg1`
of a `Symlink`) are relative, `s.PrependPath(b).PrependPath(a) = s.PrependPath(Join(a, b))`,
and the same holds element-wise for every sequence of such steps. -/
theorem C6_PrependPath_assoc_relative (a b : String) (hb : IsRel b) :
    (∀ s : Step, s.RelPaths → (s.PrependPath b).PrependPath a = s.PrependPath (Join a b)) ∧
    (∀ ss : Steps, (∀ s ∈ ss, s.RelPaths) →
      Steps.PrependPath (Steps.PrependPath ss b) a = Steps.PrependPath ss (Join a b)) := by
  refine ⟨fun s hs => Step.PrependPath_assoc s a b hb hs, ?_⟩
  intro ss h
  simp only [Steps.PrependPath, List.map_map]
  apply List.map_congr_left
  intro s hs
  exact Step.PrependPath_assoc s a b hb (h s hs)

/-- C6, amended, at a symlink step prefixed by `configs/..` and then by `/sys`: both
arguments are shifted. -/
theorem C6_PrependPath_assoc_relative_witness :
    IsRel "configs/.." ∧
    ((Step.mk .Symlink "functions/acm.usb0" "c.1/acm.usb0").PrependPath "configs/..").PrependPath
        "/sys" = ⟨.Symlink, "/sys/functions/acm.usb0", "/sys/c.1/acm.usb0"⟩ ∧
    ((Step.mk .Symlink "functions/acm.usb0" "c.1/acm.usb0").PrependPath "configs/..").PrependPath
        "/sys" =
      (Step.mk .Symlink "functions/acm.usb0" "c.1/acm.usb0").PrependPath
        (Join "/sys" "configs/..") :=
  ⟨by decide, by decide, (C6_PrependPath_assoc_relative "/sys" "configs/.." (by decide)).1
    ⟨.Symlink, "functions/acm.usb0", "c.1/acm.usb0"⟩ (by decide)⟩

/-- C7. `PrependPath` keeps the action; leaves a `Comment` or `Noop` step unchanged; for
`Symlink` joins the path in front of both arguments; for every other action joins it in
front of `Arg0` and leaves `Arg1` unchanged. -/
theorem C7_PrependPath_frame (s : Step) (p : String) :
    (s.PrependPath p).Action = s.Action ∧
    (s.Action = .Comment ∨ s.Action = .Noop → s.PrependPath p = s) ∧
    (s.Action = .Symlink →
      (s.PrependPath p).Arg0 = Join p s.Arg0 ∧ (s.PrependPath p).Arg1 = Join p s.Arg1) ∧
    (s.Action ≠ .Comment → s.Action ≠ .Noop → s.Action ≠ .Symlink →
      (s.PrependPath p).Arg0 = Join p s.Arg0 ∧ (s.PrependPath p).Arg1 = s.Arg1) := by
  obtain ⟨act, x, y⟩ := s
  cases act <;> simp [Step.PrependPath]

/-- C7 at a write step: the path is joined, the content is kept. -/
theorem C7_PrependPath_frame_witness :
    ((Step.mk .Write "idVendor" "0x1d6b").PrependPath "g1").Arg0 = Join "g1" "idVendor" ∧
    ((Step.mk .Write "idVendor" "0x1d6b").PrependPath "g1").Arg1 = "0x1d6b" :=
  (C7_PrependPath_frame ⟨.Write, "idVendor", "0x1d6b"⟩ "g1").2.2.2
    (by decide) (by decide) (by decide)

/-- C8. With a non-empty controller-binding value `v`, `CreateSteps` is the sequence of the
same gadget without binding followed by the single step `Write` of `v` to the path `UDC`
joined to the root; so that step is the last one. -/
theorem C8_UDC_write_is_appended (g : Gadget) (v : String) (hv : v ≠ "") :
    ({ g with UDC := v } : Gadget).CreateSteps =
      ({ g with UDC := "" } : Gadget).CreateSteps ++ [⟨.Write, Join g.gadgetPath "UDC", v⟩] ∧
    ({ g with UDC := v } : Gadget).CreateSteps.getLast? =
      some ⟨.Write, Join g.gadgetPath "UDC", v⟩ := by
  have h : ({ g with UDC := v } : Gadget).CreateSteps =
      ({ g with UDC := "" } : Gadget).CreateSteps ++ [⟨.Write, Join g.gadgetPath "UDC", v⟩] := by
    simp [Gadget.CreateSteps, Gadget.relSteps, hv, Steps.Append, Steps.PrependPath,
      Gadget.gadgetPath, Step.PrependPath]
  exact ⟨h, by rw [h]; simp⟩

/-- C8 at the sample gadget. -/
theorem C8_UDC_write_is_appended_witness :
    ({ sampleGadget with UDC := "fe980000.usb" } : Gadget).CreateSteps.getLast? =
      some ⟨.Write, "/sys/kernel/config/usb_gadget/g1/UDC", "fe980000.usb"⟩ :=
  (C8_UDC_write_is_appended sampleGadget "fe980000.usb" (by decide)).2

/-- C9. With the controller binding unset, whatever the configuration, function and
logical-unit names, no `Write` or `WriteBinary` step of `CreateSteps` has the path `UDC`
joined to the root: every written path ends in one of the fixed file names. -/
theorem C9_no_UDC_write_when_unset (g : Gadget) (hu : g.UDC = "") :
    ∀ s ∈ g.CreateSteps, s.Action = .Write ∨ s.Action = .WriteBinary →
      s.Arg0 ≠ Join g.gadgetPath "UDC" := by
  intro s hs hw heq
  simp only [Gadget.CreateSteps, Steps.PrependPath, List.mem_map] at hs
  obtain ⟨t, ht, rfl⟩ := hs
  obtain ⟨c, hc, hl⟩ :=
    WritesKnownFile_PrependPath (WritesKnownFile_relSteps g hu t ht) g.gadgetPath hw
  have hudc : LastElemIs "UDC" (Join g.gadgetPath "UDC") :=
    LastElemIs_Join (by decide) (by decide) _
  rw [heq] at hl
  have hcu : c.data = "UDC".data := by
    have := hl.symm.trans hudc
    simpa using this
  have : c = "UDC" := String.ext hcu
  subst this
  revert hc
  decide

/-- C9 at a gadget whose names try to reach the binding file: its last write step. -/
theorem C9_no_UDC_write_when_unset_witness :
    unboundGadget.UDC = "" ∧
    (⟨.Write, "/sys/kernel/config/usb_gadget/g1/functions/mass_storage.0/UDC/cdrom", "0"⟩ : Step)
      ∈ unboundGadget.CreateSteps ∧
    "/sys/kernel/config/usb_gadget/g1/functions/mass_storage.0/UDC/cdrom" ≠
      Join unboundGadget.gadgetPath "UDC" :=
  ⟨rfl, by decide,
    C9_no_UDC_write_when_unset unboundGadget rfl
      ⟨.Write, "/sys/kernel/config/usb_gadget/g1/functions/mass_storage.0/UDC/cdrom", "0"⟩
      (by decide) (Or.inl rfl)⟩

/-- C10. For a gadget with root `R = gadgetPath` (the `GadgetPath` override if non-empty,
else `Join` of the base path and `Name`), no controller binding and exactly one
configuration, named `c` with label `L`, holding exactly one ACM function named `n`,
`CreateSteps` is exactly the 14 steps listed, in order. A path written `R/x` is
`Join R x`; the root directory itself is `Clean R`, which is `R` when the root is derived
from `Name`. -/
theorem C10_acm_gadget_steps (g : Gadget) (c L n : String) (hu : g.UDC = "")
    (hc : g.Configs = [⟨c, L, [.Acm n]⟩]) :
    g.CreateSteps =
      [ ⟨.Mkdir, Clean g.gadgetPath, ""⟩,
        ⟨.Write, Join g.gadgetPath "idVendor", sprintfHex04 g.IdVendor⟩,
        ⟨.Write, Join g.gadgetPath "idProduct", sprintfHex04 g.IdProduct⟩,
        ⟨.Mkdir, Join g.gadgetPath "strings/0x409", ""⟩,
        ⟨.Write, Join g.gadgetPath "strings/0x409/serialnumber", g.SerialNumber⟩,
        ⟨.Write, Join g.gadgetPath "strings/0x409/manufacturer", g.Manufacturer⟩,
        ⟨.Write, Join g.gadgetPath "strings/0x409/product", g.Product⟩,
        ⟨.Comment, "config `" ++ c ++ "`", ""⟩,
        ⟨.Mkdir, Join g.gadgetPath ("configs/" ++ c), ""⟩,
        ⟨.Mkdir, Join g.gadgetPath ("configs/" ++ c ++ "/strings/0x409"), ""⟩,
        ⟨.Write, Join g.gadgetPath ("configs/" ++ c ++ "/strings/0x409/configuration"), L⟩,
        ⟨.Comment, "config `" ++ c ++ "`, function `acm." ++ n ++ "`", ""⟩,
        ⟨.Mkdir, Join g.gadgetPath ("functions/acm." ++ n), ""⟩,
        ⟨.Symlink, Join g.gadgetPath ("functions/acm." ++ n),
          Join g.gadgetPath ("configs/" ++ c ++ "/acm." ++ n)⟩ ] ∧
    (g.GadgetPath ≠ "" → g.gadgetPath = g.GadgetPath) ∧
    (g.GadgetPath = "" → g.gadgetPath = Join "/sys/kernel/config/usb_gadget" g.Name ∧
      Clean g.gadgetPath = g.gadgetPath) := by
  have hcp : "configs/" ++ c ≠ "" := literal_append_ne_empty _ _ (by decide)
  have hcr : IsRel ("configs/" ++ c) := literal_append_isRel _ _ (by decide) (by decide)
  have hfp : "functions/acm." ++ n ≠ "" := literal_append_ne_empty _ _ (by decide)
  have hfr : IsRel ("functions/acm." ++ n) := literal_append_isRel _ _ (by decide) (by decide)
  have s1 : "strings/" ++ StrEnglish = "strings/0x409" := by decide
  have s2 : "strings/0x409" ++ "/serialnumber" = "strings/0x409/serialnumber" := by decide
  have s3 : "strings/0x409" ++ "/manufacturer" = "strings/0x409/manufacturer" := by decide
  have s4 : "strings/0x409" ++ "/product" = "strings/0x409/product" := by decide
  have s5 : "strings/0x409" ++ "/configuration" = "strings/0x409/configuration" := by decide
  have e1 : "functions/" ++ ("acm." ++ n) = "functions/acm." ++ n :=
    String.ext (by simp [String.data_append])
  have e2 : "configs/" ++ c ++ "/" ++ "strings/0x409" = "configs/" ++ c ++ "/strings/0x409" :=
    String.ext (by simp [String.data_append])
  have e3 : "configs/" ++ c ++ "/" ++ "strings/0x409/configuration" =
      "configs/" ++ c ++ "/strings/0x409/configuration" :=
    String.ext (by simp [String.data_append])
  have e4 : "configs/" ++ c ++ "/" ++ ("acm." ++ n) = "configs/" ++ c ++ "/acm." ++ n :=
    String.ext (by simp [String.data_append])
  have e5 : "config `" ++ c ++ "`, function `" ++ ("acm." ++ n) ++ "`" =
      "config `" ++ c ++ "`, function `acm." ++ n ++ "`" :=
    String.ext (by simp [String.data_append])
  refine ⟨?_, ?_, ?_⟩
  · rw [Gadget.CreateSteps, relSteps_eq, hc]
    simp only [hu, List.flatMap_cons, List.flatMap_nil, configSteps_eq, functionSteps,
      Function.GadgetFunctionCreate, Function.GadgetFunctionName, Steps.Extend, Steps.Append,
      Steps.PrependPath, Step.PrependPath, List.map_cons, List.map_nil, List.append_nil,
      List.cons_append, List.nil_append, List.map_append, ne_eq, not_true_eq_false, if_false,
      Join_Join_rel_empty _ hcp hcr, Join_Join_rel_empty _ hfp hfr,
      Join_Join_rel _ hcp hcr, Join_empty_right (gadgetPath_ne_empty g), s1, s2, s3, s4, s5,
      e1, e2, e3, e4, e5]
  · intro h; simp [Gadget.gadgetPath, h]
  · intro h
    have hg : g.gadgetPath = Join "/sys/kernel/config/usb_gadget" g.Name := by
      simp [Gadget.gadgetPath, h, GadgetConfigBasePath]
    exact ⟨hg, by rw [hg]; exact Clean_Join _ _ (Or.inl (by decide))⟩

/-- C10 at the gadget `g1` with the configuration `c.1` and the function `acm.usb0`. -/
theorem C10_acm_gadget_steps_witness :
    acmGadget.CreateSteps =
      [ ⟨.Mkdir, "/sys/kernel/config/usb_gadget/g1", ""⟩,
        ⟨.Write, "/sys/kernel/config/usb_gadget/g1/idVendor", "0x1d6b"⟩,
        ⟨.Write, "/sys/kernel/config/usb_gadget/g1/idProduct", "0x0104"⟩,
        ⟨.Mkdir, "/sys/kernel/config/usb_gadget/g1/strings/0x409", ""⟩,
        ⟨.Write, "/sys/kernel/config/usb_gadget/g1/strings/0x409/serialnumber", "0001"⟩,
        ⟨.Write, "/sys/kernel/config/usb_gadget/g1/strings/0x409/manufacturer", "acme"⟩,
        ⟨.Write, "/sys/kernel/config/usb_gadget/g1/strings/0x409/product", "demo"⟩,
        ⟨.Comment, "config `c.1`", ""⟩,
        ⟨.Mkdir, "/sys/kernel/config/usb_gadget/g1/configs/c.1", ""⟩,
        ⟨.Mkdir, "/sys/kernel/config/usb_gadget/g1/configs/c.1/strings/0x409", ""⟩,
        ⟨.Write, "/sys/kernel/config/usb_gadget/g1/configs/c.1/strings/0x409/configuration",
          "Example Config"⟩,
        ⟨.Comment, "config `c.1`, function `acm.usb0`", ""⟩,
        ⟨.Mkdir, "/sys/kernel/config/usb_gadget/g1/functions/acm.usb0", ""⟩,
        ⟨.Symlink, "/sys/kernel/config/usb_gadget/g1/functions/acm.usb0",
          "/sys/kernel/config/usb_gadget/g1/configs/c.1/acm.usb0"⟩ ] :=
  (C10_acm_gadget_steps acmGadget "c.1" "Example Config" "usb0" rfl rfl).1

/-- C11. The `Symlink` steps of `CreateSteps`, in order, are the (configuration, function)
references of the gadget in declared order: for the pair of the configuration `C` and the
function of canonical name `F` the step links the path `configs/<C>/<F>` under the root to
the target `functions/<F>` under the root; so there are as many `Symlink` steps as
function references. -/
theorem C11_symlinks_follow_references (g : Gadget) :
    g.CreateSteps.filter (fun s => s.Action = .Symlink) =
      g.Configs.flatMap (fun c => c.Functions.map (fun fn =>
        (⟨.Symlink, Join g.gadgetPath ("functions/" ++ fn.GadgetFunctionName),
          Join g.gadgetPath ("configs/" ++ c.Name ++ "/" ++ fn.GadgetFunctionName)⟩ : Step))) ∧
    (g.CreateSteps.filter (fun s => s.Action = .Symlink)).length =
      (g.Configs.map (fun c => c.Functions.length)).sum := by
  have h := filter_symlink_CreateSteps g
  refine ⟨h, ?_⟩
  rw [h, List.flatMap_def, List.length_flatten, List.map_map]
  congr 1
  apply List.map_congr_left
  intro c _
  simp

/-- C12. The subtree of a function is the same sequence standalone and inside a device: for
every function `fn` (of canonical name `F`) of every configuration of the gadget,
`CreateSteps` holds, one after the other, the step `Mkdir` of `functions/<F>` under the
root, the steps of `fn.GadgetFunctionCreate()` in order, each prefixed once by that path,
and the `Symlink` step that attaches `fn`. -/
theorem C12_function_subtree (g : Gadget) (c : Config) (hc : c ∈ g.Configs) (fn : Function)
    (hf : fn ∈ c.Functions) :
    ([⟨.Mkdir, Join g.gadgetPath ("functions/" ++ fn.GadgetFunctionName), ""⟩] ++
      Steps.PrependPath fn.GadgetFunctionCreate
        (Join g.gadgetPath ("functions/" ++ fn.GadgetFunctionName)) ++
      [⟨.Symlink, Join g.gadgetPath ("functions/" ++ fn.GadgetFunctionName),
        Join g.gadgetPath ("configs/" ++ c.Name ++ "/" ++ fn.GadgetFunctionName)⟩]) <:+:
      g.CreateSteps := by
  have h := functionSteps_infix_CreateSteps g hc hf
  rw [PrependPath_functionSteps] at h
  exact (List.suffix_cons _ _).isInfix.trans h

/-- C12 at the mass-storage function of the second configuration of a sample gadget. -/
theorem C12_function_subtree_witness :
    ([ ⟨.Mkdir, "/sys/kernel/config/usb_gadget/g1/functions/mass_storage.0", ""⟩,
       ⟨.MkdirCreateOnly, "/sys/kernel/config/usb_gadget/g1/functions/mass_storage.0/lun.0", ""⟩,
       ⟨.Write, "/sys/kernel/config/usb_gadget/g1/functions/mass_storage.0/lun.0/file",
         "/srv/disk.img"⟩,
       ⟨.Write, "/sys/kernel/config/usb_gadget/g1/functions/mass_storage.0/lun.0/removable", "1"⟩,
       ⟨.Write, "/sys/kernel/config/usb_gadget/g1/functions/mass_storage.0/lun.0/cdrom", "0"⟩,
       ⟨.Symlink, "/sys/kernel/config/usb_gadget/g1/functions/mass_storage.0",
         "/sys/kernel/config/usb_gadget/g1/configs/c.2/mass_storage.0"⟩ ] : Steps) <:+:
      multiGadget.CreateSteps :=
  C12_function_subtree multiGadget
    ⟨"c.2", "Second", [.MassStorage "0" [⟨"0", "/srv/disk.img", true, false⟩]]⟩ (by decide)
    (.MassStorage "0" [⟨"0", "/srv/disk.img", true, false⟩]) (by decide)

/-- C13, as stated, fails: for the gadget `g1` with a configuration named `../../x` the root
is `/sys/kernel/config/usb_gadget/g1` and `CreateSteps` holds the step `Mkdir` of
`/sys/kernel/config/usb_gadget/x`, a path that does not begin with the root and is not
below it. -/
theorem C13_counterexample :
    climbGadget.gadgetPath = "/sys/kernel/config/usb_gadget/g1" ∧
    (¬ ∀ s ∈ climbGadget.CreateSteps, s.Action ≠ .Comment →
      s.Arg0 = climbGadget.gadgetPath ∨ (climbGadget.gadgetPath ++ "/").data <+: s.Arg0.data) ∧
    (¬ ∀ s ∈ climbGadget.CreateSteps, s.Action ≠ .Comment →
      WithinRoot s.Arg0 climbGadget.gadgetPath) :=
  ⟨by decide,
    fun h => absurd (h ⟨.Mkdir, "/sys/kernel/config/usb_gadget/x", ""⟩ (by decide) (by decide))
      (by decide),
    fun h => absurd (h ⟨.Mkdir, "/sys/kernel/config/usb_gadget/x", ""⟩ (by decide) (by decide))
      (by decide)⟩

/-- C13, amended. For a gadget none of whose names has an element `..` (configuration names,
canonical function names, the directories `lun.<name>` of logical units), with the root `R`:
the path `Arg0` of every step of `CreateSteps` other than a `Comment`, and the link path
`Arg1` of every `Symlink`, is at or below `R` (its cleaned elements begin with those of `R`),
and when `R` has an element its text is the cleaned `R` or begins with the cleaned `R`
followed by a separator; a root derived from the name of the gadget is clean. -/
theorem C13_paths_under_root (g : Gadget) (hg : g.NoDotDotNames) :
    (∀ s ∈ g.CreateSteps, s.Action ≠ .Comment →
      WithinRoot s.Arg0 g.gadgetPath ∧
      (elemsOf g.gadgetPath.data ≠ [] → BeginsWithRoot s.Arg0 g.gadgetPath)) ∧
    (∀ s ∈ g.CreateSteps, s.Action = .Symlink →
      WithinRoot s.Arg1 g.gadgetPath ∧
      (elemsOf g.gadgetPath.data ≠ [] → BeginsWithRoot s.Arg1 g.gadgetPath)) ∧
    (g.GadgetPath = "" → Clean g.gadgetPath = g.gadgetPath) := by
  refine ⟨?_, ?_, ?_⟩
  · intro s hs ha
    obtain ⟨t, ht, rfl⟩ := mem_CreateSteps hs
    rw [Step.PrependPath_action] at ha
    obtain ⟨x, hx, e⟩ := (below_of_RelStepOK (RelStepOK_relSteps hg t ht) g.gadgetPath).1 ha
    rw [e]
    exact ⟨WithinRoot_Join _ hx, fun he => BeginsWithRoot_Join (gadgetPath_ne_empty g) he hx⟩
  · intro s hs ha
    obtain ⟨t, ht, rfl⟩ := mem_CreateSteps hs
    rw [Step.PrependPath_action] at ha
    obtain ⟨y, hy, e⟩ := (below_of_RelStepOK (RelStepOK_relSteps hg t ht) g.gadgetPath).2 ha
    rw [e]
    exact ⟨WithinRoot_Join _ hy, fun he => BeginsWithRoot_Join (gadgetPath_ne_empty g) he hy⟩
  · intro h
    simp only [Gadget.gadgetPath, h, ne_eq, not_true_eq_false, if_false]
    exact Clean_Join _ _ (Or.inl (by decide))

/-- C13, amended, at a gadget with two configurations: the link path of the mass-storage
function is below the root `/sys/kernel/config/usb_gadget/g1`. -/
theorem C13_paths_under_root_witness :
    multiGadget.NoDotDotNames ∧
    multiGadget.gadgetPath = "/sys/kernel/config/usb_gadget/g1" ∧
    (WithinRoot "/sys/kernel/config/usb_gadget/g1/configs/c.2/mass_storage.0"
        multiGadget.gadgetPath ∧
      (elemsOf multiGadget.gadgetPath.data ≠ [] →
        BeginsWithRoot "/sys/kernel/config/usb_gadget/g1/configs/c.2/mass_storage.0"
          multiGadget.gadgetPath)) :=
  ⟨by decide, by decide,
    (C13_paths_under_root multiGadget (by decide)).2.1
      ⟨.Symlink, "/sys/kernel/config/usb_gadget/g1/functions/mass_storage.0",
        "/sys/kernel/config/usb_gadget/g1/configs/c.2/mass_storage.0"⟩ (by decide) rfl⟩

/-- C14, as stated, fails: for the gadget `g1` with the ACM function named `a/b` in the
configuration `c.1`, step 13 of `CreateSteps` is the `Symlink` with the link path
`<root>/configs/c.1/acm.a/b`, and no step of `CreateSteps`, before or after it, is a
directory creation of the parent `<root>/configs/c.1/acm.a` of that path. -/
theorem C14_counterexample :
    nestedFunctionGadget.CreateSteps[13]? =
      some ⟨.Symlink, "/sys/kernel/config/usb_gadget/g1/functions/acm.a/b",
        "/sys/kernel/config/usb_gadget/g1/configs/c.1/acm.a/b"⟩ ∧
    (∀ m ∈ nestedFunctionGadget.CreateSteps,
      m.Arg0 ≠ "/sys/kernel/config/usb_gadget/g1/configs/c.1/acm.a" ∧
      ¬ ParentDir m.Arg0 "/sys/kernel/config/usb_gadget/g1/configs/c.1/acm.a/b") ∧
    ¬ (∀ (i : Nat) (s : Step), nestedFunctionGadget.CreateSteps[i]? = some s →
      s.Action = .Symlink →
      ∃ j m, j < i ∧ nestedFunctionGadget.CreateSteps[j]? = some m ∧
        (m.Action = .Mkdir ∨ m.Action = .MkdirCreateOnly) ∧ ParentDir m.Arg0 s.Arg1) := by
  have h : ∀ m ∈ nestedFunctionGadget.CreateSteps,
      m.Arg0 ≠ "/sys/kernel/config/usb_gadget/g1/configs/c.1/acm.a" ∧
      ¬ ParentDir m.Arg0 "/sys/kernel/config/usb_gadget/g1/configs/c.1/acm.a/b" := by decide
  refine ⟨by decide, h, ?_⟩
  intro hall
  obtain ⟨j, m, _, hm, _, hp⟩ := hall 13
    ⟨.Symlink, "/sys/kernel/config/usb_gadget/g1/functions/acm.a/b",
      "/sys/kernel/config/usb_gadget/g1/configs/c.1/acm.a/b"⟩ (by decide) rfl
  exact (h m (List.mem_iff_getElem?.2 ⟨j, hm⟩)).2 hp

/-- C14, amended. For a gadget no canonical function name of which holds a separator
(configuration and logical-unit names are free), a directory-creation step precedes every
write and every link: for every `Write` or `WriteBinary` step at index `i` of `CreateSteps`
with the path `p`, and for every `Symlink` step at index `i` with the link path `p`, there
is an index `j < i` whose step is a `Mkdir` or `MkdirCreateOnly` of the parent directory of
`p`. -/
theorem C14_mkdir_precedes (g : Gadget) (hg : g.FlatFunctionNames) :
    (∀ (i : Nat) (s : Step), g.CreateSteps[i]? = some s →
      s.Action = .Write ∨ s.Action = .WriteBinary →
      ∃ j m, j < i ∧ g.CreateSteps[j]? = some m ∧
        (m.Action = .Mkdir ∨ m.Action = .MkdirCreateOnly) ∧ ParentDir m.Arg0 s.Arg0) ∧
    (∀ (i : Nat) (s : Step), g.CreateSteps[i]? = some s →
      s.Action = .Symlink →
      ∃ j m, j < i ∧ g.CreateSteps[j]? = some m ∧
        (m.Action = .Mkdir ∨ m.Action = .MkdirCreateOnly) ∧ ParentDir m.Arg0 s.Arg1) := by
  constructor
  · intro i s hi ha
    apply CreateSteps_dir_first hg hi
    obtain ⟨act, x, y⟩ := s
    rcases ha with ha | ha <;> (simp only at ha; subst ha; rfl)
  · intro i s hi ha
    apply CreateSteps_dir_first hg hi
    obtain ⟨act, x, y⟩ := s
    simp only at ha; subst ha; rfl

/-- C14, amended, at a gadget with a mass-storage function: the write of `lun.0/file`
(step 21) comes after the creation of the directory `lun.0`, and the link of the function
(step 24) after the creation of the directory of its configuration. -/
theorem C14_mkdir_precedes_witness :
    multiGadget.FlatFunctionNames ∧
    (∃ j m, j < 21 ∧ multiGadget.CreateSteps[j]? = some m ∧
      (m.Action = .Mkdir ∨ m.Action = .MkdirCreateOnly) ∧
      ParentDir m.Arg0 "/sys/kernel/config/usb_gadget/g1/functions/mass_storage.0/lun.0/file") ∧
    (∃ j m, j < 24 ∧ multiGadget.CreateSteps[j]? = some m ∧
      (m.Action = .Mkdir ∨ m.Action = .MkdirCreateOnly) ∧
      ParentDir m.Arg0 "/sys/kernel/config/usb_gadget/g1/configs/c.2/mass_storage.0") :=
  ⟨by decide,
    (C14_mkdir_precedes multiGadget (by decide)).1 21
      ⟨.Write, "/sys/kernel/config/usb_gadget/g1/functions/mass_storage.0/lun.0/file",
        "/srv/disk.img"⟩ (by decide) (Or.inl rfl),
    (C14_mkdir_precedes multiGadget (by decide)).2 24
      ⟨.Symlink, "/sys/kernel/config/usb_gadget/g1/functions/mass_storage.0",
        "/sys/kernel/config/usb_gadget/g1/configs/c.2/mass_storage.0"⟩ (by decide) rfl⟩

/-- C15. The steps of a mass-storage function with the logical units `luns` are the
concatenation, in declared order, of one block of four steps for each unit:
`MkdirCreateOnly lun.<name>`, `Write lun.<name>/file` of `File`, `Write lun.<name>/removable`
and `Write lun.<name>/cdrom` of `1` or `0`, with the paths joined by `Join` (they are the
literal texts when the unit name holds no separator); so there are `4 * N` steps, and the
steps of `xs ++ ys` are those of `xs` followed by those of `ys`. -/
theorem C15_massStorage_blocks :
    (∀ (n : String) (luns : List MassStorageLun),
      Function.GadgetFunctionCreate (.MassStorage n luns) = luns.flatMap lunBlock ∧
      (Function.GadgetFunctionCreate (.MassStorage n luns)).length = 4 * luns.length) ∧
    (∀ (n : String) (xs ys : List MassStorageLun),
      Function.GadgetFunctionCreate (.MassStorage n (xs ++ ys)) =
        Function.GadgetFunctionCreate (.MassStorage n xs) ++
          Function.GadgetFunctionCreate (.MassStorage n ys)) ∧
    (∀ u : MassStorageLun, lunBlock u =
      [ ⟨.MkdirCreateOnly, Join ("lun." ++ u.Name) "", ""⟩,
        ⟨.Write, Join ("lun." ++ u.Name) "file", u.File⟩,
        ⟨.Write, Join ("lun." ++ u.Name) "removable", if u.Removable then "1" else "0"⟩,
        ⟨.Write, Join ("lun." ++ u.Name) "cdrom", if u.Cdrom then "1" else "0"⟩ ]) ∧
    (∀ u : MassStorageLun, '/' ∉ u.Name.data →
      Join ("lun." ++ u.Name) "" = "lun." ++ u.Name ∧
      Join ("lun." ++ u.Name) "file" = "lun." ++ u.Name ++ "/file" ∧
      Join ("lun." ++ u.Name) "removable" = "lun." ++ u.Name ++ "/removable" ∧
      Join ("lun." ++ u.Name) "cdrom" = "lun." ++ u.Name ++ "/cdrom") := by
  have hc : ∀ (n : String) (luns : List MassStorageLun),
      Function.GadgetFunctionCreate (.MassStorage n luns) = luns.flatMap lunBlock := by
    intro n luns
    rw [GadgetFunctionCreate_massStorage]
    exact congrArg (fun f => luns.flatMap f) (funext lunSteps_eq)
  refine ⟨fun n luns => ⟨hc n luns, ?_⟩, ?_, fun u => rfl, ?_⟩
  · rw [hc]
    induction luns with
    | nil => rfl
    | cons u us ih => simp [List.flatMap_cons, ih, lunBlock]; omega
  · intro n xs ys
    simp [hc, List.flatMap_append]
  · intro u hu
    obtain ⟨h1, h2⟩ := lunPath_plain hu
    have e1 : "lun." ++ u.Name ++ "/" ++ "file" = "lun." ++ u.Name ++ "/file" :=
      String.ext (by simp [String.data_append])
    have e2 : "lun." ++ u.Name ++ "/" ++ "removable" = "lun." ++ u.Name ++ "/removable" :=
      String.ext (by simp [String.data_append])
    have e3 : "lun." ++ u.Name ++ "/" ++ "cdrom" = "lun." ++ u.Name ++ "/cdrom" :=
      String.ext (by simp [String.data_append])
    exact ⟨Join_name_empty h1 h2, (Join_name_name h1 h2 (by decide) (by decide)).trans e1,
      (Join_name_name h1 h2 (by decide) (by decide)).trans e2,
      (Join_name_name h1 h2 (by decide) (by decide)).trans e3⟩

/-- C15 at the logical unit `0`: the literal paths. -/
theorem C15_massStorage_blocks_witness :
    Function.GadgetFunctionCreate (.MassStorage "0" [⟨"0", "/srv/disk.img", true, false⟩]) =
      [ ⟨.MkdirCreateOnly, "lun.0", ""⟩, ⟨.Write, "lun.0/file", "/srv/disk.img"⟩,
        ⟨.Write, "lun.0/removable", "1"⟩, ⟨.Write, "lun.0/cdrom", "0"⟩ ] ∧
    Join ("lun." ++ "0") "file" = "lun." ++ "0" ++ "/file" :=
  ⟨by decide, (C15_massStorage_blocks.2.2.2 ⟨"0", "/srv/disk.img", true, false⟩
    (by decide)).2.1⟩

/-- C16. Base64 round trip of binary writes: for every byte sequence `d` and path `p`, the
shell rendering of the step `WriteBinary p d` is `echo "<b64>" | base64 -d | tee p`, where
`<b64>` is the standard base64 text of `d`, and the standard decoding of `<b64>` is `d`. -/
theorem C16_base64_round_trip (d : List Nat) (p : String) (hd : ∀ b ∈ d, b < 256) :
    Step.ShellArgs ⟨.WriteBinary, p, bytesToString d⟩ =
      ["echo", "\"" ++ EncodeToString d ++ "\"", "|", "base64", "-d", "|", "tee", p] ∧
    DecodeString (EncodeToString d) = some d := by
  refine ⟨?_, base64Decode_encode d hd⟩
  simp [Step.ShellArgs, stringBytes_bytesToString d hd, sprintfQuoted]

/-- C16 at the report descriptor `05 01 09`: the payload `BQEJ` decodes back to it. -/
theorem C16_base64_round_trip_witness :
    Step.ShellArgs ⟨.WriteBinary, "report_desc", bytesToString [0x05, 0x01, 0x09]⟩ =
      ["echo", "\"BQEJ\"", "|", "base64", "-d", "|", "tee", "report_desc"] ∧
    DecodeString "BQEJ" = some [0x05, 0x01, 0x09] :=
  C16_base64_round_trip [0x05, 0x01, 0x09] "report_desc" (by decide)

/-- C17. `Step.ShellArgs` follows the rendering table: `Mkdir` and `MkdirCreateOnly` give
`mkdir -p path`, `Rmdir` gives `rmdir path`, `Write` gives `echo "content" | tee path`,
`Remove` gives `rm -f path`, `Symlink` gives `ln -s target link`, `Comment` gives `# text`
and `Noop` gives no argument; `Steps.ShellArgs` renders a sequence element-wise, with the
same length and order; `Dump` writes one line for each argument list that is not empty,
the arguments joined by single spaces, and skips the empty ones. -/
theorem C17_ShellArgs_table :
    (∀ p x : String, Step.ShellArgs ⟨.Mkdir, p, x⟩ = ["mkdir", "-p", p]) ∧
    (∀ p x : String, Step.ShellArgs ⟨.MkdirCreateOnly, p, x⟩ = ["mkdir", "-p", p]) ∧
    (∀ p x : String, Step.ShellArgs ⟨.Rmdir, p, x⟩ = ["rmdir", p]) ∧
    (∀ p c : String, Step.ShellArgs ⟨.Write, p, c⟩ = ["echo", "\"" ++ c ++ "\"", "|", "tee", p]) ∧
    (∀ p x : String, Step.ShellArgs ⟨.Remove, p, x⟩ = ["rm", "-f", p]) ∧
    (∀ t l : String, Step.ShellArgs ⟨.Symlink, t, l⟩ = ["ln", "-s", t, l]) ∧
    (∀ t x : String, Step.ShellArgs ⟨.Comment, t, x⟩ = ["#", t]) ∧
    (∀ x y : String, Step.ShellArgs ⟨.Noop, x, y⟩ = []) ∧
    (∀ ss : Steps, (Steps.ShellArgs ss).length = ss.length ∧
      ∀ i : Nat, (Steps.ShellArgs ss)[i]? = ss[i]?.map Step.ShellArgs) ∧
    (∀ shs : ShellSteps,
      ShellSteps.Dump shs = String.join ((ShellSteps.dumpLines shs).map (fun l => l ++ "\n"))) ∧
    ShellSteps.dumpLines [] = [] ∧
    (∀ shs : ShellSteps, ShellSteps.dumpLines ([] :: shs) = ShellSteps.dumpLines shs) ∧
    (∀ (a : String) (args : List String) (shs : ShellSteps),
      ShellSteps.dumpLines ((a :: args) :: shs) =
        " ".intercalate (a :: args) :: ShellSteps.dumpLines shs) := by
  refine ⟨fun _ _ => rfl, fun _ _ => rfl, fun _ _ => rfl, fun _ _ => rfl, fun _ _ => rfl,
    fun _ _ => rfl, fun _ _ => rfl, fun _ _ => rfl, ?_, fun _ => rfl, rfl, ?_, ?_⟩
  · intro ss
    exact ⟨by simp [Steps.ShellArgs], fun i => by simp [Steps.ShellArgs]⟩
  · intro shs
    simp [ShellSteps.dumpLines]
  · intro a args shs
    simp [ShellSteps.dumpLines, joinSpace_eq_intercalate]

/-- C18, as stated, fails: with every unlisted field at its zero value the root is
`/sys/kernel/config/usb_gadget/g1`, and the last line of the rendering is not
`echo "fe980000.usb" | tee g1/UDC`. -/
theorem C18_counterexample :
    (ShellSteps.dumpLines scenarioGadget.ShellCreate).getLast? ≠
      some "echo \"fe980000.usb\" | tee g1/UDC" := by
  decide

/-- C18, amended. For the gadget of the scenario the shell rendering of `CreateSteps` is the
19 lines below, ending with the write of the controller binding to
`/sys/kernel/config/usb_gadget/g1/UDC`; the last line is `echo "fe980000.usb" | tee g1/UDC`
when `GadgetPath` is set to `g1`. -/
theorem C18_scenario_rendering :
    ShellSteps.dumpLines scenarioGadget.ShellCreate =
      [ "mkdir -p /sys/kernel/config/usb_gadget/g1",
        "echo \"0x1d6b\" | tee /sys/kernel/config/usb_gadget/g1/idVendor",
        "echo \"0x0104\" | tee /sys/kernel/config/usb_gadget/g1/idProduct",
        "mkdir -p /sys/kernel/config/usb_gadget/g1/strings/0x409",
        "echo \"\" | tee /sys/kernel/config/usb_gadget/g1/strings/0x409/serialnumber",
        "echo \"\" | tee /sys/kernel/config/usb_gadget/g1/strings/0x409/manufacturer",
        "echo \"\" | tee /sys/kernel/config/usb_gadget/g1/strings/0x409/product",
        "# config `c.1`",
        "mkdir -p /sys/kernel/config/usb_gadget/g1/configs/c.1",
        "mkdir -p /sys/kernel/config/usb_gadget/g1/configs/c.1/strings/0x409",
        "echo \"Example Config\" | tee /sys/kernel/config/usb_gadget/g1/configs/c.1/strings/0x409/configuration",
        "# config `c.1`, function `hid.kbd`",
        "mkdir -p /sys/kernel/config/usb_gadget/g1/functions/hid.kbd",
        "echo \"1\" | tee /sys/kernel/config/usb_gadget/g1/functions/hid.kbd/protocol",
        "echo \"1\" | tee /sys/kernel/config/usb_gadget/g1/functions/hid.kbd/subclass",
        "echo \"8\" | tee /sys/kernel/config/usb_gadget/g1/functions/hid.kbd/report_length",
        "echo \"BQE=\" | base64 -d | tee /sys/kernel/config/usb_gadget/g1/functions/hid.kbd/report_desc",
        "ln -s /sys/kernel/config/usb_gadget/g1/functions/hid.kbd /sys/kernel/config/usb_gadget/g1/configs/c.1/hid.kbd",
        "echo \"fe980000.usb\" | tee /sys/kernel/config/usb_gadget/g1/UDC" ] ∧
    (ShellSteps.dumpLines scenarioGadget.ShellCreate).getLast? =
      some "echo \"fe980000.usb\" | tee /sys/kernel/config/usb_gadget/g1/UDC" ∧
    (ShellSteps.dumpLines ({ scenarioGadget with GadgetPath := "g1" } : Gadget).ShellCreate).getLast? =
      some "echo \"fe980000.usb\" | tee g1/UDC" := by
  decide

/-- C19. `Steps.Run` executes the steps in list order and aborts at the first failure, for
every execution `stepRun` of one step, every sequence and every initial state. It returns no
error exactly when every step succeeds (each in the state its predecessors leave), and then
every step was executed once, in order. It returns the error of index `i`, step `s` and
cause `e` exactly when `s` is the step of index `i`, it fails with `e`, and every step before
it succeeds (so `i` is the least failing index); then the steps executed are the steps
`0..i` once each in order: no later step and no undo of an applied step. -/
theorem C19_Run_aborts_at_first_failure {σ ε : Type} (stepRun : Step → σ → σ × Option ε)
    (steps : Steps) (w : σ) :
    ((Steps.Run stepRun steps w).2 = none ↔
      ∀ k, Steps.outcomeAt stepRun steps w k = none) ∧
    ((Steps.Run stepRun steps w).2 = none →
      (Steps.Run stepRun steps w).1 = Steps.stateAfter stepRun steps w ∧
      (Steps.Run (traced stepRun) steps ([], w)).1.1 = steps) ∧
    (∀ (i : Nat) (s : Step) (e : ε),
      (Steps.Run stepRun steps w).2 = some ⟨i, s, e⟩ ↔
        steps[i]? = some s ∧ Steps.outcomeAt stepRun steps w i = some e ∧
        ∀ k, k < i → Steps.outcomeAt stepRun steps w k = none) ∧
    (∀ (i : Nat) (s : Step) (e : ε),
      (Steps.Run stepRun steps w).2 = some ⟨i, s, e⟩ →
        (Steps.Run stepRun steps w).1 = Steps.stateAfter stepRun (steps.take (i + 1)) w ∧
        (Steps.Run (traced stepRun) steps ([], w)).1.1 = steps.take (i + 1)) := by
  have ht := (runFrom_traced stepRun steps 0 [] w).2.2
  simp only [List.nil_append, Nat.sub_zero] at ht
  unfold Steps.Run
  rcases runFrom_spec stepRun steps 0 w with ⟨h1, h2, h3⟩ | ⟨i0, s0, e0, h1, h2, h3, h4, h5⟩
  · rw [h1] at ht
    refine ⟨⟨fun _ => h2, fun _ => h1⟩, fun _ => ⟨h3, ht⟩, fun i s e => ⟨?_, ?_⟩, ?_⟩
    · intro h; rw [h1] at h; cases h
    · rintro ⟨_, h, _⟩; rw [h2 i] at h; cases h
    · intro i s e h; rw [h1] at h; cases h
  · rw [Nat.zero_add] at h1
    rw [h1] at ht
    refine ⟨⟨?_, ?_⟩, ?_, fun i s e => ⟨?_, ?_⟩, ?_⟩
    · intro h; rw [h1] at h; cases h
    · intro h; rw [h i0] at h3; cases h3
    · intro h; rw [h1] at h; cases h
    · intro h
      rw [h1] at h
      simp only [Option.some.injEq, RunError.mk.injEq] at h
      obtain ⟨rfl, rfl, rfl⟩ := h
      exact ⟨h2, h3, h4⟩
    · rintro ⟨g2, g3, g4⟩
      have hi : i = i0 := by
        rcases Nat.lt_trichotomy i i0 with hlt | heq | hgt
        · rw [h4 i hlt] at g3; cases g3
        · exact heq
        · rw [g4 i0 hgt] at h3; cases h3
      subst hi
      rw [h2] at g2
      rw [h3] at g3
      simp only [Option.some.injEq] at g2 g3
      rw [h1, g2, g3]
    · intro i s e h
      rw [h1] at h
      simp only [Option.some.injEq, RunError.mk.injEq] at h
      obtain ⟨rfl, rfl, rfl⟩ := h
      exact ⟨h5, ht⟩

/-- C19 at a sequence whose third step fails: the error names the index 2 and the step
`Rmdir c`, and the steps executed are the first three. -/
theorem C19_Run_aborts_at_first_failure_witness :
    (Steps.Run sampleStepRun
        [⟨.Mkdir, "a", ""⟩, ⟨.Write, "b", "1"⟩, ⟨.Rmdir, "c", ""⟩, ⟨.Rmdir, "d", ""⟩,
          ⟨.Write, "e", "2"⟩] []).2 = some ⟨2, ⟨.Rmdir, "c", ""⟩, "busy"⟩ ∧
    (Steps.Run sampleStepRun
        [⟨.Mkdir, "a", ""⟩, ⟨.Write, "b", "1"⟩, ⟨.Rmdir, "c", ""⟩, ⟨.Rmdir, "d", ""⟩,
          ⟨.Write, "e", "2"⟩] []).1 =
      [⟨.Mkdir, "a", ""⟩, ⟨.Write, "b", "1"⟩, ⟨.Rmdir, "c", ""⟩] ∧
    (Steps.Run (traced sampleStepRun)
        [⟨.Mkdir, "a", ""⟩, ⟨.Write, "b", "1"⟩, ⟨.Rmdir, "c", ""⟩, ⟨.Rmdir, "d", ""⟩,
          ⟨.Write, "e", "2"⟩] ([], [])).1.1 =
      [⟨.Mkdir, "a", ""⟩, ⟨.Write, "b", "1"⟩, ⟨.Rmdir, "c", ""⟩] :=
  ⟨by decide, by decide,
    ((C19_Run_aborts_at_first_failure sampleStepRun
      [⟨.Mkdir, "a", ""⟩, ⟨.Write, "b", "1"⟩, ⟨.Rmdir, "c", ""⟩, ⟨.Rmdir, "d", ""⟩,
        ⟨.Write, "e", "2"⟩] []).2.2.2 2 ⟨.Rmdir, "c", ""⟩ "busy" (by decide)).2⟩

/-- C20. `TypeText` fails with the no-mapping error at the first unmapped byte, for every
device, text, keymap (`USQwertyKeyboard` when the keymap is `nil`) and state. If the bytes of
the text are `pre`, then `c`, then `post`, the bytes of `pre` are mapped to the keys `ks`, all
other than 0, `c` has no entry or is mapped to the key 0, and pressing the keys `ks` fails
nowhere, then `TypeText` returns `MissingKeymapError(c)` and leaves the device in the state
that pressing `ks` leaves: nothing is sent for `c` or for a later byte. If every byte of the
text is mapped to a key other than 0, `TypeText` presses these keys and returns the error of
the device, if any, and never a `MissingKeymapError`. -/
theorem C20_TypeText_missing_keymap {σ ε : Type} (dev : Device σ ε) (text : String)
    (keymap : Option Keymap) (w : σ) :
    (∀ (pre : List Nat) (c : Nat) (post : List Nat) (ks : List Key),
      stringBytes text = pre ++ c :: post →
      pre.map (keymap.getD USQwertyKeyboard).get = ks.map some →
      (∀ k ∈ ks, k ≠ 0) →
      (keymap.getD USQwertyKeyboard).get c = none ∨
        (keymap.getD USQwertyKeyboard).get c = some 0 →
      (dev.PressKeys ks w).2 = none →
      dev.TypeText text keymap w = ((dev.PressKeys ks w).1, some (.MissingKeymapError c))) ∧
    (∀ ks : List Key,
      (stringBytes text).map (keymap.getD USQwertyKeyboard).get = ks.map some →
      (∀ k ∈ ks, k ≠ 0) →
      dev.TypeText text keymap w =
        ((dev.PressKeys ks w).1, (dev.PressKeys ks w).2.map .device) ∧
      ∀ c, (dev.TypeText text keymap w).2 ≠ some (.MissingKeymapError c)) := by
  have hT : dev.TypeText text keymap w =
      dev.typeBytes (keymap.getD USQwertyKeyboard) (stringBytes text) w := by
    cases keymap <;> rfl
  constructor
  · intro pre c post ks ht hm h0 hc hp
    rw [hT, ht, typeBytes_mapped dev _ pre (c :: post) ks w hm h0, hp]
    simp only
    rcases hc with hc | hc
    · simp [Device.typeBytes, hc]
    · simp [Device.typeBytes, hc]
  · intro ks hm h0
    have h := typeBytes_mapped dev _ (stringBytes text) [] ks w hm h0
    rw [List.append_nil] at h
    have e : dev.TypeText text keymap w =
        ((dev.PressKeys ks w).1, (dev.PressKeys ks w).2.map .device) := by
      rw [hT, h]
      cases (dev.PressKeys ks w).2 <;> simp [Device.typeBytes]
    refine ⟨e, fun c hc => ?_⟩
    rw [e] at hc
    cases h2 : (dev.PressKeys ks w).2 <;> simp [h2] at hc

/-- C20 at the text `Hi`, the byte 127 and `!`, with the `nil` keymap: the reports of `H`
(left shift and key code 0x0B) and of `i` (key code 0x0C) are written, each followed by the
empty report, then `TypeText` returns the no-mapping error of the byte 127 and writes
nothing more. -/
theorem C20_TypeText_missing_keymap_witness :
    (logDevice.PressKeys [Key_LeftShift ||| Key_H, Key_I] []).1 =
      [ [2, 0, 0x0B, 0, 0, 0, 0, 0], [0, 0, 0, 0, 0, 0, 0, 0],
        [0, 0, 0x0C, 0, 0, 0, 0, 0], [0, 0, 0, 0, 0, 0, 0, 0] ] ∧
    logDevice.TypeText "Hi\x7f!" none [] =
      ((logDevice.PressKeys [Key_LeftShift ||| Key_H, Key_I] []).1,
        some (.MissingKeymapError 127)) :=
  ⟨by decide,
    (C20_TypeText_missing_keymap logDevice "Hi\x7f!" none []).1 [72, 105] 127 [33]
      [Key_LeftShift ||| Key_H, Key_I] (by decide) (by decide) (by decide) (by decide)
      (by decide)⟩

/-- C21, as stated, fails for `PrependPath`: on the sequence of the one step `Mkdir a`,
`PrependPath("x")` leaves the sequence with the step `Mkdir x/a`. -/
theorem C21_counterexample :
    Heap.steps [[⟨.Mkdir, "a", ""⟩]] ⟨0, 0, 1⟩ = [⟨.Mkdir, "a", ""⟩] ∧
    Heap.steps (Mem.PrependPath [[⟨.Mkdir, "a", ""⟩]] ⟨0, 0, 1⟩ "x").1 ⟨0, 0, 1⟩ =
      [⟨.Mkdir, "x/a", ""⟩] ∧
    ¬ (∀ (h : Heap) (r : StepsRef) (p : String), h.Valid r →
      Heap.steps (Mem.PrependPath h r p).1 r = h.steps r) :=
  ⟨by decide, by decide,
    fun hall => absurd (hall [[⟨.Mkdir, "a", ""⟩]] ⟨0, 0, 1⟩ "x" (by decide)) (by decide)⟩

/-- C21, amended. For every memory, sequence `S` and path `p`: `S.Undo()` and `S.Reverse()`
return a sequence in a new backing array, holding the undone and the reversed elements of
`S`, and leave every element of every sequence in memory, `S` included, as it was;
`S.PrependPath(p)` returns `S` itself and updates it in place: after the call each element
of `S` is the prefixed element, while the sequences in other backing arrays and the elements
of the backing array of `S` outside `S` are as they were. -/
theorem C21_transformations_in_memory (h : Heap) (r : StepsRef) (p : String) :
    ((∀ q : StepsRef, q.arr < h.length → Heap.steps (Mem.Undo h r).1 q = h.steps q) ∧
      (Mem.Undo h r).2.arr = h.length ∧
      (h.Valid r → Heap.steps (Mem.Undo h r).1 (Mem.Undo h r).2 = Steps.Undo (h.steps r))) ∧
    ((∀ q : StepsRef, q.arr < h.length → Heap.steps (Mem.Reverse h r).1 q = h.steps q) ∧
      (Mem.Reverse h r).2.arr = h.length ∧
      (h.Valid r →
        Heap.steps (Mem.Reverse h r).1 (Mem.Reverse h r).2 = Steps.Reverse (h.steps r))) ∧
    ((Mem.PrependPath h r p).2 = r ∧
      (h.Valid r →
        Heap.steps (Mem.PrependPath h r p).1 r = Steps.PrependPath (h.steps r) p) ∧
      (∀ q : StepsRef, q.arr ≠ r.arr → Heap.steps (Mem.PrependPath h r p).1 q = h.steps q) ∧
      (h.Valid r →
        (Heap.array (Mem.PrependPath h r p).1 r).take r.off = (h.array r).take r.off ∧
        (Heap.array (Mem.PrependPath h r p).1 r).drop (r.off + r.len) =
          (h.array r).drop (r.off + r.len))) := by
  refine ⟨⟨?_, ?_, Mem.Undo_steps h r⟩, ⟨?_, ?_, Mem.Reverse_steps h r⟩, rfl, ?_, ?_, ?_⟩
  · intro q hq
    rw [Mem.Undo_eq]
    exact Heap.steps_append_old h _ q hq
  · rw [Mem.Undo_eq]
  · intro q hq
    rw [Mem.Reverse_eq]
    exact Heap.steps_append_old h _ q hq
  · rw [Mem.Reverse_eq]
  · intro hv
    have hp : ((h.array r).take r.off).length = r.off := by
      unfold Heap.Valid at hv
      simp [List.length_take]; omega
    have hw : (Steps.PrependPath (h.steps r) p).length = r.len := by
      simp [Steps.PrependPath, Heap.steps_length hv]
    rw [Heap.steps, Mem.PrependPath_array h r p hv]
    exact (take_drop_window _ _ _ r.off r.len hp hw).1
  · intro q hq
    rw [Mem.PrependPath, Heap.steps, Heap.array_set_ne _ _ _ _ hq]
    rfl
  · intro hv
    have hp : ((h.array r).take r.off).length = r.off := by
      unfold Heap.Valid at hv
      simp [List.length_take]; omega
    have hw : (Steps.PrependPath (h.steps r) p).length = r.len := by
      simp [Steps.PrependPath, Heap.steps_length hv]
    rw [Mem.PrependPath_array h r p hv]
    exact (take_drop_window _ _ _ r.off r.len hp hw).2

/-- C21, amended, at a memory with one array of three steps and the sequence of its last
two: `Undo` leaves the sequence as it is and returns the new sequence of the undone steps;
`PrependPath` returns the sequence itself, now holding the prefixed steps. -/
theorem C21_transformations_in_memory_witness :
    Heap.steps (Mem.Undo [[⟨.Comment, "c", ""⟩, ⟨.Mkdir, "a", ""⟩, ⟨.Write, "b", "1"⟩]]
        ⟨0, 1, 2⟩).1 ⟨0, 1, 2⟩ = [⟨.Mkdir, "a", ""⟩, ⟨.Write, "b", "1"⟩] ∧
    Mem.Undo [[⟨.Comment, "c", ""⟩, ⟨.Mkdir, "a", ""⟩, ⟨.Write, "b", "1"⟩]] ⟨0, 1, 2⟩ =
      ([[⟨.Comment, "c", ""⟩, ⟨.Mkdir, "a", ""⟩, ⟨.Write, "b", "1"⟩],
        [⟨.Rmdir, "a", ""⟩, ⟨.Noop, "", ""⟩]], ⟨1, 0, 2⟩) ∧
    Mem.PrependPath [[⟨.Comment, "c", ""⟩, ⟨.Mkdir, "a", ""⟩, ⟨.Write, "b", "1"⟩]] ⟨0, 1, 2⟩
        "x" =
      ([[⟨.Comment, "c", ""⟩, ⟨.Mkdir, "x/a", ""⟩, ⟨.Write, "x/b", "1"⟩]], ⟨0, 1, 2⟩) ∧
    Heap.steps
        (Mem.PrependPath [[⟨.Comment, "c", ""⟩, ⟨.Mkdir, "a", ""⟩, ⟨.Write, "b", "1"⟩]]
          ⟨0, 1, 2⟩ "x").1 ⟨0, 1, 2⟩ =
      Steps.PrependPath
        (Heap.steps [[⟨.Comment, "c", ""⟩, ⟨.Mkdir, "a", ""⟩, ⟨.Write, "b", "1"⟩]] ⟨0, 1, 2⟩)
        "x" :=
  ⟨by decide, by decide, by decide,
    (C21_transformations_in_memory
      [[⟨.Comment, "c", ""⟩, ⟨.Mkdir, "a", ""⟩, ⟨.Write, "b", "1"⟩]] ⟨0, 1, 2⟩ "x").2.2.2.1
      (by decide)⟩

/-- C22. Executing a write step with empty content is a no-op: for every file system, path
`p` and state, `Run` of `Step{Write, p, ""}` and of `Step{WriteBinary, p, ""}` returns no
error and leaves the state as it is, making no call (the log of calls stays empty); with a
content `c` that is not empty it is the one call `WriteFile(p, []byte(c), 0664)`. -/
theorem C22_empty_write_is_noop :
    (∀ {σ ε : Type} (fs : FileOps σ ε) (p : String) (w : σ),
      Step.Run fs ⟨.Write, p, ""⟩ w = (w, none) ∧
      Step.Run fs ⟨.WriteBinary, p, ""⟩ w = (w, none)) ∧
    (∀ (p : String) (log : List FsCall),
      Step.Run logOps ⟨.Write, p, ""⟩ log = (log, none) ∧
      Step.Run logOps ⟨.WriteBinary, p, ""⟩ log = (log, none)) ∧
    (∀ {σ ε : Type} (fs : FileOps σ ε) (p c : String) (w : σ), c ≠ "" →
      Step.Run fs ⟨.Write, p, c⟩ w = fs.WriteFile p (stringBytes c) 0o664 w ∧
      Step.Run fs ⟨.WriteBinary, p, c⟩ w = fs.WriteFile p (stringBytes c) 0o664 w) ∧
    (∀ (p c : String) (log : List FsCall), c ≠ "" →
      Step.Run logOps ⟨.Write, p, c⟩ log =
        (log ++ [.writeFile p (stringBytes c) 0o664], none) ∧
      Step.Run logOps ⟨.WriteBinary, p, c⟩ log =
        (log ++ [.writeFile p (stringBytes c) 0o664], none)) := by
  refine ⟨fun fs p w => ⟨rfl, rfl⟩, fun p log => ⟨rfl, rfl⟩, ?_, ?_⟩
  · intro σ ε fs p c w hc
    simp [Step.Run, hc]
  · intro p c log hc
    simp [Step.Run, hc, logOps]

/-- C22 at the binding file: the empty content makes no call, the content `fe980000.usb`
makes one write of its twelve bytes. -/
theorem C22_empty_write_is_noop_witness :
    Step.Run logOps ⟨.Write, "g1/UDC", ""⟩ [] = ([], none) ∧
    Step.Run logOps ⟨.Write, "g1/UDC", "fe980000.usb"⟩ [] =
      ([.writeFile "g1/UDC" [102, 101, 57, 56, 48, 48, 48, 48, 46, 117, 115, 98] 436], none) :=
  ⟨(C22_empty_write_is_noop.2.1 "g1/UDC" []).1,
    (C22_empty_write_is_noop.2.2.2 "g1/UDC" "fe980000.usb" [] (by decide)).1⟩

/-- C23. A report encodes to an array of 8 bytes: for every report `r` (its array `Keycodes`
has six bytes), `r.Raw()` has the length `ReportLen = 8`, its byte 0 is the modifier byte
`r.Mod`, its byte 1 is 0, and its bytes 2 to 7 are `r.Keycodes[0]` to `r.Keycodes[5]` in
order. -/
theorem C23_Raw_layout (r : Report) (hr : r.Keycodes.length = 6) :
    ReportLen = 8 ∧ r.Raw.length = ReportLen ∧
    r.Raw[0]? = some r.Mod ∧ r.Raw[1]? = some 0 ∧
    (∀ i, i < 6 → ∃ c, r.Keycodes[i]? = some c ∧ r.Raw[i + 2]? = some c) ∧
    r.Raw.drop 2 = r.Keycodes := by
  refine ⟨rfl, by simp [Report.Raw, hr, ReportLen], by simp [Report.Raw], by simp [Report.Raw], ?_,
    rfl⟩
  intro i hi
  have hil : i < r.Keycodes.length := by omega
  exact ⟨r.Keycodes[i], List.getElem?_eq_getElem hil, by simp [Report.Raw, hil]⟩

/-- C23 at the report of the key `H` with the left shift. -/
theorem C23_Raw_layout_witness :
    Report.Raw ⟨2, [0x0B, 0, 0, 0, 0, 0]⟩ = [2, 0, 0x0B, 0, 0, 0, 0, 0] ∧
    (Report.Raw ⟨2, [0x0B, 0, 0, 0, 0, 0]⟩).length = ReportLen :=
  ⟨by decide, (C23_Raw_layout ⟨2, [0x0B, 0, 0, 0, 0, 0]⟩ (by decide)).2.1⟩

/-- C24. `Report.SetKeys` on a zero-valued report, for every list of keys. Let `P` be the
shortest initial part of the list that holds six keys with a key code (low byte) other than
0, or the whole list when there are fewer: `P` is an initial part of the list, it holds at
most six such keys, it is the whole list when it holds fewer, and it ends with such a key
when it holds six. Then `Keycodes` holds the key codes other than 0 of the keys of `P` in
order, followed by zeros up to six places, and `Mod` is the bitwise or of the modifiers
(high bytes) of the keys of `P`; the keys after `P` contribute nothing; and for every key
`k` below `2^16`, `(Key(k.Modifier()) << 8) | Key(k.Keycode()) = k`. -/
theorem C24_SetKeys_zero_report (keys : List Key) :
    keysUpTo 6 keys <+: keys ∧
    (keycodesOf (keysUpTo 6 keys)).length ≤ 6 ∧
    ((keycodesOf (keysUpTo 6 keys)).length < 6 → keysUpTo 6 keys = keys) ∧
    ((keycodesOf (keysUpTo 6 keys)).length = 6 →
      ∃ q k, keysUpTo 6 keys = q ++ [k] ∧ Key.Keycode k ≠ 0) ∧
    (Report.zero.SetKeys keys).Keycodes = padTo 6 (keycodesOf (keysUpTo 6 keys)) ∧
    (Report.zero.SetKeys keys).Mod = modifiersOf 0 (keysUpTo 6 keys) ∧
    Report.zero.SetKeys keys = Report.zero.SetKeys (keysUpTo 6 keys) ∧
    (∀ k : Key, k < 65536 → (Key.Modifier k <<< 8) ||| Key.Keycode k = k) := by
  obtain ⟨h1, h2, h3⟩ := keysUpTo_shortest 6 keys
  obtain ⟨h4, h5⟩ := SetKeys_zero_spec keys
  obtain ⟨h6, h7⟩ := SetKeys_zero_spec (keysUpTo 6 keys)
  rw [keysUpTo_idem] at h6 h7
  refine ⟨keysUpTo_isPrefix 6 keys, h1, h2, fun h => h3 h (by decide), h4, h5, ?_,
    fun k hk => Key.split k hk⟩
  have e1 := h4.trans h6.symm
  have e2 := h5.trans h7.symm
  revert e1 e2
  cases Report.zero.SetKeys keys
  cases Report.zero.SetKeys (keysUpTo 6 keys)
  intro e1 e2
  simp only at e1 e2
  rw [e1, e2]

/-- C24 at seven keys: the six key codes of the keys `A` to `F` fill the report, and the
seventh key, `G` with the left shift, adds neither its key code nor its modifier; with two
keys the report holds their key codes, two zeros more and the modifier of the shift. -/
theorem C24_SetKeys_zero_report_witness :
    Report.zero.SetKeys [Key_A, Key_B, Key_C, Key_D, Key_E, Key_F, Key_LeftShift ||| Key_G] =
      ⟨0, [0x04, 0x05, 0x06, 0x07, 0x08, 0x09]⟩ ∧
    Report.zero.SetKeys [Key_LeftShift, Key_H, Key_I] = ⟨2, [0x0B, 0x0C, 0, 0, 0, 0]⟩ ∧
    keysUpTo 6 [Key_A, Key_B, Key_C, Key_D, Key_E, Key_F, Key_LeftShift ||| Key_G] =
      [Key_A, Key_B, Key_C, Key_D, Key_E, Key_F] ∧
    Report.zero.SetKeys [Key_A, Key_B, Key_C, Key_D, Key_E, Key_F, Key_LeftShift ||| Key_G] =
      Report.zero.SetKeys
        (keysUpTo 6 [Key_A, Key_B, Key_C, Key_D, Key_E, Key_F, Key_LeftShift ||| Key_G]) :=
  ⟨by decide, by decide, by decide,
    (C24_SetKeys_zero_report
      [Key_A, Key_B, Key_C, Key_D, Key_E, Key_F, Key_LeftShift ||| Key_G]).2.2.2.2.2.2.1⟩

/-- C25. The identity writes carry well-formed hexadecimal ids: the steps 1 and 2 of
`CreateSteps` are the writes of `idVendor` and `idProduct` under the root; for a gadget with
`0 ≤ IdVendor ≤ 0xFFFF` the content of the first is `0x` followed by exactly four lowercase
hexadecimal digits whose value is `IdVendor`, and likewise for `IdProduct` and the
second. -/
theorem C25_hex_ids (g : Gadget) :
    (0 ≤ g.IdVendor → g.IdVendor ≤ 0xFFFF →
      ∃ ds : List Char,
        g.CreateSteps[1]? = some ⟨.Write, Join g.gadgetPath "idVendor", ⟨'0' :: 'x' :: ds⟩⟩ ∧
        ds.length = 4 ∧ (∀ c ∈ ds, c ∈ hexDigits) ∧ (hexValue ds : Int) = g.IdVendor) ∧
    (0 ≤ g.IdProduct → g.IdProduct ≤ 0xFFFF →
      ∃ ds : List Char,
        g.CreateSteps[2]? = some ⟨.Write, Join g.gadgetPath "idProduct", ⟨'0' :: 'x' :: ds⟩⟩ ∧
        ds.length = 4 ∧ (∀ c ∈ ds, c ∈ hexDigits) ∧ (hexValue ds : Int) = g.IdProduct) := by
  obtain ⟨e1, e2⟩ := CreateSteps_identity_writes g
  constructor
  · intro h0 h1
    obtain ⟨ds, hs, hl, hd, hv⟩ := sprintfHex04_spec g.IdVendor h0 h1
    exact ⟨ds, by rw [e1, hs], hl, hd, hv⟩
  · intro h0 h1
    obtain ⟨ds, hs, hl, hd, hv⟩ := sprintfHex04_spec g.IdProduct h0 h1
    exact ⟨ds, by rw [e2, hs], hl, hd, hv⟩

/-- C25 at the ids `0x1d6b` and `0x0104` of a sample gadget. -/
theorem C25_hex_ids_witness :
    multiGadget.CreateSteps[1]? =
      some ⟨.Write, "/sys/kernel/config/usb_gadget/g1/idVendor", "0x1d6b"⟩ ∧
    multiGadget.CreateSteps[2]? =
      some ⟨.Write, "/sys/kernel/config/usb_gadget/g1/idProduct", "0x0104"⟩ ∧
    (∃ ds : List Char,
      multiGadget.CreateSteps[2]? =
        some ⟨.Write, Join multiGadget.gadgetPath "idProduct", ⟨'0' :: 'x' :: ds⟩⟩ ∧
      ds.length = 4 ∧ (∀ c ∈ ds, c ∈ hexDigits) ∧
      (hexValue ds : Int) = multiGadget.IdProduct) :=
  ⟨by decide, by decide, (C25_hex_ids multiGadget).2 (by decide) (by decide)⟩

/-- C26. Bounds of the raw I2C transaction, for every device, message list and state. The
element access `cmsgs[0]` of `Device.Rdwr` is in range exactly when the list is not empty:
for the empty list `Rdwr` panics with the index 0 out of range of the length 0, and no
`ioctl` is issued; for a list that is not empty it returns the result of the one call
`ioctl(_I2C_RDWR, req)` whose request holds `min(len(msgs), 42)` messages, the first ones of
the list in order, each converted by `toC`, with `len = len(Buf) mod 2^16`. -/
theorem C26_Rdwr_bounds {σ ε : Type} (dev : I2C.Device σ ε) (msgs : List I2C.Msg) (w : σ) :
    (dev.Rdwr msgs w = .error (.indexOutOfRange 0 0) ↔ msgs = []) ∧
    ((∃ r, dev.Rdwr msgs w = .ok r) ↔ msgs ≠ []) ∧
    (msgs ≠ [] →
      dev.Rdwr msgs w =
        .ok (dev.ioctl I2C.I2C_RDWR
          { msgsPtr := (msgs.take 42).map I2C.Msg.toC, nmsgs := min msgs.length 42 } w)) ∧
    ((msgs.take 42).map I2C.Msg.toC).length = min msgs.length 42 ∧
    (∀ m : I2C.Msg, m.toC.addr = m.Addr ∧ m.toC.len = m.Buf.length % 2 ^ 16 ∧
      (m.toC.flags : Int) = m.Flags % 2 ^ 16) := by
  have hraw : ∀ n : Nat, (List.replicate n I2C.i2c_msg.zero).take (min msgs.length n) =
      List.replicate (min msgs.length n) I2C.i2c_msg.zero := by
    intro n
    rw [List.take_replicate]
    congr 1
    omega
  have hok : msgs ≠ [] →
      dev.Rdwr msgs w =
        .ok (dev.ioctl I2C.I2C_RDWR
          { msgsPtr := (msgs.take 42).map I2C.Msg.toC, nmsgs := min msgs.length 42 } w) := by
    intro hne
    have hpos : 0 < msgs.length := List.length_pos.2 hne
    have hN : I2C.I2C_RDWR_IOCTL_MAX_MSGS = 42 := rfl
    have hmin : 0 < min msgs.length 42 := by omega
    have hmod : min msgs.length 42 % 4294967296 = min msgs.length 42 := by omega
    unfold I2C.Device.Rdwr
    simp only [List.length_replicate]
    rw [hraw, hN]
    simp only [List.length_replicate, hmin, if_true, hmod]
    rw [I2C.fillMsgs_eq msgs _ (Nat.min_le_left _ _)]
    congr 4
    rw [List.take_eq_take]
    omega
  have herr : msgs = [] → dev.Rdwr msgs w = .error (.indexOutOfRange 0 0) := by
    intro h
    subst h
    rfl
  refine ⟨⟨fun h => ?_, herr⟩, ⟨fun h => ?_, fun h => ⟨_, hok h⟩⟩, hok, ?_, ?_⟩
  · by_contra hne
    rw [hok hne] at h
    cases h
  · intro he
    obtain ⟨r, hr⟩ := h
    rw [herr he] at hr
    cases hr
  · simp [List.length_take, Nat.min_comm]
  · intro m
    have ht : m.toC.addr = m.Addr ∧ m.toC.len = m.Buf.length % 65536 ∧
        m.toC.flags = (m.Flags % 65536).toNat := by
      unfold I2C.Msg.toC
      by_cases h : m.Buf.length % 65536 > 0 <;> simp [h]
    refine ⟨ht.1, ht.2.1, ?_⟩
    rw [ht.2.2, Int.toNat_of_nonneg (Int.emod_nonneg _ (by decide))]
    rfl

/-- C26 at the empty list, which panics, at a list of two messages, submitted as they are,
and at a list of 43 messages, of which 42 are submitted. -/
theorem C26_Rdwr_bounds_witness :
    I2C.logDevice.Rdwr [] [] = .error (.indexOutOfRange 0 0) ∧
    I2C.logDevice.Rdwr [⟨0x50, 0, [0x10]⟩, ⟨0x50, 0x4001, [0]⟩] [] =
      .ok ([(0x0707, ⟨[⟨0x50, 0, 1, some [0x10]⟩, ⟨0x50, 0x4001, 1, some [0]⟩], 2⟩)], none) ∧
    (∃ r, I2C.logDevice.Rdwr (List.replicate 43 ⟨0x50, 0, []⟩) [] = .ok r ∧
      r.1.map (fun q => q.2.nmsgs) = [42]) :=
  ⟨rfl, rfl,
    ⟨_, (C26_Rdwr_bounds I2C.logDevice (List.replicate 43 ⟨0x50, 0, []⟩) []).2.2.1 (by decide),
      by decide⟩⟩

end GadgetConfig
